import Mathlib

/-!
Verification of core components of an instructional relational database
(BusTub-style): LRU-K replacer, extendible hash table, lock manager
(isolation guards, 2PL transitions, wait-for graph deadlock detection)
and a B+ tree index.  Every definition is a shallow embedding of the
corresponding C++ function, translated statement by statement; machine
integers are modelled as `Nat` (the quantities involved are non-negative
and no overflow occurs at the sizes considered).
-/

namespace BusTub

/-! ### Lock manager: modes, isolation levels, transaction states

From `src/concurrency/lock_manager.cpp` and the enums it uses
(`LockManager::LockMode`, `IsolationLevel`, `TransactionState`,
`AbortReason`). -/

inductive LockMode where
  | IS | IX | S | SIX | X
deriving DecidableEq, Repr

inductive IsoLevel where
  | READ_UNCOMMITTED | READ_COMMITTED | REPEATABLE_READ
deriving DecidableEq, Repr

inductive TxnState where
  | GROWING | SHRINKING | COMMITTED | ABORTED
deriving DecidableEq, Repr

inductive AbortReason where
  | LOCK_ON_SHRINKING
  | UPGRADE_CONFLICT
  | INCOMPATIBLE_UPGRADE
  | LOCK_SHARED_ON_READ_UNCOMMITTED
  | ATTEMPTED_INTENTION_LOCK_ON_ROW
  | TABLE_LOCK_NOT_PRESENT
  | TABLE_UNLOCKED_BEFORE_UNLOCKING_ROWS
  | ATTEMPTED_UNLOCK_BUT_NO_LOCK_HELD
deriving DecidableEq, Repr

/-- Outcome of the entry guard of `LockTable` / `LockRow` (the code that
runs before any request-queue interaction).  `exitProcess` models the
`exit(-1)` call on an already COMMITTED/ABORTED transaction; `abort r`
models `txn->SetState(ABORTED); throw TransactionAbortException(_, r)`;
`proceed` means the guard passed and the operation goes on to the
request queue. -/
inductive GuardOutcome where
  | exitProcess
  | abort (r : AbortReason)
  | proceed
deriving DecidableEq, Repr

open LockMode IsoLevel TxnState AbortReason GuardOutcome

/-- Entry guard of `LockManager::LockTable`
(`src/concurrency/lock_manager.cpp` lines 44-72), translated branch for
branch.  It runs before the table lock map or any request queue is
touched, so an `abort` outcome happens without any wait on the queue's
condition variable. -/
def lockTableGuard (iso : IsoLevel) (st : TxnState) (mode : LockMode) : GuardOutcome :=
  if st = ABORTED ∨ st = COMMITTED then exitProcess
  else if iso = REPEATABLE_READ then
    if st = SHRINKING then abort LOCK_ON_SHRINKING else proceed
  else if iso = READ_COMMITTED then
    if st = SHRINKING ∧ (mode ≠ IS ∧ mode ≠ S) then abort LOCK_ON_SHRINKING else proceed
  else
    -- READ_UNCOMMITTED
    if mode ≠ IX ∧ mode ≠ X then abort LOCK_SHARED_ON_READ_UNCOMMITTED
    else if st = SHRINKING then abort LOCK_ON_SHRINKING
    else proceed

/-- New transaction state after the entry guard of `LockTable`: an
`abort` outcome sets the state to ABORTED, otherwise it is unchanged. -/
def guardState (st : TxnState) : GuardOutcome → TxnState
  | exitProcess => st
  | abort _ => ABORTED
  | proceed => st

/-- Entry guard of `LockManager::LockRow`
(`src/concurrency/lock_manager.cpp` lines 201-231), translated branch
for branch.  Note the intention-mode check comes first, before the
COMMITTED/ABORTED exit and before the isolation-level checks. -/
def lockRowGuard (iso : IsoLevel) (st : TxnState) (mode : LockMode) : GuardOutcome :=
  if mode = IX ∨ mode = IS ∨ mode = SIX then abort ATTEMPTED_INTENTION_LOCK_ON_ROW
  else if st = ABORTED ∨ st = COMMITTED then exitProcess
  else if iso = REPEATABLE_READ then
    if st = SHRINKING then abort LOCK_ON_SHRINKING else proceed
  else if iso = READ_COMMITTED then
    if st = SHRINKING ∧ mode ≠ S then abort LOCK_ON_SHRINKING else proceed
  else
    -- READ_UNCOMMITTED
    if mode ≠ X then abort LOCK_SHARED_ON_READ_UNCOMMITTED
    else if st = SHRINKING then abort LOCK_ON_SHRINKING
    else proceed

/-- State transition applied by `LockManager::UnlockTable`
(`src/concurrency/lock_manager.cpp` lines 159-167) when the granted
request with mode `mode` is found and removed: GROWING moves to
SHRINKING iff (RR and mode is X or S) or (RC and mode is X) or
(RU and mode is X). -/
def unlockTableNewState (iso : IsoLevel) (st : TxnState) (mode : LockMode) : TxnState :=
  if (st = GROWING ∧ iso = REPEATABLE_READ ∧ (mode = X ∨ mode = S)) ∨
     (st = GROWING ∧ iso = READ_COMMITTED ∧ mode = X) ∨
     (st = GROWING ∧ iso = READ_UNCOMMITTED ∧ mode = X) then SHRINKING
  else st

/-- State transition applied by `LockManager::UnlockRow`
(`src/concurrency/lock_manager.cpp` lines 336-343): under RR the move
to SHRINKING is unconditional in the mode of the unlocked row lock. -/
def unlockRowNewState (iso : IsoLevel) (st : TxnState) (mode : LockMode) : TxnState :=
  if (st = GROWING ∧ iso = REPEATABLE_READ) ∨
     (st = GROWING ∧ iso = READ_COMMITTED ∧ mode = X) ∨
     (st = GROWING ∧ iso = READ_UNCOMMITTED ∧ mode = X) then SHRINKING
  else st

/-- The condition under which, according to the specification, a
successful unlock moves a GROWING transaction to SHRINKING. -/
def specShrinkCond (iso : IsoLevel) (mode : LockMode) : Prop :=
  (iso = REPEATABLE_READ ∧ (mode = S ∨ mode = X)) ∨
  (iso = READ_COMMITTED ∧ mode = X) ∨
  (iso = READ_UNCOMMITTED ∧ mode = X)

instance (iso : IsoLevel) (mode : LockMode) : Decidable (specShrinkCond iso mode) := by
  unfold specShrinkCond; infer_instance

/-! ### Wait-for graph (deadlock detection)

`waits_for_` is a map from transaction id to its (sorted) adjacency
vector.  We model it as an association list with pairwise distinct
keys, which is all `std::unordered_map` guarantees. -/

/-- The wait-for graph: association list from txn id to adjacency list. -/
abbrev WaitGraph := List (Nat × List Nat)

/-- Adjacency list of `t` (empty when `t` is not a key). -/
def adjOf (g : WaitGraph) (t : Nat) : List Nat :=
  ((g.find? (fun p => p.1 = t)).map Prod.snd).getD []

/-- Whether `t` is a key of the map. -/
def hasKey (g : WaitGraph) (t : Nat) : Bool :=
  (g.find? (fun p => p.1 = t)).isSome

/-- `LockManager::RemoveEdge` (`src/concurrency/lock_manager.cpp`
lines 401-409), translated faithfully: the loop
`for (iter = waits_for_[t1].begin(); iter != waits_for_[t1].begin(); iter++)`
has a trivially false condition and executes zero iterations, so the
only effect of the call is the `operator[]` default-insertion of an
empty adjacency vector when `t1` is not yet a key. -/
def removeEdge (g : WaitGraph) (t1 : Nat) (_t2 : Nat) : WaitGraph :=
  if hasKey g t1 then g else g ++ [(t1, [])]

/-! ### Theorems for the lock-manager guards and 2PL transitions -/

/-- C6 (counterexample): under READ_UNCOMMITTED, `LockRow` with an
intention mode (here IS) raises `ATTEMPTED_INTENTION_LOCK_ON_ROW`, not
`LOCK_SHARED_ON_READ_UNCOMMITTED` as the claim states: the
intention-mode check precedes the isolation check in `LockRow`. -/
theorem lockRow_ru_intention_counterexample :
    lockRowGuard READ_UNCOMMITTED GROWING IS = abort ATTEMPTED_INTENTION_LOCK_ON_ROW ∧
    lockRowGuard READ_UNCOMMITTED GROWING IS ≠ abort LOCK_SHARED_ON_READ_UNCOMMITTED := by
  decide

/-- C6 (amended): for a live transaction (GROWING or SHRINKING) at
READ_UNCOMMITTED: `LockTable` with mode S, IS or SIX, and `LockRow`
with mode S, set the state to ABORTED and raise
`LOCK_SHARED_ON_READ_UNCOMMITTED` in the entry guard, i.e. before any
request-queue interaction (so without waiting on the queue's condition
variable); `LockRow` with an intention mode instead aborts with
`ATTEMPTED_INTENTION_LOCK_ON_ROW`. -/
theorem ru_isolation_guard (st : TxnState) (mode : LockMode)
    (hlive : st = GROWING ∨ st = SHRINKING) :
    ((mode = S ∨ mode = IS ∨ mode = SIX) →
      lockTableGuard READ_UNCOMMITTED st mode = abort LOCK_SHARED_ON_READ_UNCOMMITTED ∧
      guardState st (lockTableGuard READ_UNCOMMITTED st mode) = ABORTED) ∧
    (lockRowGuard READ_UNCOMMITTED st LockMode.S = abort LOCK_SHARED_ON_READ_UNCOMMITTED ∧
      guardState st (lockRowGuard READ_UNCOMMITTED st LockMode.S) = ABORTED) ∧
    ((mode = IS ∨ mode = IX ∨ mode = SIX) →
      lockRowGuard READ_UNCOMMITTED st mode = abort ATTEMPTED_INTENTION_LOCK_ON_ROW) := by
  rcases hlive with h | h <;> subst h <;> rcases mode <;> decide

/-- C6 witness: the amended theorem applied at a concrete input. -/
theorem ru_isolation_guard_witness :
    lockTableGuard READ_UNCOMMITTED GROWING LockMode.S =
      abort LOCK_SHARED_ON_READ_UNCOMMITTED ∧
    guardState GROWING (lockTableGuard READ_UNCOMMITTED GROWING LockMode.S) = ABORTED :=
  (ru_isolation_guard GROWING LockMode.S (Or.inl rfl)).1 (Or.inl rfl)

/-- C7: the GROWING → SHRINKING transition on a successful unlock
matches the specification condition exactly: for table unlocks for
every mode, and for row unlocks for the modes S and X (the only modes a
row lock can hold, since `LockRow` rejects intention modes before
enqueueing).  In all other cases the state is unchanged. -/
theorem unlock_2pl_transition (iso : IsoLevel) (st : TxnState) (mode : LockMode) :
    (unlockTableNewState iso st mode =
      if st = GROWING ∧ specShrinkCond iso mode then SHRINKING else st) ∧
    ((mode = S ∨ mode = X) →
      unlockRowNewState iso st mode =
        if st = GROWING ∧ specShrinkCond iso mode then SHRINKING else st) := by
  rcases iso <;> rcases st <;> rcases mode <;> decide

/-- C7 witness: the theorem applied at a concrete input. -/
theorem unlock_2pl_transition_witness :
    unlockRowNewState REPEATABLE_READ GROWING LockMode.S =
      if GROWING = GROWING ∧ specShrinkCond REPEATABLE_READ LockMode.S then SHRINKING
      else GROWING :=
  (unlock_2pl_transition REPEATABLE_READ GROWING LockMode.S).2 (Or.inl rfl)

/-- C3 (code bug): `RemoveEdge(1, 2)` on the graph `{1 ↦ [2]}` leaves
the adjacency list of 1 unchanged — the edge 1 → 2 is still present —
because the loop bound `iter != waits_for_[t1].begin()` executes zero
iterations. -/
theorem removeEdge_noop_failing_input :
    removeEdge [(1, [2])] 1 2 = [(1, [2])] ∧ 2 ∈ adjOf (removeEdge [(1, [2])] 1 2) 1 := by
  constructor
  · rfl
  · simp [removeEdge, adjOf, hasKey, List.find?]

/-! ### LRU-K replacer

From `src/buffer/lru_k_replacer.cpp`.  The frame table `hash_` is an
`std::unordered_map<frame_id_t, Entry>` where each entry holds a FIFO
queue `time_` of up to `k_` access timestamps (head = oldest retained)
and an `evictable_` flag; `operator[]` on a missing key
value-initializes the entry (empty queue, `evictable_ = false`).  We
model the map as an association list with pairwise distinct keys. -/

structure FrameEntry where
  time : List Nat
  evictable : Bool
deriving DecidableEq, Repr

structure Replacer where
  entries : List (Nat × FrameEntry)
  currentTimestamp : Nat
  currSize : Nat
  replacerSize : Nat
  k : Nat
deriving DecidableEq, Repr

/-- `LRUKReplacer(num_frames, k)`. -/
def initReplacer (numFrames k : Nat) : Replacer :=
  ⟨[], 0, 0, numFrames, k⟩

/-- `hash_.find(f)` on the association list. -/
def lookupFrame (s : Replacer) (f : Nat) : Option FrameEntry :=
  (s.entries.find? (fun p => p.1 = f)).map Prod.snd

/-- Replace the entry of key `f` (keys are pairwise distinct, so at most
one position changes). -/
def setFrame (entries : List (Nat × FrameEntry)) (f : Nat) (e : FrameEntry) :
    List (Nat × FrameEntry) :=
  entries.map (fun p => if p.1 = f then (f, e) else p)

/-- `time_` of frame `f` (`hash_[s].time_` on keys known to be present). -/
def timeOf (s : Replacer) (f : Nat) : List Nat :=
  ((lookupFrame s f).getD ⟨[], false⟩).time

/-- `LRUKReplacer::Judge(s, t)` on the two time queues: a frame with
fewer than `k` samples beats one with `k` samples; otherwise the
smaller front (oldest retained timestamp) wins. -/
def judgeT (k : Nat) (ts tt : List Nat) : Bool :=
  if ts.length < k ∧ tt.length = k then true
  else if ts.length = k ∧ tt.length < k then false
  else ts.headD 0 < tt.headD 0

/-- `LRUKReplacer::Judge` (lines 19-27). -/
def judge (s : Replacer) (a b : Nat) : Bool :=
  judgeT s.k (timeOf s a) (timeOf s b)

/-- Loop body of the scan in `LRUKReplacer::Evict` (lines 32-38): keep
the running best evictable frame under `Judge`. -/
def evictStep (s : Replacer) (best : Option Nat) (p : Nat × FrameEntry) : Option Nat :=
  if p.2.evictable then
    match best with
    | none => some p.1
    | some b => if judge s p.1 b then some p.1 else best
  else best

/-- The scan loop of `LRUKReplacer::Evict` (lines 32-38). -/
def evictScan (s : Replacer) : Option Nat :=
  s.entries.foldl (evictStep s) none

/-- `LRUKReplacer::Evict` (lines 29-46): on success erase the frame and
decrement `curr_size_`. -/
def evict (s : Replacer) : Option Nat × Replacer :=
  match evictScan s with
  | some f =>
      (some f,
       { s with entries := s.entries.eraseP (fun p => p.1 = f), currSize := s.currSize - 1 })
  | none => (none, s)

/-- `LRUKReplacer::RecordAccess` (lines 48-57).  A new frame is dropped
when the table is full; otherwise the entry (default-created when
missing) pops the oldest sample if the queue already holds `k` and
pushes a fresh timestamp. -/
def recordAccess (s : Replacer) (f : Nat) : Replacer :=
  if (lookupFrame s f).isNone ∧ s.entries.length = s.replacerSize then s
  else
    let e := (lookupFrame s f).getD ⟨[], false⟩
    let t := if e.time.length = s.k then e.time.tail else e.time
    let e' : FrameEntry := ⟨t ++ [s.currentTimestamp], e.evictable⟩
    let entries' :=
      if (lookupFrame s f).isSome then setFrame s.entries f e' else s.entries ++ [(f, e')]
    { s with entries := entries', currentTimestamp := s.currentTimestamp + 1 }

/-- `LRUKReplacer::SetEvictable` (lines 59-70). -/
def setEvictable (s : Replacer) (f : Nat) (b : Bool) : Replacer :=
  match lookupFrame s f with
  | none => s
  | some e =>
      let s1 := { s with entries := setFrame s.entries f ⟨e.time, b⟩ }
      if ¬e.evictable ∧ b then { s1 with currSize := s.currSize + 1 }
      else if e.evictable ∧ ¬b then { s1 with currSize := s.currSize - 1 }
      else s1

/-- `LRUKReplacer::Remove` (lines 72-82); `none` models the `throw` on
removing a non-evictable frame. -/
def removeFrame (s : Replacer) (f : Nat) : Option Replacer :=
  match lookupFrame s f with
  | none => some s
  | some e =>
      if ¬e.evictable then none
      else some
        { s with entries := s.entries.eraseP (fun p => p.1 = f), currSize := s.currSize - 1 }

/-- States reachable by any single-threaded sequence of replacer
operations from a freshly constructed replacer. -/
inductive ReachR : Replacer → Prop where
  | init (numFrames k : Nat) : ReachR (initReplacer numFrames k)
  | record (s : Replacer) (f : Nat) : ReachR s → ReachR (recordAccess s f)
  | setEv (s : Replacer) (f : Nat) (b : Bool) : ReachR s → ReachR (setEvictable s f b)
  | evictStep (s : Replacer) : ReachR s → ReachR (evict s).2
  | removeStep (s s' : Replacer) (f : Nat) : ReachR s → removeFrame s f = some s' → ReachR s'

/-- Invariant of reachable replacer states. -/
structure InvR (s : Replacer) : Prop where
  keysNodup : (s.entries.map Prod.fst).Nodup
  nonempty : ∀ p ∈ s.entries, p.2.time ≠ []
  lenLe : 1 ≤ s.k → ∀ p ∈ s.entries, p.2.time.length ≤ s.k
  ltTs : ∀ p ∈ s.entries, ∀ t ∈ p.2.time, t < s.currentTimestamp
  disjTimes : ∀ p ∈ s.entries, ∀ q ∈ s.entries, p.1 ≠ q.1 →
    ∀ t ∈ p.2.time, t ∉ q.2.time
  sizeEq : s.currSize = (s.entries.filter (fun p => p.2.evictable)).length

/-! #### Association-list helper lemmas -/

theorem lookupFrame_mem {s : Replacer} {f : Nat} {e : FrameEntry}
    (h : lookupFrame s f = some e) : (f, e) ∈ s.entries := by
  unfold lookupFrame at h
  rw [Option.map_eq_some'] at h
  obtain ⟨p, hf, hsnd⟩ := h
  have hp := List.find?_some hf
  have hmem := List.mem_of_find?_eq_some hf
  simp only [decide_eq_true_eq] at hp
  have hpe : p = (f, e) := Prod.ext hp hsnd
  rwa [hpe] at hmem

theorem lookupFrame_eq_none {s : Replacer} {f : Nat} :
    lookupFrame s f = none ↔ ∀ p ∈ s.entries, p.1 ≠ f := by
  unfold lookupFrame
  simp [List.find?_eq_none]

theorem mem_lookupFrame {s : Replacer} {f : Nat} {e : FrameEntry}
    (hnd : (s.entries.map Prod.fst).Nodup) (hm : (f, e) ∈ s.entries) :
    lookupFrame s f = some e := by
  unfold lookupFrame
  rcases hf : s.entries.find? (fun p => p.1 = f) with _ | p
  · exfalso
    rw [List.find?_eq_none] at hf
    exact hf _ hm (by simp)
  · have hp := List.find?_some hf
    have hmem := List.mem_of_find?_eq_some hf
    simp only [decide_eq_true_eq] at hp
    have hpe : p = (f, e) :=
      List.inj_on_of_nodup_map hnd hmem hm (by simpa using hp)
    rw [hf, hpe]
    rfl

/-- Decompose an association list with distinct keys around the entry
holding key `f`. -/
theorem assoc_decomp {l : List (Nat × FrameEntry)} {f : Nat} {e : FrameEntry}
    (hnd : (l.map Prod.fst).Nodup) (hm : (f, e) ∈ l) :
    ∃ l1 l2, l = l1 ++ (f, e) :: l2 ∧ (∀ q ∈ l1, q.1 ≠ f) ∧ (∀ q ∈ l2, q.1 ≠ f) := by
  obtain ⟨l1, l2, rfl⟩ := List.append_of_mem hm
  have h1 : (l1.map Prod.fst ++ f :: l2.map Prod.fst).Nodup := by
    simpa using hnd
  refine ⟨l1, l2, rfl, ?_, ?_⟩
  · intro q hq hqf
    have hdisj := (List.nodup_append.mp h1).2.2
    have hfin : f ∈ l1.map Prod.fst := by
      rw [← hqf]; exact List.mem_map_of_mem _ hq
    exact hdisj hfin (by simp)
  · intro q hq hqf
    have h2 := (List.nodup_append.mp h1).2.1
    rw [List.nodup_cons] at h2
    exact h2.1 (by rw [← hqf]; exact List.mem_map_of_mem _ hq)

theorem setFrame_of_decomp {l1 l2 : List (Nat × FrameEntry)} {f : Nat}
    {e e' : FrameEntry} (h1 : ∀ q ∈ l1, q.1 ≠ f) (h2 : ∀ q ∈ l2, q.1 ≠ f) :
    setFrame (l1 ++ (f, e) :: l2) f e' = l1 ++ (f, e') :: l2 := by
  unfold setFrame
  rw [List.map_append, List.map_cons]
  congr 1
  · exact ((List.map_congr_left (fun q hq => by simp [h1 q hq])) :
      _ = List.map id l1).trans (List.map_id l1)
  · congr 1
    · simp
    · exact ((List.map_congr_left (fun q hq => by simp [h2 q hq])) :
        _ = List.map id l2).trans (List.map_id l2)

theorem eraseP_of_decomp {l1 l2 : List (Nat × FrameEntry)} {f : Nat}
    {e : FrameEntry} (h1 : ∀ q ∈ l1, q.1 ≠ f) :
    (l1 ++ (f, e) :: l2).eraseP (fun p => p.1 = f) = l1 ++ l2 := by
  induction l1 with
  | nil => simp
  | cons a t ih =>
      have ha : a.1 ≠ f := h1 a (by simp)
      simp only [List.cons_append]
      rw [List.eraseP_cons_of_neg (by simpa using ha),
        ih (fun q hq => h1 q (by simp [hq]))]

theorem setFrame_keys (l : List (Nat × FrameEntry)) (f : Nat) (e : FrameEntry) :
    (setFrame l f e).map Prod.fst = l.map Prod.fst := by
  unfold setFrame
  rw [List.map_map]
  apply List.map_congr_left
  intro p _
  by_cases h : p.1 = f <;> simp [h]

theorem headD_mem {l : List Nat} (h : l ≠ []) : l.headD 0 ∈ l := by
  cases l with
  | nil => exact absurd rfl h
  | cons a t => simp

/-! #### Invariant preservation -/

theorem invR_init (numFrames k : Nat) : InvR (initReplacer numFrames k) := by
  constructor <;> simp [initReplacer]

/-- Appending a fresh frame with a single fresh timestamp preserves the
invariant. -/
theorem invR_append_fresh {s : Replacer} (inv : InvR s) (f : Nat)
    (hno : ∀ p ∈ s.entries, p.1 ≠ f) :
    InvR ⟨s.entries ++ [(f, ⟨[s.currentTimestamp], false⟩)],
      s.currentTimestamp + 1, s.currSize, s.replacerSize, s.k⟩ := by
  refine ⟨?_, ?_, ?_, ?_, ?_, ?_⟩ <;> dsimp only
  · simp only [List.map_append, List.map_singleton]
    rw [List.nodup_append]
    refine ⟨inv.keysNodup, by simp, ?_⟩
    intro a ha hb
    simp only [List.mem_singleton] at hb
    subst hb
    obtain ⟨p, hp, hpf⟩ := List.mem_map.mp ha
    exact hno p hp hpf
  · intro p hp
    rcases List.mem_append.mp hp with h | h
    · exact inv.nonempty p h
    · simp only [List.mem_singleton] at h
      subst h; simp
  · intro hk p hp
    rcases List.mem_append.mp hp with h | h
    · exact inv.lenLe hk p h
    · simp only [List.mem_singleton] at h
      subst h; simpa using hk
  · intro p hp t ht
    rcases List.mem_append.mp hp with h | h
    · exact Nat.lt_succ_of_lt (inv.ltTs p h t ht)
    · simp only [List.mem_singleton] at h
      subst h
      simp only [List.mem_singleton] at ht
      omega
  · intro p hp q hq hne t ht
    rcases List.mem_append.mp hp with h | h <;> rcases List.mem_append.mp hq with h' | h'
    · exact inv.disjTimes p h q h' hne t ht
    · simp only [List.mem_singleton] at h'
      subst h'
      simp only [List.mem_singleton]
      exact Nat.ne_of_lt (inv.ltTs p h t ht)
    · simp only [List.mem_singleton] at h
      subst h
      simp only [List.mem_singleton] at ht
      subst ht
      intro hc
      exact absurd rfl (Nat.ne_of_gt (inv.ltTs q h' _ hc))
    · simp only [List.mem_singleton] at h h'
      subst h; subst h'
      exact absurd rfl hne
  · simp only [List.filter_append]
    simpa using inv.sizeEq

/-- Replacing the time queue of an existing frame by a sub-multiset of
its old queue plus one fresh timestamp preserves the invariant. -/
theorem invR_update_time {s : Replacer} (inv : InvR s) {f : Nat} {e : FrameEntry}
    (hlk : lookupFrame s f = some e) (t0 : List Nat)
    (hsub : ∀ x ∈ t0, x ∈ e.time)
    (hlen : 1 ≤ s.k → t0.length + 1 ≤ s.k) :
    InvR ⟨setFrame s.entries f ⟨t0 ++ [s.currentTimestamp], e.evictable⟩,
      s.currentTimestamp + 1, s.currSize, s.replacerSize, s.k⟩ := by
  have hmem : (f, e) ∈ s.entries := lookupFrame_mem hlk
  obtain ⟨l1, l2, hdec, hk1, hk2⟩ := assoc_decomp inv.keysNodup hmem
  set eNew : FrameEntry := ⟨t0 ++ [s.currentTimestamp], e.evictable⟩ with heNew
  have hset : setFrame s.entries f eNew = l1 ++ (f, eNew) :: l2 := by
    rw [hdec]; exact setFrame_of_decomp hk1 hk2
  have hmem2 : ∀ p, p ∈ l1 ++ (f, eNew) :: l2 →
      p = (f, eNew) ∨ (p ∈ s.entries ∧ p.1 ≠ f) := by
    intro p hp
    rcases List.mem_append.mp hp with h | h
    · exact Or.inr ⟨by rw [hdec]; exact List.mem_append_left _ h, hk1 p h⟩
    · rcases List.mem_cons.mp h with h' | h'
      · exact Or.inl h'
      · exact Or.inr ⟨by rw [hdec]; exact List.mem_append_right _ (List.mem_cons_of_mem _ h'),
          hk2 p h'⟩
  refine ⟨?_, ?_, ?_, ?_, ?_, ?_⟩ <;> dsimp only <;> rw [hset]
  · have hkeys : (l1 ++ (f, eNew) :: l2).map Prod.fst = s.entries.map Prod.fst := by
      rw [hdec]; simp
    rw [hkeys]; exact inv.keysNodup
  · intro p hp
    rcases hmem2 p hp with h | ⟨h, _⟩
    · subst h; simp [heNew]
    · exact inv.nonempty p h
  · intro hk p hp
    rcases hmem2 p hp with h | ⟨h, _⟩
    · subst h
      simpa [heNew] using hlen hk
    · exact inv.lenLe hk p h
  · intro p hp x hx
    rcases hmem2 p hp with h | ⟨h, _⟩
    · subst h
      simp only [heNew, List.mem_append, List.mem_singleton] at hx
      rcases hx with h' | h'
      · exact Nat.lt_succ_of_lt (inv.ltTs _ hmem x (hsub x h'))
      · omega
    · exact Nat.lt_succ_of_lt (inv.ltTs p h x hx)
  · intro p hp q hq hne x hx
    rcases hmem2 p hp with h | ⟨h, hpf⟩ <;> rcases hmem2 q hq with h' | ⟨h', hqf⟩
    · subst h; subst h'; exact absurd rfl hne
    · subst h
      simp only [heNew, List.mem_append, List.mem_singleton] at hx
      rcases hx with h'' | h''
      · exact inv.disjTimes _ hmem q h' (Ne.symm hqf) x (hsub x h'')
      · subst h''
        intro hc
        exact absurd rfl (Nat.ne_of_gt (inv.ltTs q h' _ hc))
    · subst h'
      simp only [heNew, List.mem_append, List.mem_singleton]
      intro hc
      rcases hc with h'' | h''
      · exact inv.disjTimes p h _ hmem hpf x hx (hsub _ h'')
      · exact absurd h'' (Nat.ne_of_lt (inv.ltTs p h x hx))
    · exact inv.disjTimes p h q h' hne x hx
  · have hfil : ((l1 ++ (f, eNew) :: l2).filter (fun p => p.2.evictable)).length =
        (s.entries.filter (fun p => p.2.evictable)).length := by
      rw [hdec]
      simp only [List.filter_append, List.filter_cons]
      have : eNew.evictable = e.evictable := rfl
      rw [this]
      cases e.evictable <;> simp
    rw [hfil]; exact inv.sizeEq

/-- `RecordAccess` preserves the invariant. -/
theorem invR_record {s : Replacer} (inv : InvR s) (f : Nat) :
    InvR (recordAccess s f) := by
  unfold recordAccess
  by_cases hdrop : (lookupFrame s f).isNone ∧ s.entries.length = s.replacerSize
  · simpa [hdrop] using inv
  · rw [if_neg hdrop]
    rcases hlk : lookupFrame s f with _ | e
    · have hno : ∀ p ∈ s.entries, p.1 ≠ f := lookupFrame_eq_none.mp hlk
      have ht : (if (([] : List Nat)).length = s.k then ([] : List Nat).tail
          else ([] : List Nat)) = [] := by split <;> rfl
      simp only [hlk, Option.getD_none, Option.isSome_none, Bool.false_eq_true, if_false, ht]
      exact invR_append_fresh inv f hno
    · have ht0 : ∀ x ∈ (if e.time.length = s.k then e.time.tail else e.time), x ∈ e.time := by
        intro x hx
        split at hx
        · exact List.mem_of_mem_tail hx
        · exact hx
      have hlen : 1 ≤ s.k →
          (if e.time.length = s.k then e.time.tail else e.time).length + 1 ≤ s.k := by
        intro hk
        have hle := inv.lenLe hk _ (lookupFrame_mem hlk)
        simp only at hle
        split
        · rename_i hkk
          rw [List.length_tail, hkk]
          omega
        · rename_i hkk
          omega
      simp only [hlk, Option.getD_some, Option.isSome_some, if_true]
      exact invR_update_time inv hlk _ ht0 hlen

/-- Core of the `SetEvictable` preservation: flipping the flag of an
existing frame keeps every component except possibly the evictable
count, which is supplied from outside. -/
theorem invR_set_flag_core {s : Replacer} (inv : InvR s) {f : Nat} {e : FrameEntry}
    (hlk : lookupFrame s f = some e) (b : Bool) (cs : Nat)
    (hcs : cs = ((setFrame s.entries f ⟨e.time, b⟩).filter (fun p => p.2.evictable)).length) :
    InvR ⟨setFrame s.entries f ⟨e.time, b⟩, s.currentTimestamp, cs,
      s.replacerSize, s.k⟩ := by
  have hmem : (f, e) ∈ s.entries := lookupFrame_mem hlk
  obtain ⟨l1, l2, hdec, hk1, hk2⟩ := assoc_decomp inv.keysNodup hmem
  set eNew : FrameEntry := ⟨e.time, b⟩ with heNew
  have hset : setFrame s.entries f eNew = l1 ++ (f, eNew) :: l2 := by
    rw [hdec]; exact setFrame_of_decomp hk1 hk2
  have hmem2 : ∀ p, p ∈ l1 ++ (f, eNew) :: l2 →
      p = (f, eNew) ∨ (p ∈ s.entries ∧ p.1 ≠ f) := by
    intro p hp
    rcases List.mem_append.mp hp with h | h
    · exact Or.inr ⟨by rw [hdec]; exact List.mem_append_left _ h, hk1 p h⟩
    · rcases List.mem_cons.mp h with h' | h'
      · exact Or.inl h'
      · exact Or.inr ⟨by rw [hdec]; exact List.mem_append_right _ (List.mem_cons_of_mem _ h'),
          hk2 p h'⟩
  refine ⟨?_, ?_, ?_, ?_, ?_, ?_⟩ <;> dsimp only <;> rw [hset]
  · have hkeys : (l1 ++ (f, eNew) :: l2).map Prod.fst = s.entries.map Prod.fst := by
      rw [hdec]; simp
    rw [hkeys]; exact inv.keysNodup
  · intro p hp
    rcases hmem2 p hp with h | ⟨h, _⟩
    · subst h
      simpa [heNew] using inv.nonempty _ hmem
    · exact inv.nonempty p h
  · intro hk p hp
    rcases hmem2 p hp with h | ⟨h, _⟩
    · subst h
      simpa [heNew] using inv.lenLe hk _ hmem
    · exact inv.lenLe hk p h
  · intro p hp x hx
    rcases hmem2 p hp with h | ⟨h, _⟩
    · subst h
      exact inv.ltTs _ hmem x hx
    · exact inv.ltTs p h x hx
  · intro p hp q hq hne x hx
    rcases hmem2 p hp with h | ⟨h, hpf⟩ <;> rcases hmem2 q hq with h' | ⟨h', hqf⟩
    · subst h; subst h'; exact absurd rfl hne
    · subst h
      exact inv.disjTimes _ hmem q h' (Ne.symm hqf) x hx
    · subst h'
      exact inv.disjTimes p h _ hmem hpf x hx
    · exact inv.disjTimes p h q h' hne x hx
  · rw [hcs, hset]

/-- Filter-count bookkeeping for replacing the entry of `f`. -/
theorem count_setFrame {s : Replacer} (inv : InvR s) {f : Nat} {e : FrameEntry}
    (hlk : lookupFrame s f = some e) (e' : FrameEntry) :
    ((setFrame s.entries f e').filter (fun p => p.2.evictable)).length +
        (if e.evictable then 1 else 0) =
      (s.entries.filter (fun p => p.2.evictable)).length +
        (if e'.evictable then 1 else 0) := by
  have hmem : (f, e) ∈ s.entries := lookupFrame_mem hlk
  obtain ⟨l1, l2, hdec, hk1, hk2⟩ := assoc_decomp inv.keysNodup hmem
  have hset : setFrame s.entries f e' = l1 ++ (f, e') :: l2 := by
    rw [hdec]; exact setFrame_of_decomp hk1 hk2
  rw [hset, hdec]
  simp only [List.filter_append, List.filter_cons, List.length_append]
  cases he : e.evictable <;> cases he' : e'.evictable <;> simp <;> omega

/-- Filter-count bookkeeping for erasing the entry of `f`. -/
theorem count_eraseP {s : Replacer} (inv : InvR s) {f : Nat} {e : FrameEntry}
    (hmem : (f, e) ∈ s.entries) :
    ((s.entries.eraseP (fun p => p.1 = f)).filter (fun p => p.2.evictable)).length +
        (if e.evictable then 1 else 0) =
      (s.entries.filter (fun p => p.2.evictable)).length := by
  obtain ⟨l1, l2, hdec, hk1, hk2⟩ := assoc_decomp inv.keysNodup hmem
  have hera : s.entries.eraseP (fun p => p.1 = f) = l1 ++ l2 := by
    rw [hdec]; exact eraseP_of_decomp hk1
  rw [hera, hdec]
  simp only [List.filter_append, List.filter_cons, List.length_append]
  cases he : e.evictable <;> (simp; try omega)

/-- Erasing an evictable member frame and decrementing `curr_size_`
preserves the invariant. -/
theorem invR_erase_core {s : Replacer} (inv : InvR s) {f : Nat} {e : FrameEntry}
    (hmem : (f, e) ∈ s.entries) (hev : e.evictable = true) :
    InvR ⟨s.entries.eraseP (fun p => p.1 = f), s.currentTimestamp, s.currSize - 1,
      s.replacerSize, s.k⟩ := by
  have hsub : List.Sublist (s.entries.eraseP (fun p => p.1 = f)) s.entries :=
    List.eraseP_sublist _
  have hmemOf : ∀ p ∈ s.entries.eraseP (fun p => p.1 = f), p ∈ s.entries :=
    fun p hp => hsub.subset hp
  refine ⟨?_, ?_, ?_, ?_, ?_, ?_⟩ <;> dsimp only
  · exact (hsub.map Prod.fst).nodup inv.keysNodup
  · exact fun p hp => inv.nonempty p (hmemOf p hp)
  · exact fun hk p hp => inv.lenLe hk p (hmemOf p hp)
  · exact fun p hp x hx => inv.ltTs p (hmemOf p hp) x hx
  · exact fun p hp q hq hne x hx =>
      inv.disjTimes p (hmemOf p hp) q (hmemOf q hq) hne x hx
  · have hc := count_eraseP inv hmem
    rw [hev] at hc
    simp only [if_true] at hc
    rw [inv.sizeEq]
    omega

/-- `SetEvictable` preserves the invariant. -/
theorem invR_setEvictable {s : Replacer} (inv : InvR s) (f : Nat) (b : Bool) :
    InvR (setEvictable s f b) := by
  unfold setEvictable
  rcases hlk : lookupFrame s f with _ | e
  · exact inv
  · simp only
    have hc := count_setFrame inv hlk ⟨e.time, b⟩
    dsimp only at hc
    by_cases h1 : ¬e.evictable ∧ b
    · rw [if_pos h1]
      refine invR_set_flag_core inv hlk b _ ?_
      obtain ⟨he, hb⟩ := h1
      simp only [Bool.not_eq_true] at he
      subst hb
      rw [he] at hc
      simp at hc
      rw [inv.sizeEq]
      omega
    · rw [if_neg h1]
      by_cases h2 : e.evictable ∧ ¬b
      · rw [if_pos h2]
        refine invR_set_flag_core inv hlk b _ ?_
        obtain ⟨he, hb⟩ := h2
        simp only [Bool.not_eq_true] at hb
        subst hb
        rw [he] at hc
        simp at hc
        rw [inv.sizeEq]
        omega
      · rw [if_neg h2]
        refine invR_set_flag_core inv hlk b _ ?_
        have heb : e.evictable = b := by
          cases he : e.evictable <;> cases hb : b <;> simp_all
        rw [heb] at hc
        rw [inv.sizeEq]
        omega

/-! #### The eviction order -/

/-- Class of a time queue: 0 when it has fewer than `k` samples
(backward K-distance `+∞`), 1 otherwise. -/
def rankOf (k : Nat) (t : List Nat) : Nat :=
  if t.length < k then 0 else 1

/-- On queues of length at most `k`, `Judge` is the strict
lexicographic order on (class, front). -/
theorem judgeT_eq_true_iff {k : Nat} {ta tb : List Nat}
    (ha : ta.length ≤ k) (hb : tb.length ≤ k) :
    judgeT k ta tb = true ↔
      (rankOf k ta < rankOf k tb ∨
        (rankOf k ta = rankOf k tb ∧ ta.headD 0 < tb.headD 0)) := by
  unfold judgeT rankOf
  by_cases h1 : ta.length < k <;> by_cases h2 : tb.length < k
  · have h2' : tb.length ≠ k := Nat.ne_of_lt h2
    have h1' : ta.length ≠ k := Nat.ne_of_lt h1
    simp [h1, h2, h1', h2']
  · have h2' : tb.length = k := by omega
    simp [h1, h2, h2']
  · have h1' : ta.length = k := by omega
    have h2' : tb.length ≠ k := Nat.ne_of_lt h2
    simp [h1, h2, h1', h2']
  · have h1' : ta.length = k := by omega
    have h2' : tb.length = k := by omega
    simp [h1, h2, h1', h2']

/-- `timeOf` of a member frame is its stored queue. -/
theorem timeOf_of_mem {s : Replacer} (hnd : (s.entries.map Prod.fst).Nodup)
    {f : Nat} {e : FrameEntry} (hm : (f, e) ∈ s.entries) : timeOf s f = e.time := by
  unfold timeOf
  rw [mem_lookupFrame hnd hm]
  rfl

/-- Fronts of two distinct member frames differ. -/
theorem fronts_ne {s : Replacer} (inv : InvR s) {f g : Nat} {ef eg : FrameEntry}
    (hf : (f, ef) ∈ s.entries) (hg : (g, eg) ∈ s.entries) (hne : f ≠ g) :
    ef.time.headD 0 ≠ eg.time.headD 0 := by
  intro hc
  have h1 : ef.time.headD 0 ∈ ef.time := headD_mem (inv.nonempty _ hf)
  have h2 : eg.time.headD 0 ∈ eg.time := headD_mem (inv.nonempty _ hg)
  rw [hc] at h1
  exact inv.disjTimes _ hg _ hf (by simpa using hne.symm) _ h2 h1

/-- `Judge` is total on distinct member frames. -/
theorem judge_total {s : Replacer} (inv : InvR s) (hk : 1 ≤ s.k)
    {f g : Nat} {ef eg : FrameEntry}
    (hf : (f, ef) ∈ s.entries) (hg : (g, eg) ∈ s.entries) (hne : f ≠ g) :
    judge s f g = true ∨ judge s g f = true := by
  unfold judge
  rw [timeOf_of_mem inv.keysNodup hf, timeOf_of_mem inv.keysNodup hg]
  have ha : ef.time.length ≤ s.k := inv.lenLe hk _ hf
  have hb : eg.time.length ≤ s.k := inv.lenLe hk _ hg
  rw [judgeT_eq_true_iff ha hb, judgeT_eq_true_iff hb ha]
  have hfr := fronts_ne inv hf hg hne
  rcases Nat.lt_trichotomy (rankOf s.k ef.time) (rankOf s.k eg.time) with h | h | h
  · exact Or.inl (Or.inl h)
  · rcases Nat.lt_or_ge (ef.time.headD 0) (eg.time.headD 0) with h' | h'
    · exact Or.inl (Or.inr ⟨h, h'⟩)
    · exact Or.inr (Or.inr ⟨h.symm, by omega⟩)
  · exact Or.inr (Or.inl h)

/-- `Judge` is transitive on member frames. -/
theorem judge_trans {s : Replacer} (inv : InvR s) (hk : 1 ≤ s.k)
    {a b c : Nat} {ea eb ec : FrameEntry}
    (hma : (a, ea) ∈ s.entries) (hmb : (b, eb) ∈ s.entries) (hmc : (c, ec) ∈ s.entries)
    (h1 : judge s a b = true) (h2 : judge s b c = true) : judge s a c = true := by
  unfold judge at *
  rw [timeOf_of_mem inv.keysNodup hma, timeOf_of_mem inv.keysNodup hmb] at h1
  rw [timeOf_of_mem inv.keysNodup hmb, timeOf_of_mem inv.keysNodup hmc] at h2
  rw [timeOf_of_mem inv.keysNodup hma, timeOf_of_mem inv.keysNodup hmc]
  have ha : ea.time.length ≤ s.k := inv.lenLe hk _ hma
  have hb : eb.time.length ≤ s.k := inv.lenLe hk _ hmb
  have hc : ec.time.length ≤ s.k := inv.lenLe hk _ hmc
  rw [judgeT_eq_true_iff ha hb] at h1
  rw [judgeT_eq_true_iff hb hc] at h2
  rw [judgeT_eq_true_iff ha hc]
  rcases h1 with h1 | ⟨h1, h1'⟩ <;> rcases h2 with h2 | ⟨h2, h2'⟩
  · exact Or.inl (Nat.lt_trans h1 h2)
  · exact Or.inl (by omega)
  · exact Or.inl (by omega)
  · exact Or.inr ⟨by omega, Nat.lt_trans h1' h2'⟩

/-- The winner of the eviction scan is an evictable member frame. -/
theorem evictScan_mem (s : Replacer) :
    ∀ (l : List (Nat × FrameEntry)) (acc : Option Nat),
      (∀ x ∈ l, x ∈ s.entries) →
      (∀ b, acc = some b → ∃ eb, (b, eb) ∈ s.entries ∧ eb.evictable = true) →
      ∀ f, l.foldl (evictStep s) acc = some f →
        ∃ ef, (f, ef) ∈ s.entries ∧ ef.evictable = true := by
  intro l
  induction l with
  | nil =>
      intro acc _ hacc f hf
      exact hacc f hf
  | cons p rest ih =>
      intro acc hsub hacc f hf
      simp only [List.foldl_cons] at hf
      refine ih (evictStep s acc p) (fun x hx => hsub x (List.mem_cons_of_mem _ hx)) ?_ f hf
      intro b hb
      unfold evictStep at hb
      by_cases hev : p.2.evictable = true
      · rw [if_pos hev] at hb
        rcases acc with _ | b0
        · simp only [Option.some.injEq] at hb
          subst hb
          exact ⟨p.2, hsub p (by simp), hev⟩
        · dsimp only at hb
          by_cases hj : judge s p.1 b0 = true
          · rw [if_pos hj] at hb
            simp only [Option.some.injEq] at hb
            subst hb
            exact ⟨p.2, hsub p (by simp), hev⟩
          · rw [if_neg hj] at hb
            exact hacc b hb
      · rw [if_neg hev] at hb
        exact hacc b hb

/-- The eviction scan succeeds as soon as some evictable frame exists. -/
theorem evictScan_some (s : Replacer) :
    ∀ (l : List (Nat × FrameEntry)) (acc : Option Nat),
      (acc ≠ none ∨ ∃ x ∈ l, x.2.evictable = true) →
      l.foldl (evictStep s) acc ≠ none := by
  intro l
  induction l with
  | nil =>
      intro acc h
      rcases h with h | ⟨x, hx, _⟩
      · exact h
      · exact absurd hx (by simp)
  | cons p rest ih =>
      intro acc h
      simp only [List.foldl_cons]
      apply ih
      rcases h with h | ⟨x, hx, hev⟩
      · left
        unfold evictStep
        rcases acc with _ | b
        · exact absurd rfl h
        · by_cases hev : p.2.evictable = true
          · rw [if_pos hev]
            by_cases hj : judge s p.1 b = true <;> simp [hj]
          · rw [if_neg hev]; simp
      · rcases List.mem_cons.mp hx with h' | h'
        · subst h'
          left
          unfold evictStep
          rw [if_pos hev]
          rcases acc with _ | b
          · simp
          · by_cases hj : judge s x.1 b = true <;> simp [hj]
        · exact Or.inr ⟨x, h', hev⟩

/-- The winner of the eviction scan beats every other evictable frame
seen by the scan, in the `Judge` order. -/
theorem evictScan_dominates {s : Replacer} (inv : InvR s) (hk : 1 ≤ s.k) :
    ∀ (l : List (Nat × FrameEntry)) (acc : Option Nat),
      (∀ x ∈ l, x ∈ s.entries) →
      (∀ b, acc = some b → ∃ eb, (b, eb) ∈ s.entries ∧ eb.evictable = true) →
      ∀ f, l.foldl (evictStep s) acc = some f →
        (∀ q ∈ l, q.2.evictable = true → q.1 ≠ f → judge s f q.1 = true) ∧
        (∀ b, acc = some b → b ≠ f → judge s f b = true) := by
  intro l
  induction l with
  | nil =>
      intro acc _ hacc f hf
      refine ⟨fun q hq => absurd hq (by simp), fun b hb hne => ?_⟩
      simp only [List.foldl_nil] at hf
      rw [hb] at hf
      simp only [Option.some.injEq] at hf
      exact absurd hf hne
  | cons p rest ih =>
      intro acc hsub hacc f hf
      simp only [List.foldl_cons] at hf
      have hsub' : ∀ x ∈ rest, x ∈ s.entries :=
        fun x hx => hsub x (List.mem_cons_of_mem _ hx)
      have hacc' : ∀ b, evictStep s acc p = some b →
          ∃ eb, (b, eb) ∈ s.entries ∧ eb.evictable = true := by
        intro b hb
        unfold evictStep at hb
        by_cases hev : p.2.evictable = true
        · rw [if_pos hev] at hb
          rcases acc with _ | b0
          · simp only [Option.some.injEq] at hb
            subst hb
            exact ⟨p.2, hsub p (by simp), hev⟩
          · dsimp only at hb
            by_cases hj : judge s p.1 b0 = true
            · rw [if_pos hj] at hb
              simp only [Option.some.injEq] at hb
              subst hb
              exact ⟨p.2, hsub p (by simp), hev⟩
            · rw [if_neg hj] at hb
              exact hacc b hb
        · rw [if_neg hev] at hb
          exact hacc b hb
      obtain ⟨hrest, haccbeat⟩ := ih (evictStep s acc p) hsub' hacc' f hf
      have hfmem : ∃ ef, (f, ef) ∈ s.entries ∧ ef.evictable = true :=
        evictScan_mem s rest (evictStep s acc p) hsub' hacc' f hf
      obtain ⟨ef, hfm, hfev⟩ := hfmem
      constructor
      · intro q hq hqev hqne
        rcases List.mem_cons.mp hq with h' | h'
        swap
        · exact hrest q h' hqev hqne
        · subst h'
          have hpm : (q.1, q.2) ∈ s.entries := hsub q (by simp)
          unfold evictStep at haccbeat hf
          rw [if_pos hqev] at haccbeat hf
          rcases acc with _ | b0
          · exact haccbeat q.1 rfl hqne
          · dsimp only at haccbeat hf
            by_cases hj : judge s q.1 b0 = true
            · rw [if_pos hj] at haccbeat hf
              exact haccbeat q.1 rfl hqne
            · rw [if_neg hj] at haccbeat hf
              by_cases heq : q.1 = b0
              · rw [heq]
                exact haccbeat b0 rfl (heq ▸ hqne)
              · obtain ⟨eb0, hb0m, hb0ev⟩ := hacc b0 rfl
                have hb0p : judge s b0 q.1 = true := by
                  rcases judge_total inv hk hpm hb0m heq with h | h
                  · exact absurd h hj
                  · exact h
                by_cases hfb : f = b0
                · rw [hfb] at hfm ⊢
                  exact hb0p
                · have hfb0 : judge s f b0 = true :=
                    haccbeat b0 rfl (fun hc => hfb hc.symm)
                  exact judge_trans inv hk hfm hb0m hpm hfb0 hb0p
      · intro b hb hne
        obtain ⟨eb, hbm, hbev⟩ := hacc b hb
        unfold evictStep at haccbeat hf
        subst hb
        by_cases hev : p.2.evictable = true
        · rw [if_pos hev] at haccbeat hf
          dsimp only at haccbeat hf
          by_cases hj : judge s p.1 b = true
          · rw [if_pos hj] at haccbeat hf
            have hpm : (p.1, p.2) ∈ s.entries := hsub p (by simp)
            by_cases hfp : f = p.1
            · rw [hfp]
              exact hj
            · have hfp1 : judge s f p.1 = true :=
                haccbeat p.1 rfl (fun hc => hfp hc.symm)
              exact judge_trans inv hk hfm hpm hbm hfp1 hj
          · rw [if_neg hj] at haccbeat hf
            exact haccbeat b rfl hne
        · rw [if_neg hev] at haccbeat hf
          exact haccbeat b rfl hne

/-- `Remove` preserves the invariant when it returns normally. -/
theorem invR_remove {s s' : Replacer} (inv : InvR s) {f : Nat}
    (h : removeFrame s f = some s') : InvR s' := by
  unfold removeFrame at h
  rcases hlk : lookupFrame s f with _ | e <;> rw [hlk] at h
  · simp only [Option.some.injEq] at h
    subst h; exact inv
  · dsimp only at h
    split at h
    · exact absurd h (by simp)
    · rename_i hev
      simp only [Option.some.injEq] at h
      subst h
      have hev' : e.evictable = true := by simpa using hev
      exact invR_erase_core inv (lookupFrame_mem hlk) hev'

/-- `Evict` preserves the invariant. -/
theorem invR_evict {s : Replacer} (inv : InvR s) : InvR (evict s).2 := by
  unfold evict
  rcases hscan : evictScan s with _ | f
  · exact inv
  · obtain ⟨ef, hfm, hfev⟩ :=
      evictScan_mem s s.entries none (fun x hx => hx) (by simp) f hscan
    exact invR_erase_core inv hfm hfev

/-- Every reachable replacer state satisfies the invariant. -/
theorem invR_of_reach {s : Replacer} (hr : ReachR s) : InvR s := by
  induction hr with
  | init numFrames k => exact invR_init numFrames k
  | record s f _ ih => exact invR_record ih f
  | setEv s f b _ ih => exact invR_setEvictable ih f b
  | evictStep s _ ih => exact invR_evict ih
  | removeStep s s' f _ h ih => exact invR_remove ih h

/-- The eviction order of the specification: frame `a` has strictly
larger backward K-distance than frame `b` when `a` has fewer than `K`
retained samples and `b` has exactly `K`, or both are in the same class
and `a`'s oldest-tracked timestamp (front of its FIFO history) is
smaller. -/
def beats (k : Nat) (a b : FrameEntry) : Prop :=
  (a.time.length < k ∧ b.time.length = k) ∨
  ((a.time.length < k ↔ b.time.length < k) ∧ a.time.headD 0 < b.time.headD 0)

/-- `Judge` implies the specification order on member entries. -/
theorem judge_imp_beats {s : Replacer} (inv : InvR s) (hk : 1 ≤ s.k)
    {f g : Nat} {ef eg : FrameEntry}
    (hf : (f, ef) ∈ s.entries) (hg : (g, eg) ∈ s.entries)
    (hj : judge s f g = true) : beats s.k ef eg := by
  unfold judge at hj
  rw [timeOf_of_mem inv.keysNodup hf, timeOf_of_mem inv.keysNodup hg] at hj
  have ha : ef.time.length ≤ s.k := inv.lenLe hk _ hf
  have hb : eg.time.length ≤ s.k := inv.lenLe hk _ hg
  rw [judgeT_eq_true_iff ha hb] at hj
  unfold beats
  unfold rankOf at hj
  by_cases h1 : ef.time.length < s.k <;> by_cases h2 : eg.time.length < s.k
  · rcases hj with hj | ⟨_, hj⟩
    · simp [h1, h2] at hj
    · exact Or.inr ⟨by constructor <;> intro <;> assumption, hj⟩
  · exact Or.inl ⟨h1, by omega⟩
  · rcases hj with hj | ⟨hj, _⟩ <;> simp [h1, h2] at hj
  · rcases hj with hj | ⟨_, hj⟩
    · simp [h1, h2] at hj
    · exact Or.inr ⟨by constructor <;> intro <;> omega, hj⟩

/-- C2: in every reachable replacer state with `k ≥ 1` that tracks at
least one evictable frame, `Evict` succeeds; the returned frame is an
evictable tracked frame that beats every other evictable tracked frame
in the backward-K-distance order (`<K` samples beats `=K` samples, ties
broken by smaller oldest-tracked timestamp), and the frame is erased
from the replacer entirely, with `curr_size_` decremented. -/
theorem lruk_evict_max {s : Replacer} (hr : ReachR s) (hk : 1 ≤ s.k)
    (hex : ∃ p ∈ s.entries, p.2.evictable = true) :
    ∃ f ef, (evict s).1 = some f ∧ (f, ef) ∈ s.entries ∧ ef.evictable = true ∧
      (∀ q ∈ s.entries, q.2.evictable = true → q.1 ≠ f → beats s.k ef q.2) ∧
      (evict s).2.entries = s.entries.eraseP (fun p => p.1 = f) ∧
      (evict s).2.currSize = s.currSize - 1 := by
  have inv := invR_of_reach hr
  obtain ⟨x, hx, hxev⟩ := hex
  have hne : evictScan s ≠ none :=
    evictScan_some s s.entries none (Or.inr ⟨x, hx, hxev⟩)
  rcases hscan : evictScan s with _ | f
  · exact absurd hscan hne
  · obtain ⟨ef, hfm, hfev⟩ :=
      evictScan_mem s s.entries none (fun y hy => hy) (by simp) f hscan
    obtain ⟨hdom, _⟩ :=
      evictScan_dominates inv hk s.entries none (fun y hy => hy) (by simp) f hscan
    refine ⟨f, ef, ?_, hfm, hfev, ?_, ?_, ?_⟩
    · unfold evict
      rw [hscan]
    · intro q hq hqev hqne
      have hqm : (q.1, q.2) ∈ s.entries := hq
      exact judge_imp_beats inv hk hfm hqm (hdom q hq hqev hqne)
    · unfold evict
      rw [hscan]
    · unfold evict
      rw [hscan]

/-- C10: in every reachable replacer state, `Size()` (the `curr_size_`
counter) equals the number of tracked frames whose evictable flag is
true. -/
theorem lruk_size_invariant {s : Replacer} (hr : ReachR s) :
    s.currSize = (s.entries.filter (fun p => p.2.evictable)).length :=
  (invR_of_reach hr).sizeEq

/-- Concrete replacer state: `K = 2`, capacity 3, access sequence
1, 2, 3, 1, 2, then all three frames marked evictable. -/
def lrukScenario : Replacer :=
  setEvictable (setEvictable (setEvictable
    (recordAccess (recordAccess (recordAccess (recordAccess (recordAccess
      (initReplacer 3 2) 1) 2) 3) 1) 2) 1 true) 2 true) 3 true

theorem lrukScenario_reach : ReachR lrukScenario :=
  ReachR.setEv _ 3 true (ReachR.setEv _ 2 true (ReachR.setEv _ 1 true
    (ReachR.record _ 2 (ReachR.record _ 1 (ReachR.record _ 3 (ReachR.record _ 2
      (ReachR.record _ 1 (ReachR.init 3 2))))))))

/-- C2 witness: the eviction theorem applied to the concrete scenario. -/
theorem lruk_evict_max_witness :
    (1 ≤ lrukScenario.k ∧ ∃ p ∈ lrukScenario.entries, p.2.evictable = true) ∧
    (∃ f ef, (evict lrukScenario).1 = some f ∧ (f, ef) ∈ lrukScenario.entries ∧
      ef.evictable = true ∧
      (∀ q ∈ lrukScenario.entries, q.2.evictable = true → q.1 ≠ f →
        beats lrukScenario.k ef q.2) ∧
      (evict lrukScenario).2.entries =
        lrukScenario.entries.eraseP (fun p => p.1 = f) ∧
      (evict lrukScenario).2.currSize = lrukScenario.currSize - 1) :=
  ⟨by decide, lruk_evict_max lrukScenario_reach (by decide) (by decide)⟩

/-- Sanity check: in the scenario the evicted frame is 3, the only one
with fewer than two retained samples. -/
theorem lruk_scenario_evicts_3 : (evict lrukScenario).1 = some 3 := by decide

/-- C10 witness: the size invariant applied to the concrete scenario. -/
theorem lruk_size_invariant_witness :
    lrukScenario.currSize =
      (lrukScenario.entries.filter (fun p => p.2.evictable)).length :=
  lruk_size_invariant lrukScenario_reach

/-! ### Extendible hash table

From `src/container/hash/extendible_hash_table.cpp`.  The directory
`dir_` holds `shared_ptr<Bucket>` references with aliasing (several
slots may reference the same bucket object and `RedistributeBucket`
mutates buckets in place), so we model the bucket objects as a store
(`buckets`, indexed by allocation order — `num_buckets_` is exactly the
store's length, since it starts at 1 and is incremented once per
`RedistributeBucket`) and the directory as a list of store indices.
`IndexOf` masks the hash with `(1 << global_depth) - 1`, which on `Nat`
is `% 2 ^ global_depth`.  Keys and values are `Nat`; the hash function
is a parameter (`std::hash<K>` is opaque; for the `int` scenario of the
specification it is the identity). -/

structure Bucket where
  list : List (Nat × Nat)
  depth : Nat
deriving DecidableEq, Repr

structure EHT where
  globalDepth : Nat
  buckets : List Bucket
  dir : List Nat
deriving DecidableEq, Repr

/-- `ExtendibleHashTable(bucket_size)`: one empty bucket of depth 0. -/
def initEHT : EHT := ⟨0, [⟨[], 0⟩], [0]⟩

/-- `IndexOf` (lines 31-34). -/
def indexOf (hash : Nat → Nat) (s : EHT) (k : Nat) : Nat :=
  hash k % 2 ^ s.globalDepth

/-- Directory slot `i` (`dir_[i]`). -/
def dirRef (s : EHT) (i : Nat) : Nat := s.dir.getD i 0

/-- Bucket object referenced by store index `r`. -/
def getBucket (s : EHT) (r : Nat) : Bucket := s.buckets.getD r ⟨[], 0⟩

/-- `Bucket::Find` (lines 140-149): first entry with the key. -/
def bucketFind (b : Bucket) (k : Nat) : Option Nat :=
  (b.list.find? (fun e => e.1 = k)).map Prod.snd

/-- `Bucket::Remove` (lines 152-162): erase the first entry with the
key, report whether one was found. -/
def bucketRemove (b : Bucket) (k : Nat) : Bool × Bucket :=
  if (b.list.find? (fun e => e.1 = k)).isSome then
    (true, ⟨b.list.eraseP (fun e => e.1 = k), b.depth⟩)
  else (false, b)

/-- Overwrite the value of the first entry holding key `k` (the loop of
`Bucket::Insert`, lines 167-172). -/
def bucketOverwrite : List (Nat × Nat) → Nat → Nat → List (Nat × Nat)
  | [], _, _ => []
  | e :: es, k, v => if e.1 = k then (k, v) :: es else e :: bucketOverwrite es k v

/-- `Bucket::Insert` (lines 165-178): overwrite an existing key, fail
when full (`IsFull()` is `list_.size() == size_` in the header),
otherwise append. -/
def bucketInsert (bucketSize : Nat) (b : Bucket) (k v : Nat) : Option Bucket :=
  if (b.list.find? (fun e => e.1 = k)).isSome then
    some ⟨bucketOverwrite b.list k v, b.depth⟩
  else if b.list.length = bucketSize then none
  else some ⟨b.list ++ [(k, v)], b.depth⟩

/-- `ExtendibleHashTable::RedistributeBucket` (lines 88-109): increment
the bucket's depth, allocate a sibling, move the entries whose low
`depth` hash bits differ from `preidx` (the bucket's index in the low
`depth - 1` bits, read off the first stored entry), and rewire the
directory slots that agree with `preidx` on the low `depth - 1` bits
but not on the low `depth` bits.  The entry moves keep the list order,
as the C++ in-place erase/append does; at every call site the bucket is
full (its size is `bucket_size ≥ 1`) with pairwise distinct keys, so
the sibling's inserts are plain appends. -/
def redistributeBucket (hash : Nat → Nat) (s : EHT) (r : Nat) : EHT :=
  let b := getBucket s r
  let d := b.depth + 1
  let preidx := hash ((b.list.headD (0, 0)).1) % 2 ^ (d - 1)
  let kept := b.list.filter (fun e => hash e.1 % 2 ^ d = preidx)
  let moved := b.list.filter (fun e => ¬(hash e.1 % 2 ^ d = preidx))
  let pIdx := s.buckets.length
  { s with
    buckets := (s.buckets.set r ⟨kept, d⟩) ++ [⟨moved, d⟩],
    dir := (List.range s.dir.length).map (fun i =>
      if i % 2 ^ (d - 1) = preidx ∧ ¬(i % 2 ^ d = preidx) then pIdx
      else s.dir.getD i 0) }

/-- `ExtendibleHashTable::Insert` (lines 112-131).  The `while (true)`
loop is given explicit fuel; `none` means the fuel ran out (the C++
loop would still be running). -/
def insertEHT (hash : Nat → Nat) (bucketSize : Nat) :
    Nat → EHT → Nat → Nat → Option EHT
  | 0, _, _, _ => none
  | fuel + 1, s, k, v =>
    let index := indexOf hash s k
    let r := dirRef s index
    let b := getBucket s r
    match bucketInsert bucketSize b k v with
    | some b' => some { s with buckets := s.buckets.set r b' }
    | none =>
      if b.depth ≠ s.globalDepth then
        insertEHT hash bucketSize fuel (redistributeBucket hash s r) k v
      else
        insertEHT hash bucketSize fuel
          { s with globalDepth := s.globalDepth + 1, dir := s.dir ++ s.dir } k v

/-- `ExtendibleHashTable::Find` (lines 70-76). -/
def findEHT (hash : Nat → Nat) (s : EHT) (k : Nat) : Option Nat :=
  bucketFind (getBucket s (dirRef s (indexOf hash s k))) k

/-- `ExtendibleHashTable::Remove` (lines 79-85). -/
def removeEHT (hash : Nat → Nat) (s : EHT) (k : Nat) : Bool × EHT :=
  let r := dirRef s (indexOf hash s k)
  let res := bucketRemove (getBucket s r) k
  (res.1, { s with buckets := s.buckets.set r res.2 })

/-- States reachable by sequences of `Insert` and `Remove` (with any
fuel on which the insert loop terminates) from a fresh table. -/
inductive ReachH (hash : Nat → Nat) (bucketSize : Nat) : EHT → Prop where
  | init : ReachH hash bucketSize initEHT
  | insert (s s' : EHT) (k v fuel : Nat) :
      ReachH hash bucketSize s → insertEHT hash bucketSize fuel s k v = some s' →
      ReachH hash bucketSize s'
  | remove (s : EHT) (k : Nat) :
      ReachH hash bucketSize s → ReachH hash bucketSize (removeEHT hash s k).2

/-- The hash scenario of the specification, with `bucket_size = 2` and
the identity hash of `std::hash<int>`: insert (1,10), (5,10), (9,10). -/
def ehtScenario : Option EHT :=
  ((insertEHT id 2 10 initEHT 1 10).bind
    (fun s => insertEHT id 2 10 s 5 10)).bind
    (fun s => insertEHT id 2 10 s 9 10)

/-- C5 (counterexample): after the third insert the global depth is 3
(not 2) and the bucket count is 4 (not 2): the three keys are all
congruent mod 4, so depth 2 cannot separate them. -/
theorem eht_split_counterexample :
    ehtScenario.map (fun s => (s.globalDepth, s.buckets.length)) = some (3, 4) ∧
    ehtScenario.map (fun s => (s.globalDepth, s.buckets.length)) ≠ some (2, 2) := by
  constructor
  · rfl
  · intro h
    rw [show ehtScenario.map (fun s => (s.globalDepth, s.buckets.length)) =
      some (3, 4) from rfl] at h
    simp at h

/-- C5 (amended): with `bucket_size = 2`, inserting keys 1, 5, 9 (value
10 each) from an empty table ends, after the third insert, with
`global_depth = 3` and `num_buckets = 4`, and `Find` succeeds for each
of the three keys with value 10. -/
theorem eht_split_scenario :
    ∃ s, ehtScenario = some s ∧ s.globalDepth = 3 ∧ s.buckets.length = 4 ∧
      findEHT id s 1 = some 10 ∧ findEHT id s 5 = some 10 ∧
      findEHT id s 9 = some 10 := by
  refine ⟨(ehtScenario.getD initEHT), ?_, ?_, ?_, ?_, ?_, ?_⟩ <;> rfl

/-! #### Indexing helpers -/

theorem getD_set_self {α : Type} (l : List α) (r : Nat) (a d : α)
    (hr : r < l.length) : (l.set r a).getD r d = a := by
  simp [List.getD_eq_getElem?_getD, List.getElem?_set_self (by simpa using hr)]

theorem getD_set_ne {α : Type} (l : List α) (r x : Nat) (a d : α)
    (h : x ≠ r) : (l.set r a).getD x d = l.getD x d := by
  simp [List.getD_eq_getElem?_getD, List.getElem?_set_ne (Ne.symm h)]

theorem getD_append_left {α : Type} (l1 l2 : List α) (n : Nat) (d : α)
    (h : n < l1.length) : (l1 ++ l2).getD n d = l1.getD n d := by
  simp [List.getD_eq_getElem?_getD, List.getElem?_append_left h]

theorem getD_append_right {α : Type} (l1 l2 : List α) (n : Nat) (d : α)
    (h : l1.length ≤ n) : (l1 ++ l2).getD n d = l2.getD (n - l1.length) d := by
  simp [List.getD_eq_getElem?_getD, List.getElem?_append_right h]

theorem getD_rangeMap {α : Type} (f : Nat → α) (n i : Nat) (d : α)
    (h : i < n) : (((List.range n).map f).getD i d) = f i := by
  simp [List.getD_eq_getElem?_getD, List.getElem?_range h]

theorem getD_mem {α : Type} (l : List α) (i : Nat) (d : α)
    (h : i < l.length) : l.getD i d ∈ l := by
  rw [List.getD_eq_getElem?_getD, List.getElem?_eq_getElem h]
  exact List.getElem_mem h

theorem headD_pair_mem {l : List (Nat × Nat)} (h : l ≠ []) : l.headD (0, 0) ∈ l := by
  cases l with
  | nil => exact absurd rfl h
  | cons a t => simp

/-! #### Arithmetic helpers -/

theorem mod_pow_mod {d g : Nat} (h : d ≤ g) (x : Nat) :
    x % 2 ^ g % 2 ^ d = x % 2 ^ d :=
  Nat.mod_mod_of_dvd _ (pow_dvd_pow 2 h)

/-- The low `dep + 1` bits of `x` are its low `dep` bits with the next
bit either clear or set. -/
theorem mod_twoPow_succ_cases (x dep : Nat) :
    x % 2 ^ (dep + 1) = x % 2 ^ dep ∨
    x % 2 ^ (dep + 1) = x % 2 ^ dep + 2 ^ dep := by
  have hm : 0 < 2 ^ dep := Nat.pos_pow_of_pos dep (by omega)
  have h2 : (2 : Nat) ^ (dep + 1) = 2 ^ dep * 2 := by ring
  have hlt : x % 2 ^ (dep + 1) < 2 ^ dep * 2 := by
    rw [← h2]; exact Nat.mod_lt x (by positivity)
  have hmm : x % 2 ^ (dep + 1) % 2 ^ dep = x % 2 ^ dep :=
    mod_pow_mod (by omega) x
  obtain hdm := Nat.div_add_mod (x % 2 ^ (dep + 1)) (2 ^ dep)
  have hq : x % 2 ^ (dep + 1) / 2 ^ dep < 2 := by
    apply Nat.div_lt_of_lt_mul
    exact hlt
  interval_cases hqq : x % 2 ^ (dep + 1) / 2 ^ dep <;> omega

/-! #### The directory/bucket invariant -/

/-- Invariant of reachable hash-table states.  `hashOk` is the
consistency property of the claim; `aliasCong` states that directory
slots referencing the same bucket object agree on the low `local_depth`
bits, which is what makes the in-place bucket updates sound. -/
structure InvH (hash : Nat → Nat) (s : EHT) : Prop where
  dirLen : s.dir.length = 2 ^ s.globalDepth
  refsLt : ∀ r ∈ s.dir, r < s.buckets.length
  depthLe : ∀ r ∈ s.dir, (getBucket s r).depth ≤ s.globalDepth
  hashOk : ∀ i < s.dir.length, ∀ e ∈ (getBucket s (dirRef s i)).list,
    hash e.1 % 2 ^ (getBucket s (dirRef s i)).depth =
      i % 2 ^ (getBucket s (dirRef s i)).depth
  aliasCong : ∀ i < s.dir.length, ∀ j < s.dir.length, dirRef s i = dirRef s j →
    i % 2 ^ (getBucket s (dirRef s i)).depth = j % 2 ^ (getBucket s (dirRef s i)).depth

theorem dirRef_mem {s : EHT} {i : Nat} (h : i < s.dir.length) :
    dirRef s i ∈ s.dir :=
  getD_mem s.dir i 0 h

theorem invH_init (hash : Nat → Nat) : InvH hash initEHT := by
  refine ⟨rfl, ?_, ?_, ?_, ?_⟩ <;> simp [initEHT, getBucket, dirRef]

/-- Replacing the bucket referenced from slot `i0` by one of the same
depth whose entries either were already stored there or have key `k₀`
hashing to `i0`, preserves the invariant.  This covers the success case
of `Insert` (overwrite or append) and `Remove`. -/
theorem invH_bucketSet {hash : Nat → Nat} {s : EHT} (inv : InvH hash s)
    {i0 : Nat} (hi0 : i0 < s.dir.length) {k0 : Nat}
    (hk0 : hash k0 % 2 ^ s.globalDepth = i0)
    (newList : List (Nat × Nat))
    (hnew : ∀ e ∈ newList, e ∈ (getBucket s (dirRef s i0)).list ∨ e.1 = k0) :
    InvH hash
      { s with buckets := (s.buckets.set (dirRef s i0)
          (⟨newList, (getBucket s (dirRef s i0)).depth⟩ : Bucket)) } := by
  set r := dirRef s i0 with hr
  set b := getBucket s r with hb
  have hrlt : r < s.buckets.length := inv.refsLt r (dirRef_mem hi0)
  set s' : EHT := { s with buckets := s.buckets.set r (⟨newList, b.depth⟩ : Bucket) } with hs'
  have hgb : ∀ x, getBucket s' x = if x = r then ⟨newList, b.depth⟩ else getBucket s x := by
    intro x
    by_cases hx : x = r
    · rw [if_pos hx, hx]
      simp only [hs', getBucket]
      exact getD_set_self _ _ _ _ hrlt
    · rw [if_neg hx]
      simp only [hs', getBucket]
      exact getD_set_ne _ _ _ _ _ hx
  have hdir : s'.dir = s.dir := rfl
  have hgd : s'.globalDepth = s.globalDepth := rfl
  have hdref : ∀ i, dirRef s' i = dirRef s i := fun _ => rfl
  refine ⟨?_, ?_, ?_, ?_, ?_⟩
  · rw [hdir, hgd]; exact inv.dirLen
  · intro x hx
    rw [hdir] at hx
    have hxl := inv.refsLt x hx
    simpa [hs'] using hxl
  · intro x hx
    rw [hdir] at hx
    rw [hgb x, hgd]
    by_cases hxr : x = r
    · rw [if_pos hxr]
      exact inv.depthLe r (dirRef_mem hi0)
    · rw [if_neg hxr]
      exact inv.depthLe x hx
  · intro i hi e he
    rw [hdir] at hi
    rw [hdref, hgb] at he ⊢
    by_cases hir : dirRef s i = r
    · rw [if_pos hir] at he ⊢
      simp only at he ⊢
      rcases hnew e (by simpa using he) with hcase | hcase
      · have hold := inv.hashOk i hi e (by rw [hir]; exact hcase)
        rw [hir] at hold
        exact hold
      · have hdep : b.depth ≤ s.globalDepth := inv.depthLe r (dirRef_mem hi0)
        have halias : i % 2 ^ b.depth = i0 % 2 ^ b.depth := by
          have hal := inv.aliasCong i hi i0 hi0 (by rw [hir])
          rw [hir] at hal
          exact hal
        rw [hcase]
        calc hash k0 % 2 ^ b.depth
            = hash k0 % 2 ^ s.globalDepth % 2 ^ b.depth := (mod_pow_mod hdep _).symm
          _ = i0 % 2 ^ b.depth := by rw [hk0]
          _ = i % 2 ^ b.depth := halias.symm
    · rw [if_neg hir] at he ⊢
      exact inv.hashOk i hi e he
  · intro i hi j hj hij
    rw [hdir] at hi hj
    rw [hdref] at hij
    rw [hdref, hgb]
    by_cases hir : dirRef s i = r
    · rw [if_pos hir]
      simp only
      have hal := inv.aliasCong i hi j hj hij
      rw [hir] at hal
      exact hal
    · rw [if_neg hir]
      exact inv.aliasCong i hi j hj hij

/-- Doubling the directory (the `global_depth_++; dir_` duplication
branch of `Insert`, lines 123-129) preserves the invariant. -/
theorem invH_double {hash : Nat → Nat} {s : EHT} (inv : InvH hash s) :
    InvH hash { s with globalDepth := s.globalDepth + 1, dir := s.dir ++ s.dir } := by
  set s' : EHT := { s with globalDepth := s.globalDepth + 1, dir := s.dir ++ s.dir }
    with hs'
  have hlen : s'.dir.length = 2 ^ (s.globalDepth + 1) := by
    simp only [hs', List.length_append, inv.dirLen]
    ring
  have hmod : ∀ i < s'.dir.length, i % 2 ^ s.globalDepth < s.dir.length := by
    intro i _
    rw [inv.dirLen]
    exact Nat.mod_lt _ (by positivity)
  have hsplit : ∀ i < s'.dir.length, dirRef s' i = dirRef s (i % 2 ^ s.globalDepth) := by
    intro i hi
    rw [hlen] at hi
    by_cases h : i < s.dir.length
    · have : i % 2 ^ s.globalDepth = i := by
        apply Nat.mod_eq_of_lt
        rw [← inv.dirLen]
        exact h
      rw [this]
      simp only [dirRef, hs']
      exact getD_append_left _ _ _ _ h
    · push_neg at h
      have hi2 : i - s.dir.length < s.dir.length := by
        rw [inv.dirLen] at h ⊢
        omega
      have hmodeq : i % 2 ^ s.globalDepth = i - s.dir.length := by
        rw [← inv.dirLen]
        rw [Nat.mod_eq_sub_mod h, Nat.mod_eq_of_lt hi2]
      rw [hmodeq]
      simp only [dirRef, hs']
      exact getD_append_right _ _ _ _ h
  have hgb : ∀ x, getBucket s' x = getBucket s x := fun _ => rfl
  refine ⟨hlen, ?_, ?_, ?_, ?_⟩
  · intro x hx
    simp only [hs', List.mem_append] at hx
    rcases hx with h | h <;> exact inv.refsLt x h
  · intro x hx
    simp only [hs', List.mem_append] at hx
    have hle : (getBucket s x).depth ≤ s.globalDepth := by
      rcases hx with h | h <;> exact inv.depthLe x h
    calc (getBucket s' x).depth = (getBucket s x).depth := by rw [hgb]
      _ ≤ s.globalDepth := hle
      _ ≤ s'.globalDepth := by simp [hs']
  · intro i hi e he
    rw [hsplit i hi, hgb] at he ⊢
    set i' := i % 2 ^ s.globalDepth with hi'
    have hi'lt : i' < s.dir.length := hmod i hi
    have hdep : (getBucket s (dirRef s i')).depth ≤ s.globalDepth :=
      inv.depthLe _ (dirRef_mem hi'lt)
    have hold := inv.hashOk i' hi'lt e he
    rw [hold]
    calc i' % 2 ^ (getBucket s (dirRef s i')).depth
        = i % 2 ^ s.globalDepth % 2 ^ (getBucket s (dirRef s i')).depth := by rw [hi']
      _ = i % 2 ^ (getBucket s (dirRef s i')).depth := mod_pow_mod hdep i
  · intro i hi j hj hij
    rw [hsplit i hi, hsplit j hj] at hij
    rw [hsplit i hi, hgb]
    set i' := i % 2 ^ s.globalDepth with hi'
    set j' := j % 2 ^ s.globalDepth with hj'
    have hi'lt : i' < s.dir.length := hmod i hi
    have hj'lt : j' < s.dir.length := hmod j hj
    have hdep : (getBucket s (dirRef s i')).depth ≤ s.globalDepth :=
      inv.depthLe _ (dirRef_mem hi'lt)
    have hold := inv.aliasCong i' hi'lt j' hj'lt hij
    calc i % 2 ^ (getBucket s (dirRef s i')).depth
        = i' % 2 ^ (getBucket s (dirRef s i')).depth := (mod_pow_mod hdep i).symm
      _ = j' % 2 ^ (getBucket s (dirRef s i')).depth := hold
      _ = j % 2 ^ (getBucket s (dirRef s i')).depth := mod_pow_mod hdep j

/-- `redistributeBucket` written out with its `let`s expanded. -/
theorem redistributeBucket_eq (hash : Nat → Nat) (s : EHT) (r : Nat) :
    redistributeBucket hash s r =
      { s with
        buckets := (s.buckets.set r
            (⟨(getBucket s r).list.filter
                (fun e => hash e.1 % 2 ^ ((getBucket s r).depth + 1) =
                  hash (((getBucket s r).list.headD (0, 0)).1) % 2 ^ (getBucket s r).depth),
              (getBucket s r).depth + 1⟩ : Bucket)) ++
          [⟨(getBucket s r).list.filter
              (fun e => ¬(hash e.1 % 2 ^ ((getBucket s r).depth + 1) =
                hash (((getBucket s r).list.headD (0, 0)).1) % 2 ^ (getBucket s r).depth)),
            (getBucket s r).depth + 1⟩],
        dir := (List.range s.dir.length).map (fun i =>
          if i % 2 ^ (getBucket s r).depth =
              hash (((getBucket s r).list.headD (0, 0)).1) % 2 ^ (getBucket s r).depth ∧
            ¬(i % 2 ^ ((getBucket s r).depth + 1) =
              hash (((getBucket s r).list.headD (0, 0)).1) % 2 ^ (getBucket s r).depth)
          then s.buckets.length else s.dir.getD i 0) } := by
  unfold redistributeBucket
  simp

/-- `RedistributeBucket` preserves the invariant, provided it is called
on the (non-empty) bucket of a directory slot whose local depth is
strictly below the global depth — which is how `Insert` calls it. -/
theorem invH_redistribute_core {hash : Nat → Nat} {s : EHT} (inv : InvH hash s)
    {i0 : Nat} (hi0 : i0 < s.dir.length)
    (b : Bucket) (hbdef : b = getBucket s (dirRef s i0))
    (hne : b.list ≠ []) (hdlt : b.depth < s.globalDepth) :
    InvH hash
      { s with
        buckets := (s.buckets.set (dirRef s i0)
            (⟨b.list.filter (fun e => hash e.1 % 2 ^ (b.depth + 1) =
                hash ((b.list.headD (0, 0)).1) % 2 ^ b.depth), b.depth + 1⟩ : Bucket)) ++
          [⟨b.list.filter (fun e => ¬(hash e.1 % 2 ^ (b.depth + 1) =
              hash ((b.list.headD (0, 0)).1) % 2 ^ b.depth)), b.depth + 1⟩],
        dir := (List.range s.dir.length).map (fun i =>
          if i % 2 ^ b.depth = hash ((b.list.headD (0, 0)).1) % 2 ^ b.depth ∧
            ¬(i % 2 ^ (b.depth + 1) = hash ((b.list.headD (0, 0)).1) % 2 ^ b.depth)
          then s.buckets.length else s.dir.getD i 0) } := by
  set r := dirRef s i0 with hr
  set dep := b.depth with hdepdef
  set preidx := hash ((b.list.headD (0, 0)).1) % 2 ^ dep with hpredef
  set kept := b.list.filter (fun e => hash e.1 % 2 ^ (dep + 1) = preidx) with hkept
  set moved := b.list.filter (fun e => ¬(hash e.1 % 2 ^ (dep + 1) = preidx)) with hmoved
  set pIdx := s.buckets.length with hpidx
  set s' : EHT :=
    { s with
      buckets := (s.buckets.set r (⟨kept, dep + 1⟩ : Bucket)) ++ [⟨moved, dep + 1⟩],
      dir := (List.range s.dir.length).map (fun i =>
        if i % 2 ^ dep = preidx ∧ ¬(i % 2 ^ (dep + 1) = preidx) then pIdx
        else s.dir.getD i 0) } with hs'
  have hrlt : r < pIdx := inv.refsLt r (dirRef_mem hi0)
  have hsetlen : (s.buckets.set r (⟨kept, dep + 1⟩ : Bucket)).length = pIdx := by
    simp [hpidx]
  have hblen : s'.buckets.length = pIdx + 1 := by
    simp only [hs', List.length_append, hsetlen, List.length_singleton]
  have hdlen : s'.dir.length = s.dir.length := by
    simp [hs']
  have hgd : s'.globalDepth = s.globalDepth := rfl
  have hpre : preidx = i0 % 2 ^ dep := by
    have hh : b.list.headD (0, 0) ∈ b.list := headD_pair_mem hne
    have hh2 : b.list.headD (0, 0) ∈ (getBucket s (dirRef s i0)).list := by
      rw [← hbdef]; exact hh
    have hx := inv.hashOk i0 hi0 _ hh2
    rw [← hbdef] at hx
    exact hx
  have hgbP : getBucket s' pIdx = ⟨moved, dep + 1⟩ := by
    simp only [hs', getBucket]
    rw [getD_append_right _ _ _ _ (by rw [hsetlen])]
    rw [hsetlen]
    simp
  have hgbL : ∀ x, x < pIdx →
      getBucket s' x = if x = r then ⟨kept, dep + 1⟩ else getBucket s x := by
    intro x hx
    simp only [hs', getBucket]
    rw [getD_append_left _ _ _ _ (by rw [hsetlen]; exact hx)]
    by_cases hxr : x = r
    · rw [if_pos hxr, hxr]
      exact getD_set_self _ _ _ _ hrlt
    · rw [if_neg hxr]
      exact getD_set_ne _ _ _ _ _ hxr
  have hdref2 : ∀ i, i < s.dir.length →
      dirRef s' i = if i % 2 ^ dep = preidx ∧ ¬(i % 2 ^ (dep + 1) = preidx) then pIdx
        else dirRef s i := by
    intro i hi
    simp only [dirRef, hs']
    exact getD_rangeMap _ _ _ _ hi
  have hbit : ∀ x : Nat, x % 2 ^ dep = preidx → ¬(x % 2 ^ (dep + 1) = preidx) →
      x % 2 ^ (dep + 1) = preidx + 2 ^ dep := by
    intro x h1 h2
    rcases mod_twoPow_succ_cases x dep with h | h
    · rw [h1] at h; exact absurd h h2
    · rw [h1] at h; exact h
  have halias_r : ∀ i, i < s.dir.length → dirRef s i = r → i % 2 ^ dep = preidx := by
    intro i hi href
    have hx := inv.aliasCong i hi i0 hi0 (by rw [href])
    rw [href, ← hbdef, ← hdepdef] at hx
    rw [hx, hpre]
  have hhash_pre : ∀ e ∈ b.list, hash e.1 % 2 ^ dep = preidx := by
    intro e he
    have he2 : e ∈ (getBucket s (dirRef s i0)).list := by rw [← hbdef]; exact he
    have hx := inv.hashOk i0 hi0 e he2
    rw [← hbdef, ← hdepdef] at hx
    rw [hx, hpre]
  refine ⟨?_, ?_, ?_, ?_, ?_⟩
  · rw [hdlen, hgd]; exact inv.dirLen
  · intro x hx
    rw [hblen]
    simp only [hs', List.mem_map, List.mem_range] at hx
    obtain ⟨i, hilt, hieq⟩ := hx
    by_cases hc : i % 2 ^ dep = preidx ∧ ¬(i % 2 ^ (dep + 1) = preidx)
    · rw [if_pos hc] at hieq; omega
    · rw [if_neg hc] at hieq
      have : x ∈ s.dir := by rw [← hieq]; exact getD_mem _ _ _ hilt
      have := inv.refsLt x this
      omega
  · intro x hx
    rw [hgd]
    simp only [hs', List.mem_map, List.mem_range] at hx
    obtain ⟨i, hilt, hieq⟩ := hx
    by_cases hc : i % 2 ^ dep = preidx ∧ ¬(i % 2 ^ (dep + 1) = preidx)
    · rw [if_pos hc] at hieq
      rw [← hieq, hgbP]
      show dep + 1 ≤ s.globalDepth
      omega
    · rw [if_neg hc] at hieq
      have hmem : x ∈ s.dir := by rw [← hieq]; exact getD_mem _ _ _ hilt
      have hxlt : x < pIdx := inv.refsLt x hmem
      rw [hgbL x hxlt]
      by_cases hxr : x = r
      · rw [if_pos hxr]
        simpa using hdlt
      · rw [if_neg hxr]
        exact inv.depthLe x hmem
  · intro i hi e he
    rw [hdlen] at hi
    rw [hdref2 i hi] at he ⊢
    by_cases hc : i % 2 ^ dep = preidx ∧ ¬(i % 2 ^ (dep + 1) = preidx)
    · rw [if_pos hc] at he ⊢
      rw [hgbP] at he ⊢
      simp only at he ⊢
      rw [hmoved] at he
      rw [List.mem_filter] at he
      obtain ⟨heb, hemod⟩ := he
      simp only [decide_eq_true_eq] at hemod
      have h1 := hhash_pre e heb
      rw [hbit _ h1 hemod, hbit _ hc.1 hc.2]
    · rw [if_neg hc] at he ⊢
      by_cases hir : dirRef s i = r
      · rw [hir] at he ⊢
        rw [hgbL r hrlt, if_pos rfl] at he ⊢
        simp only at he ⊢
        rw [hkept] at he
        rw [List.mem_filter] at he
        obtain ⟨heb, hemod⟩ := he
        simp only [decide_eq_true_eq] at hemod
        have hipre : i % 2 ^ dep = preidx := halias_r i hi hir
        have hi2 : i % 2 ^ (dep + 1) = preidx := by
          by_contra hcon
          exact hc ⟨hipre, hcon⟩
        rw [hemod, hi2]
      · have hxlt : dirRef s i < pIdx := inv.refsLt _ (dirRef_mem hi)
        rw [hgbL _ hxlt, if_neg hir] at he ⊢
        exact inv.hashOk i hi e he
  · intro i hi j hj hij
    rw [hdlen] at hi hj
    rw [hdref2 i hi, hdref2 j hj] at hij
    rw [hdref2 i hi]
    by_cases hci : i % 2 ^ dep = preidx ∧ ¬(i % 2 ^ (dep + 1) = preidx) <;>
      by_cases hcj : j % 2 ^ dep = preidx ∧ ¬(j % 2 ^ (dep + 1) = preidx)
    · rw [if_pos hci]
      rw [hgbP]
      simp only
      rw [hbit _ hci.1 hci.2, hbit _ hcj.1 hcj.2]
    · rw [if_pos hci, if_neg hcj] at hij
      have : dirRef s j < pIdx := inv.refsLt _ (dirRef_mem hj)
      omega
    · rw [if_neg hci, if_pos hcj] at hij
      have : dirRef s i < pIdx := inv.refsLt _ (dirRef_mem hi)
      omega
    · rw [if_neg hci] at hij ⊢
      rw [if_neg hcj] at hij
      by_cases hir : dirRef s i = r
      · have hjr : dirRef s j = r := by rw [← hij, hir]
        rw [hir, hgbL r hrlt, if_pos rfl]
        simp only
        have hipre := halias_r i hi hir
        have hjpre := halias_r j hj hjr
        have hi2 : i % 2 ^ (dep + 1) = preidx := by
          by_contra hcon
          exact hci ⟨hipre, hcon⟩
        have hj2 : j % 2 ^ (dep + 1) = preidx := by
          by_contra hcon
          exact hcj ⟨hjpre, hcon⟩
        rw [hi2, hj2]
      · have hxlt : dirRef s i < pIdx := inv.refsLt _ (dirRef_mem hi)
        rw [hgbL _ hxlt, if_neg hir]
        exact inv.aliasCong i hi j hj hij

/-- `RedistributeBucket` preserves the invariant at the call sites of
`Insert`. -/
theorem invH_redistribute {hash : Nat → Nat} {s : EHT} (inv : InvH hash s)
    {i0 : Nat} (hi0 : i0 < s.dir.length)
    (hne : (getBucket s (dirRef s i0)).list ≠ [])
    (hdlt : (getBucket s (dirRef s i0)).depth < s.globalDepth) :
    InvH hash (redistributeBucket hash s (dirRef s i0)) := by
  rw [redistributeBucket_eq]
  exact invH_redistribute_core inv hi0 _ rfl hne hdlt

theorem bucketOverwrite_mem :
    ∀ (l : List (Nat × Nat)) (k v : Nat), ∀ e ∈ bucketOverwrite l k v,
      e ∈ l ∨ e.1 = k := by
  intro l k v
  induction l with
  | nil => intro e he; simp [bucketOverwrite] at he
  | cons a t ih =>
      intro e he
      unfold bucketOverwrite at he
      by_cases ha : a.1 = k
      · rw [if_pos ha] at he
        rcases List.mem_cons.mp he with h | h
        · subst h; exact Or.inr rfl
        · exact Or.inl (List.mem_cons_of_mem _ h)
      · rw [if_neg ha] at he
        rcases List.mem_cons.mp he with h | h
        · subst h; exact Or.inl (by simp)
        · rcases ih e h with h' | h'
          · exact Or.inl (List.mem_cons_of_mem _ h')
          · exact Or.inr h'

theorem bucketInsert_spec {bucketSize : Nat} {b b' : Bucket} {k v : Nat}
    (h : bucketInsert bucketSize b k v = some b') :
    b'.depth = b.depth ∧ ∀ e ∈ b'.list, e ∈ b.list ∨ e.1 = k := by
  unfold bucketInsert at h
  by_cases h1 : (b.list.find? (fun e => e.1 = k)).isSome = true
  · rw [if_pos h1] at h
    simp only [Option.some.injEq] at h
    subst h
    exact ⟨rfl, bucketOverwrite_mem b.list k v⟩
  · rw [if_neg h1] at h
    by_cases h2 : b.list.length = bucketSize
    · rw [if_pos h2] at h
      exact absurd h (by simp)
    · rw [if_neg h2] at h
      simp only [Option.some.injEq] at h
      subst h
      refine ⟨rfl, ?_⟩
      intro e he
      simp only [List.mem_append, List.mem_singleton] at he
      rcases he with h | h
      · exact Or.inl h
      · subst h; exact Or.inr rfl

theorem bucketInsert_none {bucketSize : Nat} {b : Bucket} {k v : Nat}
    (h : bucketInsert bucketSize b k v = none) : b.list.length = bucketSize := by
  unfold bucketInsert at h
  by_cases h1 : (b.list.find? (fun e => e.1 = k)).isSome = true
  · rw [if_pos h1] at h; exact absurd h (by simp)
  · rw [if_neg h1] at h
    by_cases h2 : b.list.length = bucketSize
    · exact h2
    · rw [if_neg h2] at h; exact absurd h (by simp)

theorem indexOf_lt {hash : Nat → Nat} {s : EHT} (inv : InvH hash s) (k : Nat) :
    indexOf hash s k < s.dir.length := by
  rw [inv.dirLen]
  exact Nat.mod_lt _ (by positivity)

/-- The `Insert` loop preserves the invariant whenever it terminates. -/
theorem invH_insertLoop (hash : Nat → Nat) {bucketSize : Nat} (hsz : 1 ≤ bucketSize) :
    ∀ (fuel : Nat) (s s' : EHT) (k v : Nat), InvH hash s →
      insertEHT hash bucketSize fuel s k v = some s' → InvH hash s' := by
  intro fuel
  induction fuel with
  | zero =>
      intro s s' k v _ h
      exact absurd h (by simp [insertEHT])
  | succ n ih =>
      intro s s' k v inv h
      rw [insertEHT] at h
      have hidx : indexOf hash s k < s.dir.length := indexOf_lt inv k
      rcases hbi : bucketInsert bucketSize (getBucket s (dirRef s (indexOf hash s k))) k v
        with _ | b'
      · rw [hbi] at h
        have hfull := bucketInsert_none hbi
        have hne : (getBucket s (dirRef s (indexOf hash s k))).list ≠ [] := by
          intro hc
          rw [hc] at hfull
          simp at hfull
          omega
        by_cases hd : (getBucket s (dirRef s (indexOf hash s k))).depth ≠ s.globalDepth
        · rw [if_pos hd] at h
          have hlt : (getBucket s (dirRef s (indexOf hash s k))).depth < s.globalDepth := by
            have := inv.depthLe _ (dirRef_mem hidx)
            omega
          exact ih _ s' k v (invH_redistribute inv hidx hne hlt) h
        · rw [if_neg hd] at h
          exact ih _ s' k v (invH_double inv) h
      · rw [hbi] at h
        simp only [Option.some.injEq] at h
        obtain ⟨hdep, hmem⟩ := bucketInsert_spec hbi
        have hb' : b' = (⟨b'.list, (getBucket s (dirRef s (indexOf hash s k))).depth⟩ :
            Bucket) := by
          cases b' with
          | mk l d =>
              simp only at hdep
              rw [hdep]
        rw [← h, hb']
        exact invH_bucketSet inv hidx rfl b'.list hmem

/-- `Remove` preserves the invariant. -/
theorem invH_remove {hash : Nat → Nat} {s : EHT} (inv : InvH hash s) (k : Nat) :
    InvH hash (removeEHT hash s k).2 := by
  unfold removeEHT
  simp only
  have hidx : indexOf hash s k < s.dir.length := indexOf_lt inv k
  set b := getBucket s (dirRef s (indexOf hash s k)) with hb
  have hres : (bucketRemove b k).2 =
      (⟨(bucketRemove b k).2.list, b.depth⟩ : Bucket) ∧
      ∀ e ∈ (bucketRemove b k).2.list, e ∈ b.list ∨ e.1 = k := by
    unfold bucketRemove
    by_cases hf : (b.list.find? (fun e => e.1 = k)).isSome = true
    · rw [if_pos hf]
      exact ⟨rfl, fun e he => Or.inl (List.mem_of_mem_eraseP he)⟩
    · rw [if_neg hf]
      exact ⟨rfl, fun e he => Or.inl he⟩
  rw [hres.1]
  exact invH_bucketSet inv hidx rfl _ hres.2

/-- Every reachable hash-table state satisfies the invariant, provided
the bucket capacity is at least 1. -/
theorem invH_of_reach {hash : Nat → Nat} {bucketSize : Nat} {s : EHT}
    (hsz : 1 ≤ bucketSize) (hr : ReachH hash bucketSize s) : InvH hash s := by
  induction hr with
  | init => exact invH_init hash
  | insert s s' k v fuel _ h ih => exact invH_insertLoop hash hsz fuel s s' k v ih h
  | remove s k _ ih => exact invH_remove ih k

/-- C8: in every state reachable by `Insert`/`Remove` sequences (bucket
capacity at least 1), for every key `k` the bucket referenced by the
directory slot `IndexOf(k)` stores only entries whose hash agrees with
`IndexOf(k)` on the low `local_depth` bits (masking with
`(1 << local_depth) - 1` is `% 2 ^ local_depth`). -/
theorem eht_hash_consistency {hash : Nat → Nat} {bucketSize : Nat} {s : EHT}
    (hsz : 1 ≤ bucketSize) (hr : ReachH hash bucketSize s) (k : Nat) :
    ∀ e ∈ (getBucket s (dirRef s (indexOf hash s k))).list,
      hash e.1 % 2 ^ (getBucket s (dirRef s (indexOf hash s k))).depth =
        indexOf hash s k % 2 ^ (getBucket s (dirRef s (indexOf hash s k))).depth := by
  have inv := invH_of_reach hsz hr
  exact inv.hashOk _ (indexOf_lt inv k)

/-- Concrete table: bucket size 2, identity hash, one insert of (1, 10). -/
def ehtW : EHT := ⟨0, [⟨[(1, 10)], 0⟩], [0]⟩

/-- C8 witness: the consistency theorem applied to a concrete reachable
state. -/
theorem eht_hash_consistency_witness :
    1 ≤ 2 ∧
    id (1, 10).1 % 2 ^ (getBucket ehtW (dirRef ehtW (indexOf id ehtW 1))).depth =
      indexOf id ehtW 1 % 2 ^ (getBucket ehtW (dirRef ehtW (indexOf id ehtW 1))).depth :=
  ⟨by decide,
    @eht_hash_consistency id 2 ehtW (by decide)
      (ReachH.insert initEHT ehtW 1 10 5 ReachH.init (by rfl)) 1 (1, 10) (by decide)⟩

/-! ### Deadlock detection (wait-for graph DFS)

From `LockManager::DFS`, `HasCycle` and the victim-removal loop of
`RunCycleDetection` (`src/concurrency/lock_manager.cpp` lines 410-455
and 504-569).  `DFS` explores simple paths (`cycle_vector`); when a
neighbour `txn` of the path's last node already occurs in the path at
position `i`, the cycle `path[i..]` has been found and the victim is
the maximum id on it; the victim's transaction state is set to ABORTED
on the spot.  The recursion is modelled with fuel: paths are simple, so
`|keys| + 1` fuel is never exhausted. -/

/-- Maximum of a list of ids (the `*txn_id = *iter; if (*txn_id < *iter) ...`
scan over `cycle_vector[i..]`; for the non-empty lists involved this
fold from 0 computes the same maximum). -/
def maxList (l : List Nat) : Nat := l.foldl Nat.max 0

/-- The neighbour loop of `DFS`: on the first neighbour already in the
path, abort with the maximum of the cycle; otherwise push and recurse
through `rec` (the next `DFS` activation), and on return without a
cycle pop and continue. -/
def dfsListF (g : WaitGraph) (rec : List Nat → Option Nat) (path : List Nat) :
    List Nat → Option Nat
  | [] => none
  | t :: rest =>
    match path.findIdx? (fun x => x = t) with
    | some i => some (maxList (path.drop i))
    | none =>
      match rec (path ++ [t]) with
      | some v => some v
      | none => dfsListF g rec path rest

/-- One `DFS` activation (lines 410-437): return early when the last
path node has no adjacency entry, otherwise iterate its neighbours.
The recursion is on fuel; paths are simple, so `|keys| + 1` fuel is
never exhausted. -/
def dfsAux (g : WaitGraph) : Nat → List Nat → Option Nat
  | 0, _ => none
  | fuel + 1, path =>
    if hasKey g (path.getLastD 0) then
      dfsListF g (fun p => dfsAux g fuel p) path (adjOf g (path.getLastD 0))
    else none

/-- Insertion into a descending-sorted list. -/
def insertDesc (x : Nat) : List Nat → List Nat
  | [] => [x]
  | y :: t => if y ≤ x then x :: y :: t else y :: insertDesc x t

/-- Descending insertion sort, modelling `std::sort` with
`std::greater<>` (the ids are pairwise distinct, so every correct sort
produces this order). -/
def sortDesc : List Nat → List Nat
  | [] => []
  | x :: t => insertDesc x (sortDesc t)

/-- The start-node loop of `HasCycle` (lines 438-455): all keys in
descending id order. -/
def txnSorted (g : WaitGraph) : List Nat :=
  sortDesc (g.map Prod.fst)

def hasCycleGo (g : WaitGraph) : List Nat → Option Nat
  | [] => none
  | t :: rest =>
    match dfsAux g (g.length + 1) [t] with
    | some v => some v
    | none => hasCycleGo g rest

/-- `LockManager::HasCycle`, returning the aborted victim when a cycle
is found. -/
def hasCycle (g : WaitGraph) : Option Nat := hasCycleGo g (txnSorted g)

/-- One pass of cycle detection with the abort side effect of `DFS`:
the victim's transaction state becomes ABORTED. -/
def cyclePass (g : WaitGraph) (st : Nat → TxnState) :
    (Nat → TxnState) × Option Nat :=
  match hasCycle g with
  | some v => (fun t => if t = v then TxnState.ABORTED else st t, some v)
  | none => (st, none)

/-- `waits_for_.erase(txn_id)`. -/
def eraseNode (g : WaitGraph) (t : Nat) : WaitGraph :=
  g.eraseP (fun p => p.1 = t)

/-- The `for (wait : waits_for_) RemoveEdge(wait.first, txn_id)` loop of
`RunCycleDetection` (lines 554-556); each `RemoveEdge` call is the
no-op of C3. -/
def removeEdgeAll (g : WaitGraph) (t : Nat) : WaitGraph :=
  (g.map Prod.fst).foldl (fun h key => removeEdge h key t) g

/-- The `while (HasCycle(&txn_id))` loop of `RunCycleDetection` (lines
505-569): abort the victim, remove its edges (a no-op) and its node,
repeat.  Returns the final graph, the transaction states and the list
of victims. -/
def detectLoop : Nat → WaitGraph → (Nat → TxnState) →
    WaitGraph × (Nat → TxnState) × List Nat
  | 0, g, st => (g, st, [])
  | fuel + 1, g, st =>
    match hasCycle g with
    | none => (g, st, [])
    | some v =>
      let g' := eraseNode (removeEdgeAll g v) v
      let r := detectLoop fuel g' (fun t => if t = v then TxnState.ABORTED else st t)
      (r.1, r.2.1, v :: r.2.2)

/-- A (simple) cycle of the wait-for graph: a non-empty duplicate-free
node list each of whose nodes has an edge to the next, cyclically. -/
def isCycle (g : WaitGraph) (c : List Nat) : Prop :=
  c ≠ [] ∧ c.Nodup ∧ List.Chain' (fun a b => b ∈ adjOf g a) c ∧
    c.headD 0 ∈ adjOf g (c.getLastD 0)

instance (g : WaitGraph) (c : List Nat) : Decidable (isCycle g c) :=
  inferInstanceAs (Decidable (c ≠ [] ∧ c.Nodup ∧
    List.Chain' (fun a b => b ∈ adjOf g a) c ∧
    c.headD 0 ∈ adjOf g (c.getLastD 0)))

theorem mem_insertDesc {x y : Nat} : ∀ {l : List Nat},
    y ∈ insertDesc x l ↔ y = x ∨ y ∈ l := by
  intro l
  induction l with
  | nil => simp [insertDesc]
  | cons b t ih =>
      rw [insertDesc]
      by_cases hb : b ≤ x
      · rw [if_pos hb]; simp
      · rw [if_neg hb]
        simp only [List.mem_cons, ih]
        tauto

theorem mem_sortDesc {y : Nat} : ∀ {l : List Nat}, y ∈ sortDesc l ↔ y ∈ l := by
  intro l
  induction l with
  | nil => simp [sortDesc]
  | cons b t ih =>
      rw [sortDesc, mem_insertDesc, ih]
      simp

/-! #### Soundness of the DFS -/

theorem foldl_max_facts : ∀ (l : List Nat) (a : Nat),
    a ≤ l.foldl Nat.max a ∧ ∀ x ∈ l, x ≤ l.foldl Nat.max a := by
  intro l
  induction l with
  | nil => intro a; exact ⟨Nat.le_refl a, by simp⟩
  | cons b t ih =>
      intro a
      simp only [List.foldl_cons]
      refine ⟨Nat.le_trans (Nat.le_max_left a b) (ih (Nat.max a b)).1, ?_⟩
      intro x hx
      rcases List.mem_cons.mp hx with h | h
      · subst h
        exact Nat.le_trans (Nat.le_max_right a x) (ih (Nat.max a x)).1
      · exact (ih (Nat.max a b)).2 x h

theorem foldl_max_mem : ∀ (l : List Nat) (a : Nat),
    l.foldl Nat.max a = a ∨ l.foldl Nat.max a ∈ l := by
  intro l
  induction l with
  | nil => intro a; exact Or.inl rfl
  | cons b t ih =>
      intro a
      simp only [List.foldl_cons]
      rcases ih (Nat.max a b) with h | h
      · rw [h]
        rcases Nat.le_total a b with h2 | h2
        · have hab : Nat.max a b = b := Nat.max_eq_right h2
          exact Or.inr (by rw [hab]; simp)
        · have hab : Nat.max a b = a := Nat.max_eq_left h2
          exact Or.inl hab
      · exact Or.inr (List.mem_cons_of_mem _ h)

theorem maxList_mem {l : List Nat} (h : l ≠ []) : maxList l ∈ l := by
  unfold maxList
  rcases foldl_max_mem l 0 with h' | h'
  · rw [h']
    cases l with
    | nil => exact absurd rfl h
    | cons a t =>
        have hfacts := (foldl_max_facts (a :: t) 0).2 a (by simp)
        have ha : a = 0 := by omega
        rw [ha]
        simp
  · exact h'

theorem maxList_le {l : List Nat} : ∀ x ∈ l, x ≤ maxList l :=
  (foldl_max_facts l 0).2

/-- A node with a neighbour is a key of the map. -/
theorem hasKey_of_adj {g : WaitGraph} {x y : Nat} (h : y ∈ adjOf g x) :
    hasKey g x = true := by
  unfold adjOf at h
  unfold hasKey
  rcases hf : g.find? (fun p => p.1 = x) with _ | p
  · rw [hf] at h; simp at h
  · rw [hf]; rfl

theorem hasKey_iff {g : WaitGraph} {x : Nat} :
    hasKey g x = true ↔ x ∈ g.map Prod.fst := by
  unfold hasKey
  rw [Option.isSome_iff_exists]
  constructor
  · intro ⟨p, hp⟩
    have hmem := List.mem_of_find?_eq_some hp
    have hpe := List.find?_some hp
    simp only [decide_eq_true_eq] at hpe
    rw [← hpe]
    exact List.mem_map_of_mem _ hmem
  · intro hx
    obtain ⟨p, hp, hpe⟩ := List.mem_map.mp hx
    have : (g.find? (fun q => q.1 = x)).isSome := by
      rw [List.find?_isSome]
      exact ⟨p, hp, by simp [hpe]⟩
    rwa [Option.isSome_iff_exists] at this

/-- Invariant of the DFS path (`cycle_vector`): non-empty, simple, a
chain of edges, and every node except possibly the last is a key. -/
structure PathInv (g : WaitGraph) (path : List Nat) : Prop where
  ne : path ≠ []
  nodup : path.Nodup
  chain : List.Chain' (fun a b => b ∈ adjOf g a) path
  keys : ∀ x ∈ path.dropLast, hasKey g x = true

/-- What a successful DFS yields: a cycle whose maximum id is the
returned victim, all of whose nodes are keys. -/
def CycleOut (g : WaitGraph) (v : Nat) : Prop :=
  ∃ c, isCycle g c ∧ v ∈ c ∧ (∀ x ∈ c, x ≤ v) ∧ ∀ x ∈ c, hasKey g x = true

theorem mem_of_ne_nil {path : List Nat} (hne : path ≠ []) {x : Nat} (h : x ∈ path) :
    x ∈ path.dropLast ∨ x = path.getLastD 0 := by
  have hdec := List.dropLast_concat_getLast hne
  rw [← hdec] at h
  rcases List.mem_append.mp h with h' | h'
  · exact Or.inl h'
  · simp only [List.mem_singleton] at h'
    subst h'
    right
    rw [List.getLastD_eq_getLast?, List.getLast?_eq_getLast _ hne]
    rfl

theorem getLastD_drop {l : List Nat} {i : Nat} (h : i < l.length) :
    (l.drop i).getLastD 0 = l.getLastD 0 := by
  have hd : l.drop i ≠ [] := by
    intro hc
    have := List.length_drop i l
    rw [hc] at this
    simp at this
    omega
  conv_rhs => rw [← List.take_append_drop i l]
  rw [List.getLastD_eq_getLast?, List.getLastD_eq_getLast?]
  rw [List.getLast?_append]
  rcases hlast : (l.drop i).getLast? with _ | a
  · rw [List.getLast?_eq_none_iff] at hlast
    exact absurd hlast hd
  · rfl

theorem headD_drop {l : List Nat} {i : Nat} (h : i < l.length) :
    (l.drop i).headD 0 = l.getD i 0 := by
  rw [List.drop_eq_getElem_cons h]
  simp [List.getD_eq_getElem?_getD, List.getElem?_eq_getElem h]

/-- Soundness of the neighbour loop, given soundness of the recursive
DFS activations at the current fuel. -/
theorem dfsList_sound {g : WaitGraph} {fuel : Nat}
    (hAux : ∀ path v, PathInv g path → dfsAux g fuel path = some v → CycleOut g v) :
    ∀ (ns : List Nat) (path : List Nat) (v : Nat), PathInv g path →
      hasKey g (path.getLastD 0) = true →
      (∀ t ∈ ns, t ∈ adjOf g (path.getLastD 0)) →
      dfsListF g (fun p => dfsAux g fuel p) path ns = some v → CycleOut g v := by
  intro ns
  induction ns with
  | nil =>
      intro path v _ _ _ h
      rw [dfsListF] at h
      exact absurd h (by simp)
  | cons t rest ih =>
      intro path v hinv hkey hns h
      rw [dfsListF] at h
      rcases hidx : path.findIdx? (fun x => x = t) with _ | i
      · rw [hidx] at h
        rcases haux : dfsAux g fuel (path ++ [t]) with _ | w
        · rw [haux] at h
          exact ih path v hinv hkey (fun u hu => hns u (List.mem_cons_of_mem _ hu)) h
        · rw [haux] at h
          simp only [Option.some.injEq] at h
          subst h
          have htnotin : t ∉ path := by
            intro hc
            rw [List.findIdx?_eq_none_iff] at hidx
            have := hidx t hc
            simp at this
          have hedge : t ∈ adjOf g (path.getLastD 0) := hns t (by simp)
          refine hAux (path ++ [t]) w ⟨by simp, ?_, ?_, ?_⟩ haux
          · simp [List.nodup_append, hinv.nodup, htnotin]
          · rw [List.chain'_append]
            refine ⟨hinv.chain, List.chain'_singleton t, ?_⟩
            intro x hx y hy
            have hx' : path.getLast? = some x := Option.mem_def.mp hx
            have hy' : (t :: ([] : List Nat)).head? = some y := Option.mem_def.mp hy
            simp only [List.head?_cons, Option.some.injEq] at hy'
            subst hy'
            have hxl : x = path.getLastD 0 := by
              rw [List.getLastD_eq_getLast?, hx']
              rfl
            rw [hxl]
            exact hedge
          · rw [List.dropLast_concat]
            intro x hx
            rcases mem_of_ne_nil hinv.ne hx with h' | h'
            · exact hinv.keys x h'
            · rw [h']
              exact hkey
      · rw [hidx] at h
        simp only [Option.some.injEq] at h
        subst h
        rw [List.findIdx?_eq_some_iff_getElem] at hidx
        obtain ⟨hilt, hieq, _⟩ := hidx
        simp only [decide_eq_true_eq] at hieq
        set c := path.drop i with hc
        have hcne : c ≠ [] := by
          rw [hc]
          intro hcon
          have := List.length_drop i path
          rw [hcon] at this
          simp at this
          omega
        have hchead : c.headD 0 = t := by
          rw [hc, headD_drop hilt]
          rw [List.getD_eq_getElem?_getD, List.getElem?_eq_getElem hilt]
          simp [hieq]
        have hclast : c.getLastD 0 = path.getLastD 0 := by
          rw [hc]; exact getLastD_drop hilt
        have hcyc : isCycle g c := by
          refine ⟨hcne, hinv.nodup.sublist (List.drop_sublist _ _), hinv.chain.drop i, ?_⟩
          rw [hchead, hclast]
          exact hns t (by simp)
        have hsubc : ∀ x ∈ c, x ∈ path := fun x hx =>
          (List.drop_sublist i path).subset hx
        refine ⟨c, hcyc, maxList_mem hcne, maxList_le, ?_⟩
        intro x hx
        rcases mem_of_ne_nil hinv.ne (hsubc x hx) with h' | h'
        · exact hinv.keys x h'
        · rw [h']; exact hkey

/-- Soundness of `DFS`: a returned victim is the maximum of a cycle all
of whose nodes are keys. -/
theorem dfsAux_sound {g : WaitGraph} :
    ∀ (fuel : Nat) (path : List Nat) (v : Nat), PathInv g path →
      dfsAux g fuel path = some v → CycleOut g v := by
  intro fuel
  induction fuel with
  | zero =>
      intro path v _ h
      rw [dfsAux] at h
      exact absurd h (by simp)
  | succ n ih =>
      intro path v hinv h
      rw [dfsAux] at h
      by_cases hkey : hasKey g (path.getLastD 0) = true
      · rw [if_pos hkey] at h
        exact dfsList_sound ih _ path v hinv hkey (fun t ht => ht) h
      · rw [if_neg hkey] at h
        exact absurd h (by simp)

theorem hasCycleGo_sound {g : WaitGraph} :
    ∀ (l : List Nat) (v : Nat), hasCycleGo g l = some v → CycleOut g v := by
  intro l
  induction l with
  | nil =>
      intro v h
      rw [hasCycleGo] at h
      exact absurd h (by simp)
  | cons t rest ih =>
      intro v h
      rw [hasCycleGo] at h
      rcases haux : dfsAux g (g.length + 1) [t] with _ | w
      · rw [haux] at h
        exact ih v h
      · rw [haux] at h
        simp only [Option.some.injEq] at h
        subst h
        exact dfsAux_sound _ [t] w ⟨by simp, by simp, by simp, by simp⟩ haux

theorem hasCycle_sound {g : WaitGraph} {v : Nat} (h : hasCycle g = some v) :
    CycleOut g v :=
  hasCycleGo_sound _ v h

/-! #### Completeness of the DFS -/

/-- From `x` there is an edge walk of at most `n + 1` steps whose last
node lies in `S`. -/
inductive Hits (g : WaitGraph) (S : List Nat) : Nat → Nat → Prop where
  | step {x y : Nat} (n : Nat) : y ∈ adjOf g x → y ∈ S → Hits g S x n
  | extend {x y : Nat} {n : Nat} : y ∈ adjOf g x → Hits g S y n → Hits g S x (n + 1)

theorem Hits.mono {g : WaitGraph} {S S' : List Nat} (hsub : ∀ z ∈ S, z ∈ S')
    {x n : Nat} (h : Hits g S x n) : Hits g S' x n := by
  induction h with
  | step n hy hS => exact Hits.step n hy (hsub _ hS)
  | extend hy _ ih => exact Hits.extend hy ih

theorem Hits.out {g : WaitGraph} {S : List Nat} {x n : Nat} (h : Hits g S x n) :
    ∃ y, y ∈ adjOf g x := by
  cases h with
  | step n hy _ => exact ⟨_, hy⟩
  | extend hy _ => exact ⟨_, hy⟩

/-- If the neighbour loop returned `none`, every neighbour was outside
the path and its recursive activation returned `none`. -/
theorem dfsList_none {g : WaitGraph} {fuel : Nat} {path : List Nat} :
    ∀ ns, dfsListF g (fun p => dfsAux g fuel p) path ns = none →
      ∀ t ∈ ns, t ∉ path ∧ dfsAux g fuel (path ++ [t]) = none := by
  intro ns
  induction ns with
  | nil => intro _ t ht; exact absurd ht (by simp)
  | cons t rest ih =>
      intro h u hu
      rw [dfsListF] at h
      rcases hidx : path.findIdx? (fun x => x = t) with _ | i
      · rw [hidx] at h
        rcases haux : dfsAux g fuel (path ++ [t]) with _ | w
        · rw [haux] at h
          rcases List.mem_cons.mp hu with h' | h'
          · subst h'
            refine ⟨?_, haux⟩
            intro hc
            rw [List.findIdx?_eq_none_iff] at hidx
            have := hidx u hc
            simp at this
          · exact ih h u h'
        · rw [haux] at h
          exact absurd h (by simp)
      · rw [hidx] at h
        exact absurd h (by simp)

/-- Completeness of `DFS`: with enough fuel, a walk from the path's
last node back into the path forces a cycle report. -/
theorem dfsAux_complete {g : WaitGraph} :
    ∀ (n : Nat) (fuel : Nat) (path : List Nat), n < fuel → PathInv g path →
      Hits g path (path.getLastD 0) n → dfsAux g fuel path ≠ none := by
  intro n
  induction n using Nat.strong_induction_on with
  | _ n ihn =>
      intro fuel path hnf hinv hhits hnone
      rcases fuel with _ | f
      · omega
      · rw [dfsAux] at hnone
        obtain ⟨y0, hy0⟩ := hhits.out
        have hkey : hasKey g (path.getLastD 0) = true := hasKey_of_adj hy0
        rw [if_pos hkey] at hnone
        have hall := dfsList_none _ hnone
        cases hhits with
        | step m hy hS =>
            exact (hall _ hy).1 hS
        | extend hy hwalk =>
            rename_i y m
            obtain ⟨hynot, hyaux⟩ := hall _ hy
            have hinv' : PathInv g (path ++ [y]) := by
              refine ⟨by simp, ?_, ?_, ?_⟩
              · simp [List.nodup_append, hinv.nodup, hynot]
              · rw [List.chain'_append]
                refine ⟨hinv.chain, List.chain'_singleton y, ?_⟩
                intro a ha b hb
                have ha' : path.getLast? = some a := Option.mem_def.mp ha
                have hb' : ([y] : List Nat).head? = some b := Option.mem_def.mp hb
                simp only [List.head?_cons, Option.some.injEq] at hb'
                subst hb'
                have hal : a = path.getLastD 0 := by
                  rw [List.getLastD_eq_getLast?, ha']
                  rfl
                rw [hal]
                exact hy
              · rw [List.dropLast_concat]
                intro x hx
                rcases mem_of_ne_nil hinv.ne hx with h' | h'
                · exact hinv.keys x h'
                · rw [h']
                  exact hkey
            have hlast' : (path ++ [y]).getLastD 0 = y := List.getLastD_concat _ _ _
            have hwalk' : Hits g (path ++ [y]) ((path ++ [y]).getLastD 0) m := by
              rw [hlast']
              exact hwalk.mono (fun z hz => List.mem_append_left _ hz)
            exact ihn m (by omega) f (path ++ [y]) (by omega) hinv' hwalk' hyaux

/-- Running once around a chain with a closing edge hits the start. -/
theorem chain_hits {g : WaitGraph} :
    ∀ (l : List Nat) (z x : Nat),
      List.Chain' (fun a b => b ∈ adjOf g a) (z :: l) →
      x ∈ adjOf g ((z :: l).getLastD 0) →
      Hits g [x] z l.length := by
  intro l
  induction l with
  | nil =>
      intro z x _ hwrap
      simp only [List.getLastD_eq_getLast?] at hwrap
      exact Hits.step 0 (by simpa using hwrap) (by simp)
  | cons w l' ih =>
      intro z x hchain hwrap
      have hzw : w ∈ adjOf g z := by
        rw [List.chain'_cons] at hchain
        exact hchain.1
      have hchain' : List.Chain' (fun a b => b ∈ adjOf g a) (w :: l') := by
        rw [List.chain'_cons] at hchain
        exact hchain.2
      have hwrap' : x ∈ adjOf g ((w :: l').getLastD 0) := by
        simpa using hwrap
      exact Hits.extend hzw (ih w x hchain' hwrap')

theorem chain_dropLast_keys {g : WaitGraph} :
    ∀ (c : List Nat), List.Chain' (fun a b => b ∈ adjOf g a) c →
      ∀ x ∈ c.dropLast, hasKey g x = true := by
  intro c
  induction c with
  | nil => intro _ x hx; simp at hx
  | cons a t ih =>
      intro hchain x hx
      cases t with
      | nil => simp at hx
      | cons b t' =>
          rw [List.chain'_cons] at hchain
          rcases List.mem_cons.mp (by simpa using hx) with h' | h'
          · subst h'
            exact hasKey_of_adj hchain.1
          · exact ih hchain.2 x (by simpa using h')

theorem cycle_keys {g : WaitGraph} {c : List Nat} (hc : isCycle g c) :
    ∀ x ∈ c, hasKey g x = true := by
  obtain ⟨hne, _, hchain, hwrap⟩ := hc
  intro x hx
  rcases mem_of_ne_nil hne hx with h' | h'
  · exact chain_dropLast_keys c hchain x h'
  · rw [h']
    exact hasKey_of_adj hwrap

theorem nodup_subset_length {c ks : List Nat} (hnd : c.Nodup) (hsub : ∀ x ∈ c, x ∈ ks) :
    c.length ≤ ks.length := by
  calc c.length = c.toFinset.card := (List.toFinset_card_of_nodup hnd).symm
    _ ≤ ks.toFinset.card := by
        apply Finset.card_le_card
        intro x hx
        rw [List.mem_toFinset] at hx ⊢
        exact hsub x hx
    _ ≤ ks.length := List.toFinset_card_le ks

theorem hasCycleGo_none {g : WaitGraph} :
    ∀ l, hasCycleGo g l = none → ∀ t ∈ l, dfsAux g (g.length + 1) [t] = none := by
  intro l
  induction l with
  | nil => intro _ t ht; exact absurd ht (by simp)
  | cons t rest ih =>
      intro h u hu
      rw [hasCycleGo] at h
      rcases haux : dfsAux g (g.length + 1) [t] with _ | w
      · rw [haux] at h
        rcases List.mem_cons.mp hu with h' | h'
        · subst h'; exact haux
        · exact ih h u h'
      · rw [haux] at h
        exact absurd h (by simp)

/-- Completeness of `HasCycle`: a graph with a cycle is reported. -/
theorem hasCycle_complete {g : WaitGraph} (h : ∃ c, isCycle g c) :
    hasCycle g ≠ none := by
  obtain ⟨c, hc⟩ := h
  intro hnone
  obtain ⟨hne, hnd, hchain, hwrap⟩ := hc
  rcases hx : c with _ | ⟨x, cs⟩
  · exact hne hx
  · subst hx
    have hkeys := cycle_keys ⟨hne, hnd, hchain, hwrap⟩
    have hxkey : x ∈ g.map Prod.fst := hasKey_iff.mp (hkeys x (by simp))
    have hxsorted : x ∈ txnSorted g := by
      unfold txnSorted
      rwa [mem_sortDesc]
    have hlen : (x :: cs).length ≤ g.length := by
      have := nodup_subset_length hnd (fun z hz => hasKey_iff.mp (hkeys z hz))
      simpa using this
    have hhits : Hits g [x] x cs.length :=
      chain_hits cs x x hchain hwrap
    have hdfs := hasCycleGo_none _ hnone x hxsorted
    have hhits' : Hits g [x] (([x] : List Nat).getLastD 0) cs.length := by
      simpa using hhits
    exact dfsAux_complete cs.length (g.length + 1) [x]
      (by simp at hlen; omega) ⟨by simp, by simp, by simp, by simp⟩ hhits' hdfs

/-! #### The victim-removal loop -/

theorem removeEdge_id_of_key {g : WaitGraph} {k v : Nat} (h : hasKey g k = true) :
    removeEdge g k v = g := by
  unfold removeEdge
  rw [if_pos h]

/-- Key of a pair of the map. -/
theorem hasKey_of_mem {g : WaitGraph} {p : Nat × List Nat} (h : p ∈ g) :
    hasKey g p.1 = true := by
  rw [hasKey_iff]
  exact List.mem_map_of_mem _ h

/-- The `RemoveEdge` sweep over all keys is the identity. -/
theorem removeEdgeAll_id (g : WaitGraph) (v : Nat) : removeEdgeAll g v = g := by
  unfold removeEdgeAll
  have hgen : ∀ ks : List Nat, (∀ k ∈ ks, hasKey g k = true) →
      List.foldl (fun h key => removeEdge h key v) g ks = g := by
    intro ks
    induction ks with
    | nil => intro _; rfl
    | cons k rest ih =>
        intro hk
        simp only [List.foldl_cons]
        rw [removeEdge_id_of_key (hk k (by simp))]
        exact ih (fun u hu => hk u (List.mem_cons_of_mem _ hu))
  exact hgen (g.map Prod.fst) (fun k hk => hasKey_iff.mpr hk)

theorem eraseNode_lt {g : WaitGraph} {v : Nat} (h : hasKey g v = true) :
    (eraseNode g v).length < g.length := by
  unfold eraseNode
  rw [hasKey_iff] at h
  obtain ⟨p, hp, hpe⟩ := List.mem_map.mp h
  have hlen : (List.eraseP (fun q => decide (q.1 = v)) g).length = g.length - 1 :=
    List.length_eraseP_of_mem hp (by simp [hpe])
  have hpos : 0 < g.length := List.length_pos.mpr (by
    intro hc
    rw [hc] at hp
    simp at hp)
  omega

/-- With enough fuel the victim-removal loop ends with a graph on which
`HasCycle` fails. -/
theorem detectLoop_none : ∀ (fuel : Nat) (g : WaitGraph) (st : Nat → TxnState),
    g.length < fuel → hasCycle (detectLoop fuel g st).1 = none := by
  intro fuel
  induction fuel with
  | zero => intro g st h; omega
  | succ f ih =>
      intro g st h
      rw [detectLoop]
      rcases hcy : hasCycle g with _ | v
      · exact hcy
      · simp only
        obtain ⟨c, hc, hvc, _, hkeys⟩ := hasCycle_sound hcy
        have hvkey : hasKey g v = true := hkeys v hvc
        rw [removeEdgeAll_id]
        have hlt := eraseNode_lt hvkey
        exact ih (eraseNode g v) _ (by omega)

theorem detectLoop_preserve : ∀ (fuel : Nat) (g : WaitGraph) (st : Nat → TxnState)
    (t : Nat), st t = TxnState.ABORTED → (detectLoop fuel g st).2.1 t = TxnState.ABORTED := by
  intro fuel
  induction fuel with
  | zero => intro g st t h; exact h
  | succ f ih =>
      intro g st t h
      rw [detectLoop]
      rcases hcy : hasCycle g with _ | v
      · exact h
      · simp only
        apply ih
        by_cases htv : t = v
        · rw [if_pos htv]
        · rw [if_neg htv]; exact h

theorem detectLoop_aborts : ∀ (fuel : Nat) (g : WaitGraph) (st : Nat → TxnState)
    (v : Nat), v ∈ (detectLoop fuel g st).2.2 →
      (detectLoop fuel g st).2.1 v = TxnState.ABORTED := by
  intro fuel
  induction fuel with
  | zero =>
      intro g st v h
      rw [detectLoop] at h
      exact absurd h (by simp)
  | succ f ih =>
      intro g st v hv
      rw [detectLoop] at hv ⊢
      rcases hcy : hasCycle g with _ | w
      · rw [hcy] at hv
        exact absurd hv (by simp)
      · rw [hcy] at hv
        simp only [List.mem_cons] at hv
        simp only
        rcases hv with h' | h'
        · subst h'
          apply detectLoop_preserve
          rw [if_pos rfl]
        · exact ih _ _ v h'

/-- C4: deadlock detection.  (a) A wait-for graph containing a cycle is
always reported by `HasCycle`; (b) a reported victim is the largest
transaction id on a cycle of the graph and the pass sets exactly its
state to ABORTED; (c) the victim-removal loop of `RunCycleDetection`
terminates (fuel `|g| + 1` is never exhausted) with every victim
ABORTED and an acyclic graph. -/
theorem deadlock_detection (g : WaitGraph) (st : Nat → TxnState) :
    ((∃ c, isCycle g c) → hasCycle g ≠ none) ∧
    (∀ v, hasCycle g = some v →
      (∃ c, isCycle g c ∧ v ∈ c ∧ ∀ x ∈ c, x ≤ v) ∧
      (cyclePass g st).1 v = TxnState.ABORTED) ∧
    (∀ v, v ∈ (detectLoop (g.length + 1) g st).2.2 →
      (detectLoop (g.length + 1) g st).2.1 v = TxnState.ABORTED) ∧
    ¬∃ c, isCycle (detectLoop (g.length + 1) g st).1 c := by
  refine ⟨hasCycle_complete, ?_, detectLoop_aborts _ g st, ?_⟩
  · intro v hv
    obtain ⟨c, hc, hvc, hmax, _⟩ := hasCycle_sound hv
    refine ⟨⟨c, hc, hvc, hmax⟩, ?_⟩
    unfold cyclePass
    rw [hv]
    simp
  · intro hex
    have := hasCycle_complete hex
    rw [detectLoop_none (g.length + 1) g st (by omega)] at this
    exact this rfl

/-- Concrete deadlock: transactions 1 and 2 wait for each other. -/
def waitG0 : WaitGraph := [(1, [2]), (2, [1])]

/-- C4 witness: the detection theorem applied to the two-cycle, with
the hypotheses discharged concretely (the victim is 2, the larger id). -/
theorem deadlock_detection_witness :
    hasCycle waitG0 ≠ none ∧
    ((∃ c, isCycle waitG0 c ∧ 2 ∈ c ∧ ∀ x ∈ c, x ≤ 2) ∧
      (cyclePass waitG0 (fun _ => TxnState.GROWING)).1 2 = TxnState.ABORTED) :=
  ⟨(deadlock_detection waitG0 (fun _ => TxnState.GROWING)).1
     ⟨[1, 2], by
       refine ⟨by decide, by decide, ?_, by decide⟩
       exact List.chain'_cons.mpr ⟨by decide, List.chain'_singleton 2⟩⟩,
   (deadlock_detection waitG0 (fun _ => TxnState.GROWING)).2.1 2 (by rfl)⟩

/-! ### B+ tree (`storage/index/b_plus_tree.cpp`,
`storage/page/b_plus_tree_leaf_page.cpp`,
`storage/page/b_plus_tree_internal_page.cpp`)

Keys and RIDs are `Nat` (the generic comparator is a total order; only
comparison results are used).  A page is a node in a page store indexed
by page id; `page_id_t` is `Nat` with `INVALID_PAGE_ID` rendered as
`Option`.  The `parent_page_id_` bookkeeping is elided: the algorithms
locate parents through the transaction page set (`GetPageSet()`),
modelled explicitly as a pid stack, and never read the parent pointer
on the search or modification paths. -/

/-- A B+ tree page: a leaf holds (key, RID) pairs plus the
`next_page_id_` chain pointer; an internal page holds (separator key,
child page id) pairs, the key of slot 0 being unused. -/
inductive BTNode where
  | leaf : List (Nat × Nat) → Option Nat → BTNode
  | internal : List (Nat × Nat) → BTNode
deriving DecidableEq, Repr

/-- The tree object: `root_page_id_`, the buffer pool's page table, the
page allocator cursor, `leaf_max_size_` and `internal_max_size_`. -/
structure BTree where
  root : Option Nat
  pages : List (Nat × BTNode)
  nextPid : Nat
  leafMax : Nat
  internalMax : Nat
deriving DecidableEq, Repr

/-- `FetchPage` + `GetData`. -/
def getPage (s : BTree) (pid : Nat) : Option BTNode :=
  (s.pages.find? (fun p => p.1 = pid)).map Prod.snd

/-- Writing back a page's data (a no-op on an unknown pid). -/
def setPage (s : BTree) (pid : Nat) (n : BTNode) : BTree :=
  { s with pages := s.pages.map (fun p => if p.1 = pid then (pid, n) else p) }

/-- `NewPage`: allocate a fresh page id. -/
def newPage (s : BTree) (n : BTNode) : BTree × Nat :=
  ({ s with pages := s.pages ++ [(s.nextPid, n)], nextPid := s.nextPid + 1 }, s.nextPid)

/-- `DeletePage`. -/
def delPage (s : BTree) (pid : Nat) : BTree :=
  { s with pages := s.pages.eraseP (fun p => p.1 = pid) }

/-- The `while (l < r)` binary-search loop shared by `KeyIndex` (leaf
lines 72-84, internal lines 144-156) and `Lookup` (internal lines
56-68); `f mid` is the branch test sending `l` to `mid + 1`.  Each
iteration shrinks `r - l`, so `r - l` initial fuel suffices, after
which both functions return the meeting point. -/
def bsearch (f : Nat → Bool) : Nat → Nat → Nat → Nat
  | 0, l, _ => l
  | fuel + 1, l, r =>
    if l < r then
      let mid := (l + r) / 2
      if f mid then bsearch f fuel (mid + 1) r else bsearch f fuel l mid
    else l

/-- `KeyAt` (out-of-range slots read as 0, never meaningfully). -/
def keyAtD (entries : List (Nat × Nat)) (i : Nat) : Nat := (entries.getD i (0, 0)).1

/-- `ValueAt`. -/
def valAtD (entries : List (Nat × Nat)) (i : Nat) : Nat := (entries.getD i (0, 0)).2

/-- `BPlusTreeLeafPage::KeyIndex` (lines 72-84): binary search over all
slots with test `comparator(array_[mid].first, key) < 0`. -/
def leafKeyIndex (entries : List (Nat × Nat)) (key : Nat) : Nat :=
  bsearch (fun mid => keyAtD entries mid < key) (entries.length + 1) 0 entries.length

/-- `BPlusTreeInternalPage::KeyIndex` (lines 144-156): the same search
starting at slot 1. -/
def internalKeyIndex (entries : List (Nat × Nat)) (key : Nat) : Nat :=
  bsearch (fun mid => keyAtD entries mid < key) (entries.length + 1) 1 entries.length

/-- `BPlusTreeInternalPage::Lookup` (lines 56-68): binary search over
slots `1..size` with test `comparator(array_[mid].first, key) <= 0`,
then the child one slot to the left of the meeting point. -/
def internalLookup (entries : List (Nat × Nat)) (key : Nat) : Nat :=
  valAtD entries
    (bsearch (fun mid => keyAtD entries mid ≤ key) (entries.length + 1) 1 entries.length - 1)

/-- `BPlusTreeLeafPage::Insert` (lines 59-69): refuse when the slot at
`index` holds an equal key, otherwise shift right and write the pair at
`index`. -/
def leafInsertAt (entries : List (Nat × Nat)) (p : Nat × Nat) (i : Nat) :
    Option (List (Nat × Nat)) :=
  if i < entries.length ∧ keyAtD entries i = p.1 then none
  else some (entries.take i ++ p :: entries.drop i)

/-- `BPlusTreeLeafPage::Delete` (lines 112-122): `KeyIndex`, check the
key at the slot, close the gap. -/
def leafDelete (entries : List (Nat × Nat)) (key : Nat) : Option (List (Nat × Nat)) :=
  let i := leafKeyIndex entries key
  if i < entries.length ∧ keyAtD entries i = key then some (entries.eraseIdx i) else none

/-- `BPlusTreeInternalPage::Delete` (lines 131-141). -/
def internalDelete (entries : List (Nat × Nat)) (key : Nat) : Option (List (Nat × Nat)) :=
  let i := internalKeyIndex entries key
  if i < entries.length ∧ keyAtD entries i = key then some (entries.eraseIdx i) else none

/-- The right-to-left shifting scan of `BPlusTreeInternalPage::Insert`
(lines 71-84), written on the reversed slots `size-1..1`: slots with a
larger key shift right; the new pair lands just after the first slot
(from the right) whose key is not larger. -/
def insFromRight (p : Nat × Nat) : List (Nat × Nat) → List (Nat × Nat)
  | [] => [p]
  | q :: t => if q.1 > p.1 then q :: insFromRight p t else p :: q :: t

/-- `BPlusTreeInternalPage::Insert` (lines 71-84): slot 0 never moves;
when every scanned slot has a larger key the pair is written at slot 1.
(On a slot-0-only page the code writes slots 1 and above its size; that
call never happens — rendered as appending the pair.) -/
def internalInsert (entries : List (Nat × Nat)) (p : Nat × Nat) : List (Nat × Nat) :=
  match entries with
  | [] => [p]
  | e0 :: rest => e0 :: (insFromRight p rest.reverse).reverse

/-- `BPlusTreeInternalPage::InsertFirst` (lines 201-208): shift every
slot right, write the value into slot 0 and the key into slot 1 — so
slot 0 keeps its old (unused) key and slot 1 receives the old slot-0
child.  (On an empty page the writes land beyond the new size; that
call never happens — rendered with an unused 0 key.) -/
def internalInsertFirst (entries : List (Nat × Nat)) (key v : Nat) : List (Nat × Nat) :=
  match entries with
  | [] => [(0, v)]
  | e0 :: rest => (e0.1, v) :: (key, e0.2) :: rest

/-- `BPlusTreeInternalPage::DeleteFirst` (lines 211-216). -/
def internalDeleteFirst (entries : List (Nat × Nat)) : List (Nat × Nat) := entries.drop 1

/-- `SetKeyAt` keeping the slot's child. -/
def setKeyAt (entries : List (Nat × Nat)) (i : Nat) (k : Nat) : List (Nat × Nat) :=
  entries.set i (k, valAtD entries i)

/-- The single left-to-right merge pass of
`BPlusTreeInternalPage::Split` (lines 92-107) over slots `1..max-1`
building `tmp`: slots with a smaller key precede the new pair, the new
pair goes before the first slot with a larger key, the rest follow.
(The `flag` branch on an equal key never fires: separator keys are
pairwise distinct in every reachable tree.) -/
def splitIns (p : Nat × Nat) : List (Nat × Nat) → List (Nat × Nat)
  | [] => [p]
  | q :: t => if q.1 < p.1 then q :: splitIns p t else p :: q :: t

/-- `Operation` (READ / INSERT / DELETE). -/
inductive BOp where
  | READ
  | INSERT
  | DELETE
deriving DecidableEq, Repr

/-- Modelled from the spec: `min_size = ⌈max_size/2⌉`
(`BPlusTreePage::GetMinSize` lives in `b_plus_tree_page.cpp`, which is
not part of this source tree). -/
def minSizeOf (maxSize : Nat) : Nat := (maxSize + 1) / 2

def nodeSize : BTNode → Nat
  | .leaf entries _ => entries.length
  | .internal entries => entries.length

def nodeIsLeaf : BTNode → Bool
  | .leaf _ _ => true
  | .internal _ => false

/-- `BPlusTree::IsSafe` (lines 125-133). -/
def isSafe (s : BTree) (n : BTNode) (op : BOp) : Bool :=
  match op with
  | .INSERT => nodeSize n < (if nodeIsLeaf n then s.leafMax - 1 else s.internalMax)
  | _ => nodeSize n > minSizeOf (if nodeIsLeaf n then s.leafMax else s.internalMax)

/-- `BPlusTree::FindLeafPageRW` (lines 61-122) in a single-threaded
execution (the root re-check loop runs once).  The returned list is the
transaction page set at return: a `READ` releases every ancestor as
soon as the child is latched; a write releases all held pages exactly
when the child `IsSafe`.  The last element is the leaf reached. -/
def findLeafGo (s : BTree) (key : Nat) (op : BOp) :
    Nat → Nat → List Nat → Option (List Nat)
  | 0, _, _ => none
  | fuel + 1, pid, stack =>
    match getPage s pid with
    | none => none
    | some (.leaf _ _) => some stack
    | some (.internal entries) =>
      let child := internalLookup entries key
      match getPage s child with
      | none => none
      | some cn =>
        let clear := match op with
          | .READ => true
          | _ => isSafe s cn op
        findLeafGo s key op fuel child ((if clear then [] else stack) ++ [child])

def findLeafPageRW (s : BTree) (key : Nat) (op : BOp) : Option (List Nat) :=
  match s.root with
  | none => none
  | some r => findLeafGo s key op (s.pages.length + 1) r [r]

/-- `BPlusTree::GetValue` (lines 36-58): descend, `KeyIndex`, compare
the key at the slot. -/
def getValue (s : BTree) (key : Nat) : Option Nat :=
  match findLeafPageRW s key .READ with
  | none => none
  | some stack =>
    match getPage s (stack.getLastD 0) with
    | some (.leaf entries _) =>
      let i := leafKeyIndex entries key
      if i < entries.length ∧ keyAtD entries i = key then some (valAtD entries i) else none
    | _ => none

/-- The empty-tree branch of `BPlusTree::Insert` (lines 168-181): start
a new tree with a fresh empty leaf as root. -/
def startNewTree (s : BTree) : BTree :=
  let r := newPage s (.leaf [] none)
  { r.1 with root := some r.2 }

/-- `BPlusTree::InsertInParentRW` (lines 205-258).  `stack` is the
transaction page set, ending with the already-split page `leftPid`;
`key` is the separator pushed up and `botherPid` the new right page.
The new root's slot-0 key is unused (the source leaves it
uninitialised; rendered as 0).  Recursion pops the stack, so
`stack.length` fuel suffices. -/
def insertInParentGo : Nat → BTree → List Nat → Nat → Nat → Nat → Option BTree
  | 0, _, _, _, _, _ => none
  | fuel + 1, s, stack, leftPid, key, botherPid =>
    if s.root = some leftPid then
      let r := newPage s (.internal [(0, leftPid), (key, botherPid)])
      some { r.1 with root := some r.2 }
    else
      match stack.dropLast.getLast? with
      | none => none
      | some parentPid =>
        match getPage s parentPid with
        | some (.internal pEntries) =>
          if pEntries.length < s.internalMax then
            some (setPage s parentPid (.internal (internalInsert pEntries (key, botherPid))))
          else
            let r := newPage s (.internal [])
            let tmp := match pEntries with
              | [] => [(key, botherPid)]
              | e0 :: rest => e0 :: splitIns (key, botherPid) rest
            let mid := (s.internalMax + 1) / 2
            let s2 := setPage (setPage r.1 parentPid (.internal (tmp.take mid))) r.2
              (.internal (tmp.drop mid))
            insertInParentGo fuel s2 stack.dropLast parentPid (keyAtD (tmp.drop mid) 0) r.2
        | _ => none

/-- The leaf part of `BPlusTree::Insert` (lines 182-201): `KeyIndex`,
page insert, and when the leaf reaches `leaf_max_size_` split it
(`BPlusTreeLeafPage::Split` lines 87-97: at the call site the size
equals the loop bound `GetMaxSize()`, so the upper half moves to the
new page, which also takes over the chain pointer). -/
def insertAtLeaf (s : BTree) (stack : List Nat) (key val : Nat) :
    Option (BTree × Bool) :=
  match getPage s (stack.getLastD 0) with
  | some (.leaf entries next) =>
    match leafInsertAt entries (key, val) (leafKeyIndex entries key) with
    | none => some (s, false)
    | some entries2 =>
      if entries2.length = s.leafMax then
        let r := newPage s (.leaf [] none)
        let mid := entries2.length / 2
        let s2 := setPage
          (setPage r.1 (stack.getLastD 0) (.leaf (entries2.take mid) (some r.2)))
          r.2 (.leaf (entries2.drop mid) next)
        match insertInParentGo stack.length s2 stack (stack.getLastD 0)
            (keyAtD (entries2.drop mid) 0) r.2 with
        | none => none
        | some s3 => some (s3, true)
      else some (setPage s (stack.getLastD 0) (.leaf entries2 next), true)
  | _ => none

/-- `BPlusTree::Insert` (lines 166-202); the `while (page_leaf ==
nullptr)` retry loop runs its body at most once single-threaded. -/
def insertBPT (s : BTree) (key val : Nat) : Option (BTree × Bool) :=
  match findLeafPageRW s key .INSERT with
  | some stack => insertAtLeaf s stack key val
  | none =>
    let s1 := if s.root = none then startNewTree s else s
    match findLeafPageRW s1 key .INSERT with
    | some stack => insertAtLeaf s1 stack key val
    | none => none

/-- `BPlusTreeInternalPage::GetBotherPage` (lines 159-176): locate the
child, then prefer the left sibling.  Returns (sibling pid, parent
separator, ispre). -/
def getBother (pEntries : List (Nat × Nat)) (childPid : Nat) : Nat × Nat × Bool :=
  let i := pEntries.findIdx (fun p => p.2 = childPid)
  if 1 ≤ i then (valAtD pEntries (i - 1), keyAtD pEntries i, true)
  else (valAtD pEntries (i + 1), keyAtD pEntries (i + 1), false)

/-- `BPlusTree::AdjustRootPageRW` (lines 323-334): shrink the root
(empty leaf root empties the tree, size-1 internal root promotes its
child) and put the old root page on the deleted-page set
unconditionally; `UnlockAndUnpin` then frees it. -/
def adjustRoot (s : BTree) (pid : Nat) : BTree :=
  let s2 := match getPage s pid with
    | some (.leaf entries _) => if entries.length = 0 then { s with root := none } else s
    | some (.internal entries) =>
      if entries.length = 1 then { s with root := some (valAtD entries 0) } else s
    | none => s
  delPage s2 pid

/-- `BPlusTree::CoalesceRW` (lines 410-427) together with the page
`Merge` helpers (leaf lines 125-134, internal lines 179-198): append
the right page into the left sibling (for a leaf also take over the
right chain pointer, for an internal node pull the parent separator
down in front of the right slots) and free the right page. -/
def coalesce (s : BTree) (leftPid rightPid parentKey : Nat) : Option BTree :=
  match getPage s leftPid, getPage s rightPid with
  | some (.leaf le _), some (.leaf re rnext) =>
    some (delPage (setPage s leftPid (.leaf (le ++ re) rnext)) rightPid)
  | some (.internal le), some (.internal re) =>
    some (delPage (setPage s leftPid
      (.internal (le ++ (parentKey, valAtD re 0) :: re.drop 1))) rightPid)
  | _, _ => none

/-- `BPlusTree::RedistributeRW` (lines 337-407): move one boundary
element from the sibling, and replace the parent separator (at
`KeyIndex(parent_key)`) by the key the source computes for each of the
four cases. -/
def redistributeB (s : BTree) (pid botherPid parentPid parentKey : Nat) (ispre : Bool) :
    Option BTree :=
  match getPage s botherPid, getPage s pid, getPage s parentPid with
  | some (.internal be), some (.internal pe), some (.internal parE) =>
    if ispre then
      let lastV := valAtD be (be.length - 1)
      let lastK := keyAtD be (be.length - 1)
      match internalDelete be lastK with
      | none => none
      | some be2 =>
        let s2 := setPage (setPage s botherPid (.internal be2)) pid
          (.internal (internalInsertFirst pe parentKey lastV))
        some (setPage s2 parentPid
          (.internal (setKeyAt parE (internalKeyIndex parE parentKey) lastK)))
    else
      let firstV := valAtD be 0
      let firstK := keyAtD be 1
      let s2 := setPage (setPage s botherPid (.internal (internalDeleteFirst be))) pid
        (.internal (internalInsert pe (parentKey, firstV)))
      some (setPage s2 parentPid
        (.internal (setKeyAt parE (internalKeyIndex parE parentKey) firstK)))
  | some (.leaf be bnext), some (.leaf pe pnext), some (.internal parE) =>
    if ispre then
      let lastV := valAtD be (be.length - 1)
      let lastK := keyAtD be (be.length - 1)
      match leafDelete be lastK with
      | none => none
      | some be2 =>
        let s2 := setPage (setPage s botherPid (.leaf be2 bnext)) pid
          (.leaf ((lastK, lastV) :: pe) pnext)
        some (setPage s2 parentPid
          (.internal (setKeyAt parE (internalKeyIndex parE parentKey) lastK)))
    else
      let firstV := valAtD be 0
      let firstK := keyAtD be 0
      match leafDelete be firstK with
      | none => none
      | some be2 =>
        let s2 := setPage (setPage s botherPid (.leaf be2 bnext)) pid
          (.leaf (pe ++ [(firstK, firstV)]) pnext)
        some (setPage s2 parentPid
          (.internal (setKeyAt parE (internalKeyIndex parE parentKey) (keyAtD be2 0))))
  | _, _, _ => none

/-- `BPlusTree::DeleteEntryRW` (lines 284-320); `stack` is the page
set, ending with the current page.  Recursion pops the stack, so
`stack.length` fuel suffices. -/
def deleteEntry : Nat → BTree → List Nat → Nat → Option BTree
  | 0, _, _, _ => none
  | fuel + 1, s, stack, key =>
    let pid := stack.getLastD 0
    match getPage s pid with
    | none => none
    | some node =>
      let del : Option BTNode := match node with
        | .leaf entries next => (leafDelete entries key).map (fun e => BTNode.leaf e next)
        | .internal entries => (internalDelete entries key).map (fun e => BTNode.internal e)
      match del with
      | none => some s
      | some node2 =>
        let s1 := setPage s pid node2
        if s.root = some pid then some (adjustRoot s1 pid)
        else if nodeSize node2 <
            minSizeOf (if nodeIsLeaf node2 then s.leafMax else s.internalMax) then
          match stack.dropLast.getLast? with
          | none => none
          | some parentPid =>
            match getPage s1 parentPid with
            | some (.internal parE) =>
              let gb := getBother parE pid
              match getPage s1 gb.1 with
              | none => none
              | some bnode =>
                if nodeSize bnode + nodeSize node2 ≤
                    (if nodeIsLeaf node2 then s.leafMax - 1 else s.internalMax) then
                  let lr := if gb.2.2 then (gb.1, pid) else (pid, gb.1)
                  match coalesce s1 lr.1 lr.2 gb.2.1 with
                  | none => none
                  | some s2 => deleteEntry fuel s2 stack.dropLast gb.2.1
                else redistributeB s1 pid gb.1 parentPid gb.2.1 gb.2.2
            | _ => none
        else some s1

/-- `BPlusTree::Remove` (lines 271-281): empty tree and null leaf both
return with the tree untouched. -/
def removeBPT (s : BTree) (key : Nat) : Option BTree :=
  if s.root = none then some s
  else
    match findLeafPageRW s key .DELETE with
    | none => some s
    | some stack => deleteEntry stack.length s stack key

/-- The empty tree as constructed (`root_page_id_ = INVALID_PAGE_ID`). -/
def initBPT (leafMax internalMax : Nat) : BTree :=
  ⟨none, [], 1, leafMax, internalMax⟩

/-- A sequence of `Insert` calls. -/
def insertSeq (ops : List (Nat × Nat)) (s : BTree) : Option BTree :=
  match ops with
  | [] => some s
  | (k, v) :: t =>
    match insertBPT s k v with
    | none => none
    | some r => insertSeq t r.1


/-! #### Deletion of an absent key -/

theorem getLastD_concat {l : List Nat} {x d : Nat} : (l ++ [x]).getLastD d = x := by
  rw [List.getLastD_eq_getLast?, List.getLast?_concat]
  rfl

theorem leafDelete_absent {e : List (Nat × Nat)} {k : Nat}
    (habs : ∀ p ∈ e, p.1 ≠ k) : leafDelete e k = none := by
  unfold leafDelete
  rw [if_neg]
  rintro ⟨hi, hk⟩
  exact habs _ (getD_mem e _ (0, 0) hi) hk

/-- A successful descent returns a nonempty page set whose last element
is a leaf. -/
theorem findLeafGo_leaf {s : BTree} {k : Nat} {op : BOp} :
    ∀ (fuel : Nat) (pid : Nat) (stack : List Nat), stack.getLastD 0 = pid →
      stack ≠ [] → ∀ {st}, findLeafGo s k op fuel pid stack = some st →
      st ≠ [] ∧ ∃ e next, getPage s (st.getLastD 0) = some (.leaf e next) := by
  intro fuel
  induction fuel with
  | zero =>
      intro pid stack _ _ st h
      rw [findLeafGo] at h
      exact absurd h (by simp)
  | succ f ih =>
      intro pid stack hlast hne st h
      rw [findLeafGo] at h
      rcases hg : getPage s pid with _ | node
      · rw [hg] at h
        exact absurd h (by simp)
      · cases node with
        | leaf e next =>
            rw [hg] at h
            dsimp only at h
            simp only [Option.some.injEq] at h
            subst h
            exact ⟨hne, e, next, hlast ▸ hg⟩
        | internal e =>
            rw [hg] at h
            dsimp only at h
            rcases hc : getPage s (internalLookup e k) with _ | cn
            · rw [hc] at h
              exact absurd h (by simp)
            · rw [hc] at h
              dsimp only at h
              exact ih _ _ getLastD_concat (by simp) h

/-- C9: `Remove` of a key absent from every leaf returns normally and
leaves the tree (root, pages, chain, allocator) fully unchanged. -/
theorem bplus_remove_absent (s : BTree) (k : Nat)
    (habs : ∀ pid e next, getPage s pid = some (BTNode.leaf e next) → ∀ p ∈ e, p.1 ≠ k) :
    removeBPT s k = some s := by
  unfold removeBPT
  by_cases hroot : s.root = none
  · rw [if_pos hroot]
  · rw [if_neg hroot]
    rcases hf : findLeafPageRW s k .DELETE with _ | st
    · rfl
    · have hstp : st ≠ [] ∧ ∃ e next, getPage s (st.getLastD 0) = some (.leaf e next) := by
        unfold findLeafPageRW at hf
        rcases hr : s.root with _ | r
        · exact absurd hr hroot
        · rw [hr] at hf
          dsimp only at hf
          exact findLeafGo_leaf (s.pages.length + 1) r [r] rfl (by simp) hf
      obtain ⟨hne, e, next, hleaf⟩ := hstp
      obtain ⟨a, t, rfl⟩ := List.exists_cons_of_ne_nil hne
      show deleteEntry (a :: t).length s (a :: t) k = some s
      rw [List.length_cons, deleteEntry]
      dsimp only
      rw [hleaf]
      dsimp only
      rw [leafDelete_absent (habs _ _ _ hleaf)]
      rfl

/-- A two-entry single-leaf tree. -/
def bptW : BTree := ⟨some 1, [(1, .leaf [(1, 10), (2, 20)] none)], 2, 4, 4⟩

/-- C9 witness: removing the absent key 5 from the concrete tree is the
identity. -/
theorem bplus_remove_absent_witness : removeBPT bptW 5 = some bptW := by
  apply bplus_remove_absent
  intro pid e next h
  by_cases hp : (1 : Nat) = pid
  · have h1 : getPage bptW 1 = some (BTNode.leaf [(1, 10), (2, 20)] none) := rfl
    rw [← hp, h1] at h
    simp only [Option.some.injEq, BTNode.leaf.injEq] at h
    obtain ⟨he, _⟩ := h
    subst he
    decide
  · have hnone : getPage bptW pid = none := by
      simp [getPage, bptW, List.find?, hp]
    rw [hnone] at h
    exact absurd h (by simp)

/-! #### Page-store lemmas -/

theorem find?_key_upd_self {pid : Nat} {n : BTNode} :
    ∀ l : List (Nat × BTNode), pid ∈ l.map Prod.fst →
      (l.map (fun p => if p.1 = pid then (pid, n) else p)).find? (fun p => p.1 = pid) =
        some (pid, n) := by
  intro l
  induction l with
  | nil => intro h; exact absurd h (by simp)
  | cons q t ih =>
      intro h
      simp only [List.map_cons]
      by_cases hq : q.1 = pid
      · rw [if_pos hq, List.find?_cons]
        have h1 : decide ((pid, n).1 = pid) = true := by simp
        rw [h1]
      · rw [if_neg hq, List.find?_cons]
        have h1 : decide (q.1 = pid) = false := by simp [hq]
        rw [h1]
        apply ih
        simp only [List.map_cons, List.mem_cons] at h
        rcases h with h | h
        · exact absurd h.symm hq
        · exact h

theorem find?_key_upd_ne {pid q : Nat} {n : BTNode} (hne : q ≠ pid) :
    ∀ l : List (Nat × BTNode),
      (l.map (fun p => if p.1 = pid then (pid, n) else p)).find? (fun p => p.1 = q) =
        l.find? (fun p => p.1 = q) := by
  intro l
  induction l with
  | nil => rfl
  | cons x t ih =>
      simp only [List.map_cons]
      by_cases hx : x.1 = pid
      · rw [if_pos hx, List.find?_cons, List.find?_cons]
        have h1 : decide ((pid, n).1 = q) = false := by
          simp only [decide_eq_false_iff_not]
          exact fun hh => hne hh.symm
        have h2 : decide (x.1 = q) = false := by
          simp only [decide_eq_false_iff_not]
          rw [hx]
          exact fun hh => hne hh.symm
        rw [h1, h2]
        exact ih
      · rw [if_neg hx, List.find?_cons, List.find?_cons]
        by_cases hxq : x.1 = q
        · have h1 : decide (x.1 = q) = true := by simp [hxq]
          rw [h1]
        · have h1 : decide (x.1 = q) = false := by simp [hxq]
          rw [h1]
          exact ih

theorem getPage_mem {s : BTree} {pid : Nat} {n : BTNode} (h : getPage s pid = some n) :
    pid ∈ s.pages.map Prod.fst := by
  unfold getPage at h
  rcases hf : s.pages.find? (fun p => p.1 = pid) with _ | p
  · rw [hf] at h
    exact absurd h (by simp)
  · have hp := List.find?_some hf
    simp only [decide_eq_true_eq] at hp
    have hm := List.mem_map_of_mem Prod.fst (List.mem_of_find?_eq_some hf)
    rwa [hp] at hm

theorem getPage_set_self {s : BTree} {pid : Nat} {n : BTNode}
    (h : pid ∈ s.pages.map Prod.fst) : getPage (setPage s pid n) pid = some n := by
  unfold getPage setPage
  dsimp only
  rw [find?_key_upd_self _ h]
  rfl

theorem getPage_set_ne {s : BTree} {pid q : Nat} {n : BTNode} (hne : q ≠ pid) :
    getPage (setPage s pid n) q = getPage s q := by
  unfold getPage setPage
  dsimp only
  rw [find?_key_upd_ne hne]

theorem setPage_keys {s : BTree} {pid : Nat} {n : BTNode} :
    (setPage s pid n).pages.map Prod.fst = s.pages.map Prod.fst := by
  unfold setPage
  dsimp only
  rw [List.map_map]
  apply List.map_congr_left
  intro p _
  by_cases hp : p.1 = pid
  · simp [hp]
  · simp [hp]

theorem find?_append_btn {f : Nat × BTNode → Bool} :
    ∀ l1 l2 : List (Nat × BTNode), (l1 ++ l2).find? f =
      match l1.find? f with
      | some p => some p
      | none => l2.find? f := by
  intro l1 l2
  induction l1 with
  | nil => rfl
  | cons x t ih =>
      by_cases hx : f x = true
      · rw [List.cons_append, List.find?_cons_of_pos _ hx, List.find?_cons_of_pos _ hx]
      · rw [List.cons_append, List.find?_cons_of_neg _ (by simp [hx]),
          List.find?_cons_of_neg _ (by simp [hx]), ih]

theorem getPage_new_self {s : BTree} {n : BTNode}
    (h : ∀ pid ∈ s.pages.map Prod.fst, pid < s.nextPid) :
    getPage (newPage s n).1 s.nextPid = some n := by
  unfold getPage newPage
  dsimp only
  rw [find?_append_btn]
  rcases hf : s.pages.find? (fun p => p.1 = s.nextPid) with _ | p
  · rw [hf]
    simp [List.find?]
  · rw [hf]
    have hp := List.find?_some hf
    simp only [decide_eq_true_eq] at hp
    have hm := List.mem_map_of_mem Prod.fst (List.mem_of_find?_eq_some hf)
    rw [hp] at hm
    exact absurd (h _ hm) (by omega)

theorem getPage_new_ne {s : BTree} {n : BTNode} {q : Nat} (hne : q ≠ s.nextPid) :
    getPage (newPage s n).1 q = getPage s q := by
  unfold getPage newPage
  dsimp only
  rw [find?_append_btn]
  rcases hf : s.pages.find? (fun p => p.1 = q) with _ | p
  · rw [hf]
    have hd : decide (s.nextPid = q) = false := by
      simp only [decide_eq_false_iff_not]
      exact fun hh => hne hh.symm
    simp only [List.find?, hd]
  · rw [hf]

theorem newPage_keys {s : BTree} {n : BTNode} :
    (newPage s n).1.pages.map Prod.fst = s.pages.map Prod.fst ++ [s.nextPid] := by
  unfold newPage
  dsimp only
  rw [List.map_append]
  rfl

/-! #### Binary-search characterization -/

/-- `bsearch` meets any point `t` that the test characterizes as the
boundary, given enough fuel. -/
theorem bsearch_eq {f : Nat → Bool} {t : Nat} :
    ∀ (fuel l r : Nat), l ≤ t → t ≤ r → r - l ≤ fuel →
      (∀ i, l ≤ i → i < r → (f i = true ↔ i < t)) → bsearch f fuel l r = t := by
  intro fuel
  induction fuel with
  | zero =>
      intro l r hl hr hfuel _
      rw [bsearch]
      omega
  | succ fl ih =>
      intro l r hl hr hfuel hch
      rw [bsearch]
      by_cases hlr : l < r
      · rw [if_pos hlr]
        have hmid1 : l ≤ (l + r) / 2 := by omega
        have hmid2 : (l + r) / 2 < r := by omega
        by_cases hf : f ((l + r) / 2) = true
        · rw [if_pos hf]
          have ht : (l + r) / 2 < t := (hch _ hmid1 hmid2).mp hf
          exact ih _ _ (by omega) hr (by omega) (fun i h1 h2 => hch i (by omega) h2)
        · rw [if_neg hf]
          have ht : ¬((l + r) / 2 < t) := fun hc => hf ((hch _ hmid1 hmid2).mpr hc)
          exact ih _ _ hl (by omega) (by omega) (fun i h1 h2 => hch i h1 (by omega))
      · rw [if_neg hlr]
        omega

/-! #### Sorted-run characterizations -/

/-- Keys of the slots, pairwise increasing. -/
def sKeys (e : List (Nat × Nat)) : Prop := List.Pairwise (fun p q => p.1 < q.1) e

theorem keyAtD_cons_succ {x : Nat × Nat} {l : List (Nat × Nat)} {i : Nat} :
    keyAtD (x :: l) (i + 1) = keyAtD l i := rfl

theorem keyAtD_mem {e : List (Nat × Nat)} {i : Nat} (h : i < e.length) :
    (keyAtD e i) ∈ e.map Prod.fst := by
  unfold keyAtD
  exact List.mem_map_of_mem Prod.fst (getD_mem e i (0, 0) h)

/-- In a sorted run, a downward-closed key test holds at slot `i`
exactly when `i` is below the length of the test's `takeWhile` run. -/
theorem sorted_count_iff (t : Nat → Bool)
    (hmono : ∀ a b : Nat, a < b → t b = true → t a = true) :
    ∀ (e : List (Nat × Nat)), sKeys e → ∀ i, i < e.length →
      (t (keyAtD e i) = true ↔ i < (e.takeWhile (fun p => t p.1)).length) := by
  intro e
  induction e with
  | nil => intro _ i hi; exact absurd hi (by simp)
  | cons p tail ih =>
      intro hs i hi
      have hs2 := List.pairwise_cons.mp hs
      by_cases hp : t p.1 = true
      · rw [List.takeWhile_cons_of_pos (by simp [hp])]
        cases i with
        | zero => simp [keyAtD, hp]
        | succ j =>
            rw [keyAtD_cons_succ, List.length_cons]
            have := ih hs2.2 j (by simpa using hi)
            constructor
            · intro h
              have := this.mp h
              omega
            · intro h
              exact this.mpr (by omega)
      · rw [List.takeWhile_cons_of_neg (by simp [hp])]
        simp only [List.length_nil, Nat.not_lt_zero, iff_false]
        cases i with
        | zero => simpa [keyAtD] using hp
        | succ j =>
            rw [keyAtD_cons_succ]
            intro hc
            have hj : j < tail.length := by simpa using hi
            have hlt : p.1 < keyAtD tail j := by
              have hmem := getD_mem tail j (0, 0) hj
              exact hs2.1 _ hmem
            exact hp (hmono _ _ hlt hc)

theorem count_le_length {t : Nat → Bool} {e : List (Nat × Nat)} :
    (e.takeWhile (fun p => t p.1)).length ≤ e.length :=
  List.Sublist.length_le (List.takeWhile_sublist _)

/-- `BPlusTreeLeafPage::KeyIndex` computes the lower bound on a sorted
leaf. -/
theorem leafKeyIndex_eq {e : List (Nat × Nat)} {k : Nat} (hs : sKeys e) :
    leafKeyIndex e k = (e.takeWhile (fun p => p.1 < k)).length := by
  unfold leafKeyIndex
  apply bsearch_eq
  · exact Nat.zero_le _
  · exact List.Sublist.length_le (List.takeWhile_sublist _)
  · omega
  · intro i _ h2
    simp only [decide_eq_true_eq]
    have := sorted_count_iff (fun a => decide (a < k))
      (by intro a b hab hb; simp only [decide_eq_true_eq] at hb ⊢; omega) e hs i h2
    simpa using this

/-! #### Structural invariant for the B+ tree -/

def loOK (lo : Option Nat) (k : Nat) : Prop := ∀ l, lo = some l → l ≤ k

def loLt (lo : Option Nat) (k : Nat) : Prop := ∀ l, lo = some l → l < k

def hiLt (hi : Option Nat) (k : Nat) : Prop := ∀ h, hi = some h → k < h

/-- The child chain of an internal node, walking slots left to right:
`childSeqF no hi lo c rest` says child `c` covers `[lo, k₁)`, the next
child covers `[k₁, k₂)`, …, the final child covers `[kₙ, hi)`. -/
def childSeqF (no : Nat → Option Nat → Option Nat → Prop) (hi : Option Nat) :
    Option Nat → Nat → List (Nat × Nat) → Prop
  | lo, c, [] => no c lo hi
  | lo, c, (k1, c1) :: t => no c lo (some k1) ∧ loLt lo k1 ∧ hiLt hi k1 ∧
      childSeqF no hi (some k1) c1 t

/-- Well-formedness of the subtree rooted at `pid` at height `h` with
keys confined to `[lo, hi)`, including duplicate-freedom of its page
ids. -/
def nodeOK (s : BTree) : Nat → Nat → Option Nat → Option Nat → Prop
  | 0, pid, lo, hi => ∃ e next, getPage s pid = some (.leaf e next) ∧
      1 ≤ e.length ∧ e.length ≤ s.leafMax - 1 ∧ sKeys e ∧
      ∀ p ∈ e, loOK lo p.1 ∧ hiLt hi p.1
  | h + 1, pid, lo, hi => ∃ e, getPage s pid = some (.internal e) ∧
      1 ≤ e.length ∧ e.length ≤ s.internalMax ∧
      childSeqF (fun c lo2 hi2 => nodeOK s h c lo2 hi2) hi lo (valAtD e 0) (e.drop 1)

def contentsF (ct : Nat → List (Nat × Nat)) : Nat → List (Nat × Nat) → List (Nat × Nat)
  | c, [] => ct c
  | c, (_, c1) :: t => ct c ++ contentsF ct c1 t

/-- All (key, RID) pairs stored below `pid`. -/
def subContents (s : BTree) : Nat → Nat → List (Nat × Nat)
  | 0, pid => match getPage s pid with
    | some (.leaf e _) => e
    | _ => []
  | h + 1, pid => match getPage s pid with
    | some (.internal e) => contentsF (fun c => subContents s h c) (valAtD e 0) (e.drop 1)
    | _ => []

def pidsF (sp : Nat → List Nat) : Nat → List (Nat × Nat) → List Nat
  | c, [] => sp c
  | c, (_, c1) :: t => sp c ++ pidsF sp c1 t

/-- All page ids of the subtree rooted at `pid`. -/
def subPids (s : BTree) : Nat → Nat → List Nat
  | 0, pid => [pid]
  | h + 1, pid => pid :: (match getPage s pid with
    | some (.internal e) => pidsF (fun c => subPids s h c) (valAtD e 0) (e.drop 1)
    | _ => [])

/-- The child the internal `Lookup` selects: step right while the slot
key is ≤ k. -/
def pickChild (k : Nat) : List (Nat × Nat) → Nat → Nat
  | [], c => c
  | (k1, c1) :: t, c => if k1 ≤ k then pickChild k t c1 else c

/-- The descent path from `pid` (height `h`) down to the leaf. -/
def spine (s : BTree) (k : Nat) : Nat → Nat → List Nat
  | 0, pid => [pid]
  | h + 1, pid => pid :: (match getPage s pid with
    | some (.internal e) => spine s k h (pickChild k (e.drop 1) (valAtD e 0))
    | _ => [])

/-- Whether descending into `c` releases all held pages. -/
def clearAt (s : BTree) (op : BOp) (c : Nat) : Bool :=
  match op with
  | .READ => true
  | _ => match getPage s c with
    | some n => isSafe s n op
    | none => false

/-- The page-set bookkeeping of the descent, folded over the visited
children. -/
def foldStack (s : BTree) (op : BOp) : List Nat → List Nat → List Nat
  | st0, [] => st0
  | st0, c :: t => foldStack s op ((if clearAt s op c then [] else st0) ++ [c]) t

/-- The children mentioned by a chain. -/
def chCh (c0 : Nat) (rest : List (Nat × Nat)) : List Nat := c0 :: rest.map Prod.snd

/-- The final child of a chain. -/
def chLast (c0 : Nat) (rest : List (Nat × Nat)) : Nat := (rest.getLastD (0, c0)).2

/-! #### Generic chain lemmas -/

theorem loLt_trans {lo : Option Nat} {a b : Nat} (h1 : loLt lo a) (h2 : a < b) :
    loLt lo b := fun l hl => Nat.lt_trans (h1 l hl) h2

theorem loLt_le_trans {lo : Option Nat} {a b : Nat} (h1 : loLt lo a) (h2 : a ≤ b) :
    loLt lo b := fun l hl => Nat.lt_of_lt_of_le (h1 l hl) h2

theorem hiLt_lt_trans {hi : Option Nat} {a b : Nat} (h1 : a < b) (h2 : hiLt hi b) :
    hiLt hi a := fun l hl => Nat.lt_trans h1 (h2 l hl)

theorem childSeqF_mono_mem {no no2 : Nat → Option Nat → Option Nat → Prop}
    {hi : Option Nat} :
    ∀ {rest : List (Nat × Nat)} {lo : Option Nat} {c0 : Nat},
      (∀ c ∈ chCh c0 rest, ∀ lo2 hi2, no c lo2 hi2 → no2 c lo2 hi2) →
      childSeqF no hi lo c0 rest → childSeqF no2 hi lo c0 rest := by
  intro rest
  induction rest with
  | nil =>
      intro lo c0 hm hch
      exact hm c0 (by simp [chCh]) _ _ hch
  | cons x t ih =>
      intro lo c0 hm hch
      obtain ⟨k1, c1⟩ := x
      obtain ⟨h1, h2, h3, h4⟩ := hch
      refine ⟨hm c0 (by simp [chCh]) _ _ h1, h2, h3, ?_⟩
      refine ih ?_ h4
      intro c hc lo2 hi2
      apply hm
      simp only [chCh, List.map_cons, List.mem_cons] at hc ⊢
      tauto

theorem chain_keys_gt {no : Nat → Option Nat → Option Nat → Prop} {hi : Option Nat} :
    ∀ {rest : List (Nat × Nat)} {lo : Option Nat} {c0 : Nat},
      childSeqF no hi lo c0 rest → ∀ x ∈ rest, loLt lo x.1 := by
  intro rest
  induction rest with
  | nil => intro lo c0 _ x hx; exact absurd hx (by simp)
  | cons y t ih =>
      intro lo c0 hch x hx
      obtain ⟨k1, c1⟩ := y
      obtain ⟨_, h2, _, h4⟩ := hch
      rcases List.mem_cons.mp hx with h | h
      · rw [h]; exact h2
      · have := ih h4 x h
        intro l hl
        exact Nat.lt_trans (h2 l hl) (this k1 rfl)

theorem chain_hiLt {no : Nat → Option Nat → Option Nat → Prop} {hi : Option Nat} :
    ∀ {rest : List (Nat × Nat)} {lo : Option Nat} {c0 : Nat},
      childSeqF no hi lo c0 rest → ∀ x ∈ rest, hiLt hi x.1 := by
  intro rest
  induction rest with
  | nil => intro lo c0 _ x hx; exact absurd hx (by simp)
  | cons y t ih =>
      intro lo c0 hch x hx
      obtain ⟨k1, c1⟩ := y
      obtain ⟨_, _, h3, h4⟩ := hch
      rcases List.mem_cons.mp hx with h | h
      · rw [h]; exact h3
      · exact ih h4 x h

theorem chain_sorted {no : Nat → Option Nat → Option Nat → Prop} {hi : Option Nat} :
    ∀ {rest : List (Nat × Nat)} {lo : Option Nat} {c0 : Nat},
      childSeqF no hi lo c0 rest → sKeys rest := by
  intro rest
  induction rest with
  | nil => intro _ _ _; exact List.Pairwise.nil
  | cons y t ih =>
      intro lo c0 hch
      obtain ⟨k1, c1⟩ := y
      obtain ⟨_, _, _, h4⟩ := hch
      refine List.Pairwise.cons ?_ (ih h4)
      intro x hx
      exact chain_keys_gt h4 x hx k1 rfl

theorem chain_split {no : Nat → Option Nat → Option Nat → Prop} {hi : Option Nat}
    {kx cx : Nat} {l2 : List (Nat × Nat)} :
    ∀ {l1 : List (Nat × Nat)} {lo : Option Nat} {c0 : Nat},
      childSeqF no hi lo c0 (l1 ++ (kx, cx) :: l2) →
      childSeqF no (some kx) lo c0 l1 ∧ loLt lo kx ∧ hiLt hi kx ∧
        childSeqF no hi (some kx) cx l2 := by
  intro l1
  induction l1 with
  | nil =>
      intro lo c0 hch
      obtain ⟨h1, h2, h3, h4⟩ := hch
      exact ⟨h1, h2, h3, h4⟩
  | cons y t ih =>
      intro lo c0 hch
      obtain ⟨k1, c1⟩ := y
      obtain ⟨h1, h2, h3, h4⟩ := hch
      obtain ⟨i1, i2, i3, i4⟩ := ih h4
      have hk1x : k1 < kx := i2 k1 rfl
      refine ⟨⟨h1, h2, fun l hl => by
        have := (Option.some.injEq _ _).mp hl
        omega, i1⟩, loLt_trans h2 hk1x, i3, i4⟩

theorem chain_join {no : Nat → Option Nat → Option Nat → Prop} {hi : Option Nat}
    {kx cx : Nat} {l2 : List (Nat × Nat)} :
    ∀ {l1 : List (Nat × Nat)} {lo : Option Nat} {c0 : Nat},
      childSeqF no (some kx) lo c0 l1 → loLt lo kx → hiLt hi kx →
      childSeqF no hi (some kx) cx l2 →
      childSeqF no hi lo c0 (l1 ++ (kx, cx) :: l2) := by
  intro l1
  induction l1 with
  | nil =>
      intro lo c0 h1 h2 h3 h4
      exact ⟨h1, h2, h3, h4⟩
  | cons y t ih =>
      intro lo c0 hch h2 h3 h4
      obtain ⟨k1, c1⟩ := y
      obtain ⟨j1, j2, j3, j4⟩ := hch
      have hk1x : k1 < kx := j3 kx rfl
      exact ⟨j1, j2, fun l hl => Nat.lt_trans hk1x (h3 l hl), ih j4 (fun l hl => by
        have := (Option.some.injEq _ _).mp hl
        omega) h3 h4⟩

theorem pick_eq {k : Nat} {suf : List (Nat × Nat)}
    (hsuf : match suf with | [] => True | x :: _ => k < x.1) :
    ∀ (pre : List (Nat × Nat)) (c0 : Nat), (∀ x ∈ pre, x.1 ≤ k) →
      pickChild k (pre ++ suf) c0 = chLast c0 pre := by
  intro pre
  induction pre with
  | nil =>
      intro c0 _
      cases suf with
      | nil => rfl
      | cons x t =>
          obtain ⟨kx, cxx⟩ := x
          have : ¬kx ≤ k := by
            simp only at hsuf
            omega
          simp [pickChild, this, chLast]
  | cons y t ih =>
      intro c0 hpre
      obtain ⟨k1, c1⟩ := y
      have hk1 : k1 ≤ k := hpre (k1, c1) (List.mem_cons_self _ _)
      rw [List.cons_append]
      show (if k1 ≤ k then pickChild k (t ++ suf) c1 else c0) = _
      rw [if_pos hk1, ih c1 (fun x hx => hpre x (List.mem_cons_of_mem _ hx))]
      cases t with
      | nil => rfl
      | cons z t2 =>
          show chLast c1 (z :: t2) = chLast c0 ((k1, c1) :: z :: t2)
          unfold chLast
          simp only [List.getLastD_cons]

theorem contentsF_append_cons {ct : Nat → List (Nat × Nat)} {kx cx : Nat}
    {l2 : List (Nat × Nat)} :
    ∀ (l1 : List (Nat × Nat)) (c0 : Nat),
      contentsF ct c0 (l1 ++ (kx, cx) :: l2) = contentsF ct c0 l1 ++ contentsF ct cx l2 := by
  intro l1
  induction l1 with
  | nil => intro c0; rfl
  | cons y t ih =>
      intro c0
      obtain ⟨k1, c1⟩ := y
      show ct c0 ++ contentsF ct c1 (t ++ (kx, cx) :: l2) = (ct c0 ++ contentsF ct c1 t) ++ _
      rw [ih, List.append_assoc]

theorem pidsF_append_cons {sp : Nat → List Nat} {kx cx : Nat}
    {l2 : List (Nat × Nat)} :
    ∀ (l1 : List (Nat × Nat)) (c0 : Nat),
      pidsF sp c0 (l1 ++ (kx, cx) :: l2) = pidsF sp c0 l1 ++ pidsF sp cx l2 := by
  intro l1
  induction l1 with
  | nil => intro c0; rfl
  | cons y t ih =>
      intro c0
      obtain ⟨k1, c1⟩ := y
      show sp c0 ++ pidsF sp c1 (t ++ (kx, cx) :: l2) = (sp c0 ++ pidsF sp c1 t) ++ _
      rw [ih, List.append_assoc]

theorem contentsF_congr {ct ct2 : Nat → List (Nat × Nat)} :
    ∀ {rest : List (Nat × Nat)} {c0 : Nat},
      (∀ c ∈ chCh c0 rest, ct2 c = ct c) →
      contentsF ct2 c0 rest = contentsF ct c0 rest := by
  intro rest
  induction rest with
  | nil => intro c0 hm; exact hm c0 (by simp [chCh])
  | cons y t ih =>
      intro c0 hm
      obtain ⟨k1, c1⟩ := y
      show ct2 c0 ++ contentsF ct2 c1 t = ct c0 ++ contentsF ct c1 t
      rw [hm c0 (by simp [chCh]), ih]
      intro c hc
      apply hm
      simp only [chCh, List.map_cons, List.mem_cons] at hc ⊢
      tauto

theorem pidsF_congr {sp sp2 : Nat → List Nat} :
    ∀ {rest : List (Nat × Nat)} {c0 : Nat},
      (∀ c ∈ chCh c0 rest, sp2 c = sp c) →
      pidsF sp2 c0 rest = pidsF sp c0 rest := by
  intro rest
  induction rest with
  | nil => intro c0 hm; exact hm c0 (by simp [chCh])
  | cons y t ih =>
      intro c0 hm
      obtain ⟨k1, c1⟩ := y
      show sp2 c0 ++ pidsF sp2 c1 t = sp c0 ++ pidsF sp c1 t
      rw [hm c0 (by simp [chCh]), ih]
      intro c hc
      apply hm
      simp only [chCh, List.map_cons, List.mem_cons] at hc ⊢
      tauto

theorem pidsF_mem {sp : Nat → List Nat} {q : Nat} :
    ∀ {rest : List (Nat × Nat)} {c0 : Nat},
      q ∈ pidsF sp c0 rest ↔ ∃ c ∈ chCh c0 rest, q ∈ sp c := by
  intro rest
  induction rest with
  | nil =>
      intro c0
      simp [pidsF, chCh]
  | cons y t ih =>
      intro c0
      obtain ⟨k1, c1⟩ := y
      show q ∈ sp c0 ++ pidsF sp c1 t ↔ _
      rw [List.mem_append, ih]
      simp only [chCh, List.map_cons, List.mem_cons]
      constructor
      · rintro (h | ⟨c, hc, h2⟩)
        · exact ⟨c0, Or.inl rfl, h⟩
        · exact ⟨c, Or.inr hc, h2⟩
      · rintro ⟨c, hc | hc, h2⟩
        · exact Or.inl (hc ▸ h2)
        · exact Or.inr ⟨c, hc, h2⟩

/-! #### Frame and range lemmas -/

theorem subPids_succ {s : BTree} {pid : Nat} {e : List (Nat × Nat)} {g : Nat}
    (h1 : getPage s pid = some (BTNode.internal e)) :
    subPids s (g + 1) pid = pid :: pidsF (fun c => subPids s g c) (valAtD e 0) (e.drop 1) := by
  rw [subPids, h1]

theorem subContents_succ {s : BTree} {pid : Nat} {e : List (Nat × Nat)} {g : Nat}
    (h1 : getPage s pid = some (BTNode.internal e)) :
    subContents s (g + 1) pid =
      contentsF (fun c => subContents s g c) (valAtD e 0) (e.drop 1) := by
  rw [subContents, h1]

theorem subContents_zero {s : BTree} {pid : Nat} {e : List (Nat × Nat)} {next : Option Nat}
    (h1 : getPage s pid = some (BTNode.leaf e next)) : subContents s 0 pid = e := by
  rw [subContents, h1]

theorem chCh_sub {c c0 c1 k1 : Nat} {t : List (Nat × Nat)}
    (h : c ∈ chCh c1 t) : c ∈ chCh c0 ((k1, c1) :: t) := by
  simp only [chCh, List.map_cons, List.mem_cons] at h ⊢
  tauto

theorem chain_pids_sub {s : BTree} {g : Nat} {pid c : Nat} {e : List (Nat × Nat)}
    (h1 : getPage s pid = some (BTNode.internal e))
    (hc : c ∈ chCh (valAtD e 0) (e.drop 1)) :
    ∀ q ∈ subPids s g c, q ∈ subPids s (g + 1) pid := by
  intro q hq
  rw [subPids_succ h1]
  exact List.mem_cons_of_mem _ (pidsF_mem.mpr ⟨c, hc, hq⟩)

theorem nodeOK_frame : ∀ (h : Nat) {s s2 : BTree},
    s2.leafMax = s.leafMax → s2.internalMax = s.internalMax →
    ∀ {pid : Nat} {lo hi : Option Nat},
      (∀ q ∈ subPids s h pid, getPage s2 q = getPage s q) →
      nodeOK s h pid lo hi → nodeOK s2 h pid lo hi := by
  intro h
  induction h with
  | zero =>
      intro s s2 hlm _ pid lo hi hag hok
      obtain ⟨e, next, h1, h2, h3, h4, h5⟩ := hok
      exact ⟨e, next, (hag pid (by simp [subPids])).trans h1, h2, by rw [hlm]; exact h3,
        h4, h5⟩
  | succ g ih =>
      intro s s2 hlm him pid lo hi hag hok
      obtain ⟨e, h1, h2, h3, h4⟩ := hok
      have hpid : getPage s2 pid = getPage s pid := hag pid (by simp [subPids])
      refine ⟨e, hpid.trans h1, h2, by rw [him]; exact h3, ?_⟩
      refine childSeqF_mono_mem ?_ h4
      intro c hc lo2 hi2 hok2
      exact ih hlm him
        (fun q hq => hag q (chain_pids_sub h1 hc q hq)) hok2

theorem pidsF_frame_aux {s s2 : BTree} {g : Nat} {hi : Option Nat}
    (IH : ∀ {pid : Nat} {lo2 hi2 : Option Nat}, nodeOK s g pid lo2 hi2 →
      (∀ q ∈ subPids s g pid, getPage s2 q = getPage s q) →
      subPids s2 g pid = subPids s g pid) :
    ∀ (rest : List (Nat × Nat)) (lo : Option Nat) (c0 : Nat),
      childSeqF (fun c a b => nodeOK s g c a b) hi lo c0 rest →
      (∀ c ∈ chCh c0 rest, ∀ q ∈ subPids s g c, getPage s2 q = getPage s q) →
      pidsF (fun c => subPids s2 g c) c0 rest = pidsF (fun c => subPids s g c) c0 rest := by
  intro rest
  induction rest with
  | nil =>
      intro lo c0 hch hag
      exact IH hch (hag c0 (by simp [chCh]))
  | cons y t ih =>
      intro lo c0 hch hag
      obtain ⟨k1, c1⟩ := y
      obtain ⟨j1, _, _, j4⟩ := hch
      show subPids s2 g c0 ++ pidsF (fun c => subPids s2 g c) c1 t = _
      rw [IH j1 (hag c0 (by simp [chCh])), ih _ _ j4 (fun c hc => hag c (chCh_sub hc))]
      rfl

theorem subPids_frame : ∀ (h : Nat) {s s2 : BTree} {pid : Nat} {lo hi : Option Nat},
    nodeOK s h pid lo hi →
    (∀ q ∈ subPids s h pid, getPage s2 q = getPage s q) →
    subPids s2 h pid = subPids s h pid := by
  intro h
  induction h with
  | zero => intro s s2 pid lo hi _ _; rfl
  | succ g ih =>
      intro s s2 pid lo hi hok hag
      obtain ⟨e, h1, h2, h3, h4⟩ := hok
      have hpid : getPage s2 pid = getPage s pid := hag pid (by simp [subPids])
      rw [subPids_succ (hpid.trans h1), subPids_succ h1]
      congr 1
      exact pidsF_frame_aux (fun hok2 hag2 => ih hok2 hag2) _ _ _ h4
        (fun c hc q hq => hag q (chain_pids_sub h1 hc q hq))

theorem contentsF_frame_aux {s s2 : BTree} {g : Nat} {hi : Option Nat}
    (IH : ∀ {pid : Nat} {lo2 hi2 : Option Nat}, nodeOK s g pid lo2 hi2 →
      (∀ q ∈ subPids s g pid, getPage s2 q = getPage s q) →
      subContents s2 g pid = subContents s g pid) :
    ∀ (rest : List (Nat × Nat)) (lo : Option Nat) (c0 : Nat),
      childSeqF (fun c a b => nodeOK s g c a b) hi lo c0 rest →
      (∀ c ∈ chCh c0 rest, ∀ q ∈ subPids s g c, getPage s2 q = getPage s q) →
      contentsF (fun c => subContents s2 g c) c0 rest =
        contentsF (fun c => subContents s g c) c0 rest := by
  intro rest
  induction rest with
  | nil =>
      intro lo c0 hch hag
      exact IH hch (hag c0 (by simp [chCh]))
  | cons y t ih =>
      intro lo c0 hch hag
      obtain ⟨k1, c1⟩ := y
      obtain ⟨j1, _, _, j4⟩ := hch
      show subContents s2 g c0 ++ contentsF (fun c => subContents s2 g c) c1 t = _
      rw [IH j1 (hag c0 (by simp [chCh])), ih _ _ j4 (fun c hc => hag c (chCh_sub hc))]
      rfl

theorem subContents_frame : ∀ (h : Nat) {s s2 : BTree} {pid : Nat} {lo hi : Option Nat},
    nodeOK s h pid lo hi →
    (∀ q ∈ subPids s h pid, getPage s2 q = getPage s q) →
    subContents s2 h pid = subContents s h pid := by
  intro h
  induction h with
  | zero =>
      intro s s2 pid lo hi hok hag
      obtain ⟨e, next, h1, _⟩ := hok
      have hpid : getPage s2 pid = getPage s pid := hag pid (by simp [subPids])
      rw [subContents_zero (hpid.trans h1), subContents_zero h1]
  | succ g ih =>
      intro s s2 pid lo hi hok hag
      obtain ⟨e, h1, h2, h3, h4⟩ := hok
      have hpid : getPage s2 pid = getPage s pid := hag pid (by simp [subPids])
      rw [subContents_succ (hpid.trans h1), subContents_succ h1]
      exact contentsF_frame_aux (fun hok2 hag2 => ih hok2 hag2) _ _ _ h4
        (fun c hc q hq => hag q (chain_pids_sub h1 hc q hq))

/-- Pairs reachable through a chain stay within the chain bounds. -/
theorem contentsF_range_gen {no : Nat → Option Nat → Option Nat → Prop}
    {ct : Nat → List (Nat × Nat)} {hi : Option Nat}
    (hrange : ∀ c lo2 hi2, no c lo2 hi2 → ∀ p ∈ ct c, loOK lo2 p.1 ∧ hiLt hi2 p.1) :
    ∀ {rest : List (Nat × Nat)} {lo : Option Nat} {c0 : Nat},
      childSeqF no hi lo c0 rest →
      ∀ p ∈ contentsF ct c0 rest, loOK lo p.1 ∧ hiLt hi p.1 := by
  intro rest
  induction rest with
  | nil =>
      intro lo c0 hch p hp
      exact hrange c0 lo hi hch p hp
  | cons y t ih =>
      intro lo c0 hch p hp
      obtain ⟨k1, c1⟩ := y
      obtain ⟨h1, h2, h3, h4⟩ := hch
      rcases List.mem_append.mp hp with hm | hm
      · obtain ⟨hl, hh⟩ := hrange c0 lo (some k1) h1 p hm
        exact ⟨hl, fun l hl2 => Nat.lt_trans (hh k1 rfl) (h3 l hl2)⟩
      · obtain ⟨hl, hh⟩ := ih h4 p hm
        exact ⟨fun l hl2 => Nat.le_trans (Nat.le_of_lt (h2 l hl2)) (hl k1 rfl), hh⟩

/-- Every pair below a well-formed subtree lies inside its bounds. -/
theorem subContents_range : ∀ (h : Nat) {s : BTree} {pid : Nat} {lo hi : Option Nat},
    nodeOK s h pid lo hi → ∀ p ∈ subContents s h pid, loOK lo p.1 ∧ hiLt hi p.1 := by
  intro h
  induction h with
  | zero =>
      intro s pid lo hi hok p hp
      obtain ⟨e, next, h1, _, _, _, h5⟩ := hok
      rw [subContents_zero h1] at hp
      exact h5 p hp
  | succ g ih =>
      intro s pid lo hi hok p hp
      obtain ⟨e, h1, h2, h3, h4⟩ := hok
      rw [subContents_succ h1] at hp
      exact contentsF_range_gen (fun c lo2 hi2 hok2 => ih hok2) h4 p hp

theorem chain_pages_aux {s : BTree} {g : Nat} {hi : Option Nat}
    (IH : ∀ {pid : Nat} {lo2 hi2 : Option Nat}, nodeOK s g pid lo2 hi2 →
      ∀ q ∈ subPids s g pid, ∃ n, getPage s q = some n) :
    ∀ (rest : List (Nat × Nat)) (lo : Option Nat) (c0 : Nat),
      childSeqF (fun c a b => nodeOK s g c a b) hi lo c0 rest →
      ∀ c ∈ chCh c0 rest, ∀ q ∈ subPids s g c, ∃ n, getPage s q = some n := by
  intro rest
  induction rest with
  | nil =>
      intro lo c0 hch c hc
      have : c = c0 := by simpa [chCh] using hc
      exact this ▸ IH hch
  | cons y t ih =>
      intro lo c0 hch c hc
      obtain ⟨k1, c1⟩ := y
      obtain ⟨j1, _, _, j4⟩ := hch
      simp only [chCh, List.map_cons, List.mem_cons] at hc
      rcases hc with h | h
      · exact h ▸ IH j1
      · exact ih _ _ j4 c (by simp only [chCh, List.mem_cons]; exact h)

/-- Every page id of a well-formed subtree has a page. -/
theorem subPids_pages : ∀ (h : Nat) {s : BTree} {pid : Nat} {lo hi : Option Nat},
    nodeOK s h pid lo hi → ∀ q ∈ subPids s h pid, ∃ n, getPage s q = some n := by
  intro h
  induction h with
  | zero =>
      intro s pid lo hi hok q hq
      obtain ⟨e, next, h1, _⟩ := hok
      have : q = pid := by simpa [subPids] using hq
      exact ⟨_, this ▸ h1⟩
  | succ g ih =>
      intro s pid lo hi hok q hq
      obtain ⟨e, h1, h2, h3, h4⟩ := hok
      rw [subPids_succ h1] at hq
      rcases List.mem_cons.mp hq with h | h
      · exact ⟨_, h ▸ h1⟩
      · obtain ⟨c, hc, hqc⟩ := pidsF_mem.mp h
        exact chain_pages_aux (fun hok2 => ih hok2) _ _ _ h4 c hc q hqc

/-- A well-formed subtree of height `h` has more than `h` pages. -/
theorem subPids_long : ∀ (h : Nat) {s : BTree} {pid : Nat} {lo hi : Option Nat},
    nodeOK s h pid lo hi → h + 1 ≤ (subPids s h pid).length := by
  intro h
  induction h with
  | zero => intro s pid lo hi _; simp [subPids]
  | succ g ih =>
      intro s pid lo hi hok
      obtain ⟨e, h1, h2, h3, h4⟩ := hok
      rw [subPids_succ h1, List.length_cons]
      have hfst : ∀ (rest : List (Nat × Nat)) (lo2 : Option Nat) (c0 : Nat),
          childSeqF (fun c a b => nodeOK s g c a b) hi lo2 c0 rest →
          g + 1 ≤ (pidsF (fun c => subPids s g c) c0 rest).length := by
        intro rest
        induction rest with
        | nil =>
            intro lo2 c0 h4b
            exact ih h4b
        | cons y t iht =>
            intro lo2 c0 h4b
            obtain ⟨k1, c1⟩ := y
            obtain ⟨j1, _, _, _⟩ := h4b
            show g + 1 ≤ (subPids s g c0 ++ _).length
            rw [List.length_append]
            have := ih j1
            omega
      have := hfst _ _ _ h4
      omega

/-! #### Lookup picks the chain child -/

theorem nodeOK_page {s : BTree} {h : Nat} {q : Nat} {lo hi : Option Nat}
    (hok : nodeOK s h q lo hi) : ∃ n, getPage s q = some n := by
  cases h with
  | zero => obtain ⟨e, next, h1, _⟩ := hok; exact ⟨_, h1⟩
  | succ g => obtain ⟨e, h1, _⟩ := hok; exact ⟨_, h1⟩

theorem pick_chCh {k : Nat} : ∀ (rest : List (Nat × Nat)) (c0 : Nat),
    pickChild k rest c0 ∈ chCh c0 rest := by
  intro rest
  induction rest with
  | nil => intro c0; simp [pickChild, chCh]
  | cons y t ih =>
      intro c0
      obtain ⟨k1, c1⟩ := y
      show (if k1 ≤ k then pickChild k t c1 else c0) ∈ _
      by_cases hk1 : k1 ≤ k
      · rw [if_pos hk1]
        exact chCh_sub (ih c1)
      · rw [if_neg hk1]
        simp [chCh]

theorem pick_nodeOK {no : Nat → Option Nat → Option Nat → Prop} {hi : Option Nat}
    {k : Nat} :
    ∀ {rest : List (Nat × Nat)} {lo : Option Nat} {c0 : Nat},
      childSeqF no hi lo c0 rest → loOK lo k → hiLt hi k →
      ∃ lo2 hi2, no (pickChild k rest c0) lo2 hi2 ∧ loOK lo2 k ∧ hiLt hi2 k := by
  intro rest
  induction rest with
  | nil =>
      intro lo c0 hch hlo hhi
      exact ⟨lo, hi, hch, hlo, hhi⟩
  | cons y t ih =>
      intro lo c0 hch hlo hhi
      obtain ⟨k1, c1⟩ := y
      obtain ⟨h1, h2, h3, h4⟩ := hch
      show ∃ lo2 hi2, no (if k1 ≤ k then pickChild k t c1 else c0) lo2 hi2 ∧ _
      by_cases hk1 : k1 ≤ k
      · rw [if_pos hk1]
        exact ih h4 (fun l hl => by
          have := (Option.some.injEq _ _).mp hl
          omega) hhi
      · rw [if_neg hk1]
        exact ⟨lo, some k1, h1, hlo, fun l hl => by
          have := (Option.some.injEq _ _).mp hl
          omega⟩

theorem pick_mem (no : Nat → Option Nat → Option Nat → Prop)
    (ct : Nat → List (Nat × Nat)) {hi : Option Nat} {k : Nat} {v : Nat}
    (hrange : ∀ c lo2 hi2, no c lo2 hi2 → ∀ p ∈ ct c, loOK lo2 p.1 ∧ hiLt hi2 p.1) :
    ∀ {rest : List (Nat × Nat)} {lo : Option Nat} {c0 : Nat},
      childSeqF no hi lo c0 rest → loOK lo k →
      (k, v) ∈ contentsF ct c0 rest → (k, v) ∈ ct (pickChild k rest c0) := by
  intro rest
  induction rest with
  | nil => intro lo c0 _ _ hm; exact hm
  | cons y t ih =>
      intro lo c0 hch hlo hm
      obtain ⟨k1, c1⟩ := y
      obtain ⟨h1, h2, h3, h4⟩ := hch
      show (k, v) ∈ ct (if k1 ≤ k then pickChild k t c1 else c0)
      rcases List.mem_append.mp hm with hin | hin
      · have hfr := (hrange c0 lo (some k1) h1 _ hin).2 k1 rfl
        have hk1 : ¬k1 ≤ k := by omega
        rw [if_neg hk1]
        exact hin
      · have hfr := (contentsF_range_gen hrange h4 _ hin).1 k1 rfl
        have hk1 : k1 ≤ k := by omega
        rw [if_pos hk1]
        exact ih h4 (fun l hl => by
          have := (Option.some.injEq _ _).mp hl
          omega) hin

theorem chCh_contents_sub {ct : Nat → List (Nat × Nat)} {p : Nat × Nat} :
    ∀ {rest : List (Nat × Nat)} {c0 c : Nat}, c ∈ chCh c0 rest →
      p ∈ ct c → p ∈ contentsF ct c0 rest := by
  intro rest
  induction rest with
  | nil =>
      intro c0 c hc hp
      have : c = c0 := by simpa [chCh] using hc
      exact this ▸ hp
  | cons y t ih =>
      intro c0 c hc hp
      obtain ⟨k1, c1⟩ := y
      simp only [chCh, List.map_cons, List.mem_cons] at hc
      show p ∈ ct c0 ++ contentsF ct c1 t
      rcases hc with h | h
      · exact List.mem_append.mpr (Or.inl (h ▸ hp))
      · exact List.mem_append.mpr (Or.inr (ih (by
          simp only [chCh, List.mem_cons]
          exact h) hp))

/-- `pickChild` as a prefix count (no sortedness needed). -/
theorem pick_ub {k : Nat} :
    ∀ (rest : List (Nat × Nat)) (c0 : Nat),
      pickChild k rest c0 =
        (if (rest.takeWhile (fun x => x.1 ≤ k)).length = 0 then c0
         else valAtD rest ((rest.takeWhile (fun x => x.1 ≤ k)).length - 1)) := by
  intro rest
  induction rest with
  | nil => intro c0; rfl
  | cons y t ih =>
      intro c0
      obtain ⟨k1, c1⟩ := y
      show (if k1 ≤ k then pickChild k t c1 else c0) = _
      by_cases hk1 : k1 ≤ k
      · rw [if_pos hk1, List.takeWhile_cons_of_pos (by simp [hk1]), List.length_cons]
        rcases hcnt : (t.takeWhile (fun x => x.1 ≤ k)).length with _ | m
        · rw [ih c1, hcnt]
          simp [valAtD]
        · rw [ih c1, hcnt]
          simp only [Nat.succ_ne_zero, if_false, Nat.add_sub_cancel]
          have hv : valAtD ((k1, c1) :: t) (m + 1) = valAtD t m := rfl
          rw [hv]
      · rw [if_neg hk1, List.takeWhile_cons_of_neg (by simp [hk1])]
        simp

/-- `BPlusTreeInternalPage::Lookup` selects the chain child on a sorted
internal page. -/
theorem internalLookup_eq_pick {e : List (Nat × Nat)} {k : Nat}
    (he : 1 ≤ e.length) (hs : sKeys (e.drop 1)) :
    internalLookup e k = pickChild k (e.drop 1) (valAtD e 0) := by
  obtain ⟨e0, rest, rfl⟩ : ∃ e0 rest, e = e0 :: rest := by
    cases e with
    | nil => exact absurd he (by simp)
    | cons a t => exact ⟨a, t, rfl⟩
  have hdrop : (e0 :: rest).drop 1 = rest := rfl
  rw [hdrop] at hs ⊢
  unfold internalLookup
  have hcnt : (rest.takeWhile (fun x => x.1 ≤ k)).length ≤ rest.length :=
    List.Sublist.length_le (List.takeWhile_sublist _)
  have hb : bsearch (fun mid => keyAtD (e0 :: rest) mid ≤ k)
      ((e0 :: rest).length + 1) 1 (e0 :: rest).length =
      1 + (rest.takeWhile (fun x => x.1 ≤ k)).length := by
    apply bsearch_eq
    · omega
    · simp only [List.length_cons]
      omega
    · omega
    · intro i h1 h2
      obtain ⟨j, rfl⟩ : ∃ j, i = j + 1 := ⟨i - 1, by omega⟩
      have hj : j < rest.length := by
        simp only [List.length_cons] at h2
        omega
      have := sorted_count_iff (fun a => decide (a ≤ k))
        (by intro a b hab hb2; simp only [decide_eq_true_eq] at hb2 ⊢; omega) rest hs j hj
      rw [keyAtD_cons_succ]
      simp only [decide_eq_true_eq] at this ⊢
      rw [this]
      omega
  rw [hb, pick_ub]
  rcases Nat.eq_zero_or_pos (List.takeWhile (fun x => decide (x.1 ≤ k)) rest).length
    with hz | hpos
  · rw [hz, if_pos rfl]
  · obtain ⟨m, hm⟩ : ∃ m, (List.takeWhile (fun x => decide (x.1 ≤ k)) rest).length = m + 1 :=
      ⟨(List.takeWhile (fun x => decide (x.1 ≤ k)) rest).length - 1, by omega⟩
    rw [hm, if_neg (by omega)]
    have h1 : 1 + (m + 1) - 1 = m + 1 := by omega
    rw [h1]
    rfl

/-! #### The descent follows the spine -/

theorem getLastD_ne_nil (l : List Nat) (h : l ≠ []) (d1 d2 : Nat) :
    l.getLastD d1 = l.getLastD d2 := by
  rw [List.getLastD_eq_getLast?, List.getLastD_eq_getLast?]
  rcases hl : l.getLast? with _ | x
  · exact absurd (List.getLast?_eq_none_iff.mp hl) h
  · rfl

theorem spine_succ {s : BTree} {k : Nat} {pid : Nat} {e : List (Nat × Nat)} {g : Nat}
    (h1 : getPage s pid = some (BTNode.internal e)) :
    spine s k (g + 1) pid = pid :: spine s k g (pickChild k (e.drop 1) (valAtD e 0)) := by
  rw [spine, h1]

theorem spine_cons (s : BTree) (k : Nat) : ∀ (h : Nat) (pid : Nat),
    ∃ t, spine s k h pid = pid :: t := by
  intro h pid
  cases h with
  | zero => exact ⟨[], rfl⟩
  | succ g =>
      rw [spine]
      exact ⟨_, rfl⟩

theorem spine_ne_nil {s : BTree} {k : Nat} {h : Nat} {pid : Nat} :
    spine s k h pid ≠ [] := by
  cases h with
  | zero => simp [spine]
  | succ g =>
      rw [spine]
      simp

/-- The leaf at the end of the spine: it exists, is well-formed, covers
`k`, and holds exactly the `k`-pairs of the whole subtree. -/
theorem spine_last_facts (k : Nat) : ∀ (h : Nat) {s : BTree} {pid : Nat}
    {lo hi : Option Nat}, nodeOK s h pid lo hi → loOK lo k → hiLt hi k →
    ∃ L le lnext lo2 hi2, (spine s k h pid).getLastD 0 = L ∧
      getPage s L = some (BTNode.leaf le lnext) ∧
      nodeOK s 0 L lo2 hi2 ∧ loOK lo2 k ∧ hiLt hi2 k ∧
      (∀ p : Nat × Nat, p.1 = k → (p ∈ subContents s h pid ↔ p ∈ le)) := by
  intro h
  induction h with
  | zero =>
      intro s pid lo hi hok hlo hhi
      obtain ⟨e, next, h1, h2, h3, h4, h5⟩ := hok
      refine ⟨pid, e, next, lo, hi, rfl, h1, ⟨e, next, h1, h2, h3, h4, h5⟩, hlo, hhi, ?_⟩
      intro p _
      rw [subContents_zero h1]
  | succ g ih =>
      intro s pid lo hi hok hlo hhi
      obtain ⟨e, h1, h2, h3, h4⟩ := hok
      obtain ⟨lo2, hi2, hokq, hlo2, hhi2⟩ := pick_nodeOK h4 hlo hhi
      obtain ⟨L, le, lnext, lo3, hi3, hL, hpage, hok0, hlo3, hhi3, hmem⟩ :=
        ih hokq hlo2 hhi2
      refine ⟨L, le, lnext, lo3, hi3, ?_, hpage, hok0, hlo3, hhi3, ?_⟩
      · rw [spine_succ h1, List.getLastD_cons]
        rw [getLastD_ne_nil _ spine_ne_nil pid 0]
        exact hL
      · intro p hp
        rw [subContents_succ h1]
        rw [← hmem p hp]
        constructor
        · intro hin
          obtain ⟨v, rfl⟩ : ∃ v, p = (k, v) := ⟨p.2, by rw [← hp]⟩
          exact pick_mem (fun c a b => nodeOK s g c a b) (fun c => subContents s g c)
            (fun c a b hok2 => subContents_range g hok2) h4 hlo hin
        · intro hin
          exact chCh_contents_sub (pick_chCh _ _) hin

/-- The descent returns exactly the fold of the page-set bookkeeping
over the spine. -/
theorem findLeafGo_run (k : Nat) (op : BOp) : ∀ (h : Nat) {s : BTree} {pid : Nat}
    {lo hi : Option Nat} (st0 : List Nat) (fuel : Nat),
    nodeOK s h pid lo hi → loOK lo k → hiLt hi k → h < fuel →
    findLeafGo s k op fuel pid st0 =
      some (foldStack s op st0 ((spine s k h pid).drop 1)) := by
  intro h
  induction h with
  | zero =>
      intro s pid lo hi st0 fuel hok hlo hhi hfuel
      obtain ⟨e, next, h1, _⟩ := hok
      obtain ⟨f, rfl⟩ : ∃ f, fuel = f + 1 := ⟨fuel - 1, by omega⟩
      rw [findLeafGo, h1]
      rfl
  | succ g ih =>
      intro s pid lo hi st0 fuel hok hlo hhi hfuel
      obtain ⟨e, h1, h2, h3, h4⟩ := hok
      obtain ⟨f, rfl⟩ : ∃ f, fuel = f + 1 := ⟨fuel - 1, by omega⟩
      have hpick : internalLookup e k = pickChild k (e.drop 1) (valAtD e 0) :=
        internalLookup_eq_pick h2 (chain_sorted h4)
      obtain ⟨lo2, hi2, hokq, hlo2, hhi2⟩ := pick_nodeOK h4 hlo hhi
      obtain ⟨cn, hcn⟩ := nodeOK_page hokq
      obtain ⟨t2, ht2⟩ := spine_cons s k g (pickChild k (e.drop 1) (valAtD e 0))
      have hrhs : (spine s k (g + 1) pid).drop 1 =
          pickChild k (e.drop 1) (valAtD e 0) :: t2 := by
        rw [spine_succ h1, List.drop_one, List.tail_cons, ht2]
      cases op with
      | READ =>
          rw [findLeafGo, h1]
          dsimp only
          rw [hpick, hcn]
          dsimp only
          rw [hrhs, foldStack]
          have h5 : clearAt s BOp.READ (pickChild k (e.drop 1) (valAtD e 0)) = true := rfl
          rw [h5]
          have ht3 : t2 = (spine s k g (pickChild k (e.drop 1) (valAtD e 0))).drop 1 := by
            rw [ht2]
            rfl
          rw [ht3]
          exact ih _ f hokq hlo2 hhi2 (by omega)
      | INSERT =>
          rw [findLeafGo, h1]
          dsimp only
          rw [hpick, hcn]
          dsimp only
          rw [hrhs, foldStack]
          have h5 : clearAt s BOp.INSERT (pickChild k (e.drop 1) (valAtD e 0)) =
              isSafe s cn BOp.INSERT := by
            unfold clearAt
            rw [hcn]
          rw [h5]
          have ht3 : t2 = (spine s k g (pickChild k (e.drop 1) (valAtD e 0))).drop 1 := by
            rw [ht2]
            rfl
          rw [ht3]
          exact ih _ f hokq hlo2 hhi2 (by omega)
      | DELETE =>
          rw [findLeafGo, h1]
          dsimp only
          rw [hpick, hcn]
          dsimp only
          rw [hrhs, foldStack]
          have h5 : clearAt s BOp.DELETE (pickChild k (e.drop 1) (valAtD e 0)) =
              isSafe s cn BOp.DELETE := by
            unfold clearAt
            rw [hcn]
          rw [h5]
          have ht3 : t2 = (spine s k g (pickChild k (e.drop 1) (valAtD e 0))).drop 1 := by
            rw [ht2]
            rfl
          rw [ht3]
          exact ih _ f hokq hlo2 hhi2 (by omega)

/-! #### `GetValue` finds every stored pair -/

theorem loOK_none {k : Nat} : loOK none k := fun _ hl => nomatch hl

theorem hiLt_none {k : Nat} : hiLt none k := fun _ hl => nomatch hl

theorem nodup_sub_length {c ks : List Nat} (hnd : c.Nodup) (hsub : ∀ x ∈ c, x ∈ ks) :
    c.length ≤ ks.length := by
  classical
  have h1 : c.toFinset.card = c.length := List.toFinset_card_of_nodup hnd
  have h2 : c.toFinset ⊆ ks.toFinset := by
    intro x hx
    rw [List.mem_toFinset] at hx ⊢
    exact hsub x hx
  have h3 : ks.toFinset.card ≤ ks.length := ks.toFinset_card_le
  have := Finset.card_le_card h2
  omega

theorem keyAtD_getElem {e : List (Nat × Nat)} {i : Nat} (h : i < e.length) :
    keyAtD e i = (e[i]).1 := by
  unfold keyAtD
  rw [List.getD_eq_getElem?_getD, List.getElem?_eq_getElem h]
  rfl

theorem valAtD_getElem {e : List (Nat × Nat)} {i : Nat} (h : i < e.length) :
    valAtD e i = (e[i]).2 := by
  unfold valAtD
  rw [List.getD_eq_getElem?_getD, List.getElem?_eq_getElem h]
  rfl

theorem getLastD_append (t : List Nat) (h : t ≠ []) :
    ∀ (l : List Nat) (d : Nat), (l ++ t).getLastD d = t.getLastD d := by
  intro l
  induction l with
  | nil => intro d; rfl
  | cons a l2 ih =>
      intro d
      rw [List.cons_append, List.getLastD_cons]
      have hne : l2 ++ t ≠ [] := by
        intro hc
        rcases List.append_eq_nil.mp hc with ⟨_, h2⟩
        exact h h2
      rw [getLastD_ne_nil _ hne a d]
      exact ih d

theorem foldStack_last {s : BTree} {op : BOp} :
    ∀ (ch : List Nat) (st0 : List Nat), st0 ≠ [] →
      (foldStack s op st0 ch).getLastD 0 = (st0 ++ ch).getLastD 0 := by
  intro ch
  induction ch with
  | nil =>
      intro st0 _
      rw [List.append_nil]
      rfl
  | cons c t ih =>
      intro st0 hne
      rw [foldStack]
      rw [ih ((if clearAt s op c then [] else st0) ++ [c]) (by simp)]
      cases t with
      | nil =>
          rw [List.append_nil, getLastD_concat, getLastD_concat]
      | cons a t2 =>
          rw [getLastD_append (a :: t2) (by simp) _ 0]
          rw [getLastD_append (c :: a :: t2) (by simp) st0 0]
          simp only [List.getLastD_cons]

theorem foldStack_ne_nil {s : BTree} {op : BOp} :
    ∀ (ch : List Nat) (st0 : List Nat), st0 ≠ [] → foldStack s op st0 ch ≠ [] := by
  intro ch
  induction ch with
  | nil => intro st0 h; exact h
  | cons c t ih =>
      intro st0 _
      rw [foldStack]
      exact ih _ (by simp)

theorem leaf_lookup_hit {e : List (Nat × Nat)} {k v : Nat} (hs : sKeys e)
    (hm : (k, v) ∈ e) :
    leafKeyIndex e k < e.length ∧ keyAtD e (leafKeyIndex e k) = k ∧
      valAtD e (leafKeyIndex e k) = v := by
  obtain ⟨j, hj, hje⟩ := List.mem_iff_getElem.mp hm
  have hchar := fun i (hi : i < e.length) => sorted_count_iff (fun a => decide (a < k))
    (by intro a b hab hb2; simp only [decide_eq_true_eq] at hb2 ⊢; omega) e hs i hi
  have hpair := List.pairwise_iff_getElem.mp hs
  rw [leafKeyIndex_eq hs]
  have hje1 : (e[j]).1 = k := by rw [hje]
  have htj : (e.takeWhile (fun p => p.1 < k)).length = j := by
    have hle : (e.takeWhile (fun p => decide (p.1 < k))).length ≤ j := by
      by_contra hgt
      have := (hchar j hj).mpr (by omega)
      simp only [decide_eq_true_eq] at this
      rw [keyAtD_getElem hj, hje1] at this
      omega
    have hge : j ≤ (e.takeWhile (fun p => decide (p.1 < k))).length := by
      by_contra hlt
      push_neg at hlt
      have hlen : (e.takeWhile (fun p => decide (p.1 < k))).length < e.length := by omega
      have h2 := (hchar (e.takeWhile (fun p => decide (p.1 < k))).length hlen).mp
      have h4 : ((e[(e.takeWhile (fun p => decide (p.1 < k))).length]).1 <
          (e[j]).1) := hpair _ j hlen hj (by omega)
      rw [hje1] at h4
      have h5 : decide (keyAtD e (e.takeWhile (fun p => decide (p.1 < k))).length < k)
          = true := by
        rw [keyAtD_getElem hlen]
        simp only [decide_eq_true_eq]
        exact h4
      have := h2 h5
      omega
    omega
  rw [htj]
  refine ⟨hj, ?_, ?_⟩
  · rw [keyAtD_getElem hj]
    exact hje1
  · rw [valAtD_getElem hj, hje]

theorem getValue_hit {s : BTree} {k v : Nat} {r H : Nat}
    (hroot : s.root = some r) (hok : nodeOK s H r none none)
    (hnd : (subPids s H r).Nodup)
    (hpg : ∀ q ∈ subPids s H r, q ∈ s.pages.map Prod.fst)
    (hmem : (k, v) ∈ subContents s H r) :
    getValue s k = some v := by
  have hfuel : H < s.pages.length + 1 := by
    have h1 := subPids_long H hok
    have h2 := nodup_sub_length hnd hpg
    have h3 : (s.pages.map Prod.fst).length = s.pages.length := List.length_map _ _
    omega
  obtain ⟨L, le, lnext, lo2, hi2, hL, hpage, hok0, hlo2, hhi2, hiff⟩ :=
    spine_last_facts k H hok loOK_none hiLt_none
  have hrun := findLeafGo_run k BOp.READ H [r] (s.pages.length + 1) hok loOK_none
    hiLt_none hfuel
  unfold getValue findLeafPageRW
  rw [hroot]
  dsimp only
  rw [hrun]
  dsimp only
  obtain ⟨t0, ht0⟩ := spine_cons s k H r
  have hlast : (foldStack s BOp.READ [r] ((spine s k H r).drop 1)).getLastD 0 = L := by
    rw [foldStack_last _ [r] (by simp)]
    rw [show [r] ++ (spine s k H r).drop 1 = spine s k H r by
      rw [ht0]
      rfl]
    exact hL
  rw [hlast, hpage]
  dsimp only
  have hmle : (k, v) ∈ le := (hiff (k, v) rfl).mp hmem
  have hsort : sKeys le := by
    obtain ⟨e2, n2, hp2, _, _, hs2, _⟩ := hok0
    rw [hpage] at hp2
    simp only [Option.some.injEq, BTNode.leaf.injEq] at hp2
    rw [← hp2.1] at hs2
    exact hs2
  obtain ⟨hlt, hkey, hval⟩ := leaf_lookup_hit hsort hmle
  rw [if_pos ⟨hlt, hkey⟩, hval]

/-! #### Chain zipper: a chain with its picked child exposed -/

/-- The children of a chain strictly before its final child. -/
def holeCh (c0 : Nat) : List (Nat × Nat) → List Nat
  | [] => []
  | (_, c1) :: t => c0 :: holeCh c1 t

/-- A chain's facts with the final child's well-formedness removed;
`loq` is the final child's lower bound. -/
def chainHole (no : Nat → Option Nat → Option Nat → Prop) (hi2 : Option Nat) :
    Option Nat → Nat → List (Nat × Nat) → Option Nat → Prop
  | lo, _, [], loq => loq = lo
  | lo, c0, (k1, c1) :: t, loq => no c0 lo (some k1) ∧ loLt lo k1 ∧ hiLt hi2 k1 ∧
      chainHole no hi2 (some k1) c1 t loq

def ctsOf (ct : Nat → List (Nat × Nat)) : List Nat → List (Nat × Nat)
  | [] => []
  | c :: t => ct c ++ ctsOf ct t

def pidsOf (sp : Nat → List Nat) : List Nat → List Nat
  | [] => []
  | c :: t => sp c ++ pidsOf sp t

theorem chLast_concat {c0 sk B : Nat} : ∀ (pre : List (Nat × Nat)),
    chLast c0 (pre ++ [(sk, B)]) = B := by
  intro pre
  unfold chLast
  rw [List.getLastD_concat]

theorem chain_to_hole {no : Nat → Option Nat → Option Nat → Prop} {hi2 : Option Nat} :
    ∀ {pre : List (Nat × Nat)} {lo : Option Nat} {c0 : Nat},
      childSeqF no hi2 lo c0 pre →
      ∃ loq, chainHole no hi2 lo c0 pre loq ∧ no (chLast c0 pre) loq hi2 ∧
        (loq = lo ∨ ∃ x ∈ pre, loq = some x.1) := by
  intro pre
  induction pre with
  | nil =>
      intro lo c0 hch
      exact ⟨lo, rfl, hch, Or.inl rfl⟩
  | cons y t ih =>
      intro lo c0 hch
      obtain ⟨k1, c1⟩ := y
      obtain ⟨h1, h2, h3, h4⟩ := hch
      obtain ⟨loq, i1, i2, i3⟩ := ih h4
      refine ⟨loq, ⟨h1, h2, h3, i1⟩, ?_, ?_⟩
      · rw [show chLast c0 ((k1, c1) :: t) = chLast c1 t by
          unfold chLast
          rw [List.getLastD_cons]
          cases t with
          | nil => rfl
          | cons z t2 => simp only [List.getLastD_cons]]
        exact i2
      · rcases i3 with h | ⟨x, hx, hxe⟩
        · exact Or.inr ⟨(k1, c1), by simp, h⟩
        · exact Or.inr ⟨x, List.mem_cons_of_mem _ hx, hxe⟩

theorem hole_mono {no no2 : Nat → Option Nat → Option Nat → Prop} {hi2 : Option Nat} :
    ∀ {pre : List (Nat × Nat)} {lo : Option Nat} {c0 : Nat} {loq : Option Nat},
      (∀ c ∈ holeCh c0 pre, ∀ a b, no c a b → no2 c a b) →
      chainHole no hi2 lo c0 pre loq → chainHole no2 hi2 lo c0 pre loq := by
  intro pre
  induction pre with
  | nil => intro lo c0 loq _ h; exact h
  | cons y t ih =>
      intro lo c0 loq hm hch
      obtain ⟨k1, c1⟩ := y
      obtain ⟨h1, h2, h3, h4⟩ := hch
      exact ⟨hm c0 (by simp [holeCh]) _ _ h1, h2, h3,
        ih (fun c hc a b => hm c (by
          simp only [holeCh, List.mem_cons]
          tauto) a b) h4⟩

theorem hole_to_chain {no : Nat → Option Nat → Option Nat → Prop} {hi2 : Option Nat} :
    ∀ {pre : List (Nat × Nat)} {lo : Option Nat} {c0 : Nat} {loq : Option Nat},
      chainHole no hi2 lo c0 pre loq → no (chLast c0 pre) loq hi2 →
      childSeqF no hi2 lo c0 pre := by
  intro pre
  induction pre with
  | nil =>
      intro lo c0 loq hh hlast
      rw [hh] at hlast
      exact hlast
  | cons y t ih =>
      intro lo c0 loq hh hlast
      obtain ⟨k1, c1⟩ := y
      obtain ⟨h1, h2, h3, h4⟩ := hh
      refine ⟨h1, h2, h3, ih h4 ?_⟩
      rw [show chLast c1 t = chLast c0 ((k1, c1) :: t) by
        unfold chLast
        rw [List.getLastD_cons]
        cases t with
        | nil => rfl
        | cons z t2 => simp only [List.getLastD_cons]]
      exact hlast

theorem hole_snoc {no : Nat → Option Nat → Option Nat → Prop} {hi2 : Option Nat}
    {sk B : Nat} :
    ∀ {pre : List (Nat × Nat)} {lo : Option Nat} {c0 : Nat} {loq : Option Nat},
      chainHole no hi2 lo c0 pre loq → no (chLast c0 pre) loq (some sk) →
      loLt loq sk → hiLt hi2 sk →
      chainHole no hi2 lo c0 (pre ++ [(sk, B)]) (some sk) := by
  intro pre
  induction pre with
  | nil =>
      intro lo c0 loq hh hq hlt hhi
      subst hh
      exact ⟨hq, hlt, hhi, rfl⟩
  | cons y t ih =>
      intro lo c0 loq hh hq hlt hhi
      obtain ⟨k1, c1⟩ := y
      obtain ⟨h1, h2, h3, h4⟩ := hh
      refine ⟨h1, h2, h3, ih h4 ?_ hlt hhi⟩
      rw [show chLast c1 t = chLast c0 ((k1, c1) :: t) by
        unfold chLast
        rw [List.getLastD_cons]
        cases t with
        | nil => rfl
        | cons z t2 => simp only [List.getLastD_cons]]
      exact hq

theorem hole_lo_le {no : Nat → Option Nat → Option Nat → Prop} {hi2 : Option Nat} :
    ∀ {pre : List (Nat × Nat)} {lo : Option Nat} {c0 : Nat} {loq : Option Nat},
      chainHole no hi2 lo c0 pre loq →
      ∀ l, loq = some l → ∀ l2, lo = some l2 → l2 ≤ l := by
  intro pre
  induction pre with
  | nil =>
      intro lo c0 loq hh l hl l2 hl2
      rw [hh, hl2] at hl
      have := (Option.some.injEq _ _).mp hl
      omega
  | cons y t ih =>
      intro lo c0 loq hh l hl l2 hl2
      obtain ⟨k1, c1⟩ := y
      obtain ⟨_, h2, _, h4⟩ := hh
      have hk1 := h2 l2 hl2
      have := ih h4 l hl k1 rfl
      omega

theorem hole_keys {no : Nat → Option Nat → Option Nat → Prop} {hi2 : Option Nat} :
    ∀ {pre : List (Nat × Nat)} {lo : Option Nat} {c0 : Nat} {loq : Option Nat},
      chainHole no hi2 lo c0 pre loq →
      ∀ x ∈ pre, ∀ l, loq = some l → x.1 ≤ l := by
  intro pre
  induction pre with
  | nil => intro lo c0 loq _ x hx; exact absurd hx (by simp)
  | cons y t ih =>
      intro lo c0 loq hh x hx l hl
      obtain ⟨k1, c1⟩ := y
      obtain ⟨_, _, _, h4⟩ := hh
      rcases List.mem_cons.mp hx with h | h
      · rw [h]
        exact hole_lo_le h4 l hl k1 rfl
      · exact ih h4 x h l hl

theorem contentsF_hole {ct : Nat → List (Nat × Nat)} :
    ∀ (pre : List (Nat × Nat)) (c0 : Nat),
      contentsF ct c0 pre = ctsOf ct (holeCh c0 pre) ++ ct (chLast c0 pre) := by
  intro pre
  induction pre with
  | nil => intro c0; rfl
  | cons y t ih =>
      intro c0
      obtain ⟨k1, c1⟩ := y
      show ct c0 ++ contentsF ct c1 t = (ct c0 ++ ctsOf ct (holeCh c1 t)) ++ _
      rw [ih c1, List.append_assoc]
      rw [show chLast c0 ((k1, c1) :: t) = chLast c1 t by
        unfold chLast
        rw [List.getLastD_cons]
        cases t with
        | nil => rfl
        | cons z t2 => simp only [List.getLastD_cons]]

theorem pidsF_hole {sp : Nat → List Nat} :
    ∀ (pre : List (Nat × Nat)) (c0 : Nat),
      pidsF sp c0 pre = pidsOf sp (holeCh c0 pre) ++ sp (chLast c0 pre) := by
  intro pre
  induction pre with
  | nil => intro c0; rfl
  | cons y t ih =>
      intro c0
      obtain ⟨k1, c1⟩ := y
      show sp c0 ++ pidsF sp c1 t = (sp c0 ++ pidsOf sp (holeCh c1 t)) ++ _
      rw [ih c1, List.append_assoc]
      rw [show chLast c0 ((k1, c1) :: t) = chLast c1 t by
        unfold chLast
        rw [List.getLastD_cons]
        cases t with
        | nil => rfl
        | cons z t2 => simp only [List.getLastD_cons]]

theorem ctsOf_congr {ct ct2 : Nat → List (Nat × Nat)} :
    ∀ {l : List Nat}, (∀ c ∈ l, ct2 c = ct c) → ctsOf ct2 l = ctsOf ct l := by
  intro l
  induction l with
  | nil => intro _; rfl
  | cons c t ih =>
      intro hm
      show ct2 c ++ ctsOf ct2 t = ct c ++ ctsOf ct t
      rw [hm c (by simp), ih (fun c2 hc2 => hm c2 (List.mem_cons_of_mem _ hc2))]

theorem pidsOf_congr {sp sp2 : Nat → List Nat} :
    ∀ {l : List Nat}, (∀ c ∈ l, sp2 c = sp c) → pidsOf sp2 l = pidsOf sp l := by
  intro l
  induction l with
  | nil => intro _; rfl
  | cons c t ih =>
      intro hm
      show sp2 c ++ pidsOf sp2 t = sp c ++ pidsOf sp t
      rw [hm c (by simp), ih (fun c2 hc2 => hm c2 (List.mem_cons_of_mem _ hc2))]

theorem holeCh_sub : ∀ {pre : List (Nat × Nat)} {c0 c : Nat},
    c ∈ holeCh c0 pre → c ∈ chCh c0 pre := by
  intro pre
  induction pre with
  | nil => intro c0 c hc; exact absurd hc (by simp [holeCh])
  | cons y t ih =>
      intro c0 c hc
      obtain ⟨k1, c1⟩ := y
      simp only [holeCh, List.mem_cons] at hc
      rcases hc with h | h
      · simp [chCh, h]
      · exact chCh_sub (ih h)

theorem chLast_chCh {c0 : Nat} : ∀ (pre : List (Nat × Nat)), chLast c0 pre ∈ chCh c0 pre := by
  intro pre
  induction pre using List.reverseRecOn with
  | nil => simp [chLast, chCh]
  | append_singleton l y _ =>
      obtain ⟨ky, cy⟩ := y
      rw [chLast_concat]
      simp [chCh]

/-- A child subtree's pid set is a sublist of the chain pid set. -/
theorem pidsF_child_sublist {sp : Nat → List Nat} :
    ∀ {rest : List (Nat × Nat)} {c0 c : Nat}, c ∈ chCh c0 rest →
      List.Sublist (sp c) (pidsF sp c0 rest) := by
  intro rest
  induction rest with
  | nil =>
      intro c0 c hc
      have : c = c0 := by simpa [chCh] using hc
      rw [this]
      exact List.Sublist.refl _
  | cons y t ih =>
      intro c0 c hc
      obtain ⟨k1, c1⟩ := y
      simp only [chCh, List.map_cons, List.mem_cons] at hc
      show List.Sublist (sp c) (sp c0 ++ pidsF sp c1 t)
      rcases hc with h | h
      · rw [h]
        exact List.sublist_append_left _ _
      · exact List.Sublist.trans (ih (by
          simp only [chCh, List.mem_cons]
          exact h)) (List.sublist_append_right _ _)

/-- Inside a well-formed internal node, a child subtree's pid set is a
sublist of the node's. -/
theorem subPids_child_sublist {s : BTree} {g : Nat} {pid c : Nat} {e : List (Nat × Nat)}
    (h1 : getPage s pid = some (BTNode.internal e))
    (hc : c ∈ chCh (valAtD e 0) (e.drop 1)) :
    List.Sublist (subPids s g c) (subPids s (g + 1) pid) := by
  rw [subPids_succ h1]
  exact List.Sublist.trans (pidsF_child_sublist hc) (List.sublist_cons_of_sublist _ (List.Sublist.refl _))

/-! #### Where the page inserts place a separator -/

theorem insFromRight_pass {p : Nat × Nat} :
    ∀ (l2 l1 : List (Nat × Nat)), (∀ x ∈ l2, p.1 < x.1) →
      insFromRight p (l2 ++ l1) = l2 ++ insFromRight p l1 := by
  intro l2
  induction l2 with
  | nil => intro l1 _; rfl
  | cons y t ih =>
      intro l1 hgt
      obtain ⟨ky, cy⟩ := y
      have hky : p.1 < ky := hgt (ky, cy) (by simp)
      rw [List.cons_append]
      show (if ky > p.1 then (ky, cy) :: insFromRight p (t ++ l1) else _) = _
    --
      rw [if_pos hky, ih l1 (fun x hx => hgt x (List.mem_cons_of_mem _ hx))]
      rfl

theorem insFromRight_stop {p : Nat × Nat} :
    ∀ {l1 : List (Nat × Nat)}, (∀ x ∈ l1, x.1 < p.1) →
      insFromRight p l1 = match l1 with
        | [] => [p]
        | x :: t => p :: x :: t := by
  intro l1 hlt
  cases l1 with
  | nil => rfl
  | cons x t =>
      obtain ⟨kx, cx⟩ := x
      have : ¬kx > p.1 := by
        have := hlt (kx, cx) (by simp)
        omega
      show (if kx > p.1 then _ else p :: (kx, cx) :: t) = _
      rw [if_neg this]

/-- `BPlusTreeInternalPage::Insert` places the separator exactly at its
sorted slot. -/
theorem internalInsert_at {sk B : Nat} {e0 : Nat × Nat} :
    ∀ (pre suf : List (Nat × Nat)), (∀ x ∈ pre, x.1 < sk) → (∀ x ∈ suf, sk < x.1) →
      internalInsert (e0 :: (pre ++ suf)) (sk, B) = e0 :: pre ++ (sk, B) :: suf := by
  intro pre suf hpre hsuf
  unfold internalInsert
  dsimp only
  rw [List.reverse_append]
  rw [insFromRight_pass suf.reverse pre.reverse (fun x hx => hsuf x (List.mem_reverse.mp hx))]
  rw [insFromRight_stop (fun x hx => hpre x (List.mem_reverse.mp hx))]
  cases hp : pre.reverse with
  | nil =>
      have : pre = [] := by
        have := congrArg List.reverse hp
        rwa [List.reverse_reverse] at this
      subst this
      simp
  | cons x t =>
      have hpre2 : pre = (x :: t).reverse := by
        have := congrArg List.reverse hp
        rwa [List.reverse_reverse] at this
      rw [hpre2]
      simp

/-- The merge pass of `BPlusTreeInternalPage::Split` places the
separator exactly at its sorted slot. -/
theorem splitIns_at {sk B : Nat} :
    ∀ (pre suf : List (Nat × Nat)), (∀ x ∈ pre, x.1 < sk) → (∀ x ∈ suf, sk < x.1) →
      splitIns (sk, B) (pre ++ suf) = pre ++ (sk, B) :: suf := by
  intro pre
  induction pre with
  | nil =>
      intro suf _ hsuf
      cases suf with
      | nil => rfl
      | cons x t =>
          obtain ⟨kx, cx⟩ := x
          have : ¬kx < sk := by
            have := hsuf (kx, cx) (by simp)
            omega
          show (if kx < sk then _ else (sk, B) :: (kx, cx) :: t) = _
          rw [if_neg this]
          rfl
  | cons y t ih =>
      intro suf hpre hsuf
      obtain ⟨ky, cy⟩ := y
      have hky : ky < sk := hpre (ky, cy) (by simp)
      rw [List.cons_append]
      show (if ky < sk then (ky, cy) :: splitIns (sk, B) (t ++ suf) else _) = _
      rw [if_pos hky, ih suf (fun x hx => hpre x (List.mem_cons_of_mem _ hx)) hsuf]
      rfl

/-! #### The pick zipper of a chain -/

def PickZip (no : Nat → Option Nat → Option Nat → Prop) (k : Nat) (hi lo : Option Nat)
    (c0 : Nat) (rest : List (Nat × Nat)) (loq hi2 : Option Nat) : Prop :=
  ∃ pre suf, rest = pre ++ suf ∧
    chainHole no hi2 lo c0 pre loq ∧
    pickChild k rest c0 = chLast c0 pre ∧
    loOK loq k ∧
    ((suf = [] ∧ hi2 = hi) ∨
      (∃ k2 c2 t, suf = (k2, c2) :: t ∧ hi2 = some k2 ∧ k < k2 ∧ loLt lo k2 ∧
        loLt loq k2 ∧ hiLt hi k2 ∧ childSeqF no hi (some k2) c2 t))

theorem dropWhile_head_not (p : Nat × Nat → Bool) :
    ∀ (l : List (Nat × Nat)), match l.dropWhile p with
      | [] => True
      | x :: _ => p x = false := by
  intro l
  induction l with
  | nil => trivial
  | cons y t ih =>
      by_cases hy : p y = true
      · rw [List.dropWhile_cons_of_pos hy]
        exact ih
      · rw [List.dropWhile_cons_of_neg (by simp [hy])]
        dsimp only
        simp only [Bool.not_eq_true] at hy
        exact hy

theorem pickZip_of_chain {no : Nat → Option Nat → Option Nat → Prop} {k : Nat}
    {hi lo : Option Nat} {c0 : Nat} {rest : List (Nat × Nat)}
    (hch : childSeqF no hi lo c0 rest) (hlo : loOK lo k) (hhi : hiLt hi k) :
    ∃ loq hi2, PickZip no k hi lo c0 rest loq hi2 ∧
      no (pickChild k rest c0) loq hi2 ∧ hiLt hi2 k := by
  have hsplit : rest =
      rest.takeWhile (fun x => x.1 ≤ k) ++ rest.dropWhile (fun x => x.1 ≤ k) :=
    (List.takeWhile_append_dropWhile _ _).symm
  have hpre_le : ∀ x ∈ rest.takeWhile (fun x => x.1 ≤ k), x.1 ≤ k := by
    intro x hx
    have := List.mem_takeWhile_imp hx
    simpa using this
  have hsuf_head : match rest.dropWhile (fun x => x.1 ≤ k) with
      | [] => True
      | x :: _ => k < x.1 := by
    have := dropWhile_head_not (fun x => decide (x.1 ≤ k)) rest
    rcases hd : rest.dropWhile (fun x => x.1 ≤ k) with _ | ⟨x, t⟩
    · rw [hd]
      trivial
    · rw [hd] at this ⊢
      dsimp only at this ⊢
      simp only [decide_eq_false_iff_not] at this
      omega
  have hpick : pickChild k rest c0 = chLast c0 (rest.takeWhile (fun x => x.1 ≤ k)) := by
    conv_lhs => rw [hsplit]
    exact pick_eq hsuf_head _ c0 hpre_le
  rcases hsuf_cases : rest.dropWhile (fun x => x.1 ≤ k) with _ | ⟨y, t⟩
  · have hrest : rest = rest.takeWhile (fun x => x.1 ≤ k) := by
      conv_lhs => rw [hsplit]
      rw [hsuf_cases, List.append_nil]
    have hchpre : childSeqF no hi lo c0 (rest.takeWhile (fun x => x.1 ≤ k)) :=
      hrest ▸ hch
    obtain ⟨loq, hhole, hlast, hprov⟩ := chain_to_hole hchpre
    have hloqk : loOK loq k := by
      rcases hprov with h | ⟨x, hx, hxe⟩
      · rw [h]
        exact hlo
      · rw [hxe]
        intro l hl
        have := (Option.some.injEq _ _).mp hl
        rw [← this]
        exact hpre_le x hx
    refine ⟨loq, hi, ⟨rest.takeWhile (fun x => x.1 ≤ k), [], by
      rw [List.append_nil]
      exact hrest, hhole, hpick, hloqk, Or.inl ⟨rfl, rfl⟩⟩, ?_, hhi⟩
    rw [hpick]
    exact hlast
  · obtain ⟨k2, c2⟩ := y
    have hrest : rest = rest.takeWhile (fun x => x.1 ≤ k) ++ (k2, c2) :: t := by
      conv_lhs => rw [hsplit]
      rw [hsuf_cases]
    have hch2 : childSeqF no hi lo c0
        (rest.takeWhile (fun x => x.1 ≤ k) ++ (k2, c2) :: t) := hrest ▸ hch
    obtain ⟨hchpre, hloLt, hhiLt, hchsuf⟩ := chain_split hch2
    obtain ⟨loq, hhole, hlast, hprov⟩ := chain_to_hole hchpre
    have hk2 : k < k2 := by
      rw [hsuf_cases] at hsuf_head
      exact hsuf_head
    have hloqk : loOK loq k := by
      rcases hprov with h | ⟨x, hx, hxe⟩
      · rw [h]
        exact hlo
      · rw [hxe]
        intro l hl
        have := (Option.some.injEq _ _).mp hl
        rw [← this]
        exact hpre_le x hx
    have hloqk2 : loLt loq k2 := by
      rcases hprov with h | ⟨x, hx, hxe⟩
      · rw [h]
        exact hloLt
      · rw [hxe]
        intro l hl
        have h2 := (Option.some.injEq _ _).mp hl
        have h3 := hpre_le x hx
        omega
    refine ⟨loq, some k2, ⟨rest.takeWhile (fun x => x.1 ≤ k), (k2, c2) :: t, hrest,
      hhole, hpick, hloqk,
      Or.inr ⟨k2, c2, t, rfl, rfl, hk2, hloLt, hloqk2, hhiLt, hchsuf⟩⟩, ?_, ?_⟩
    · rw [hpick]
      exact hlast
    · intro l hl
      have := (Option.some.injEq _ _).mp hl
      omega

/-! #### Sorted insertion into a leaf -/

theorem leafInsertAt_fresh {e : List (Nat × Nat)} {k v : Nat} {i : Nat}
    (hfresh : ∀ p ∈ e, p.1 ≠ k) :
    leafInsertAt e (k, v) i = some (e.take i ++ (k, v) :: e.drop i) := by
  unfold leafInsertAt
  rw [if_neg]
  rintro ⟨hi, hk⟩
  exact hfresh _ (getD_mem e i (0, 0) hi) hk

theorem take_insert_perm {e : List (Nat × Nat)} {p : Nat × Nat} {i : Nat} :
    (e.take i ++ p :: e.drop i).Perm (p :: e) := by
  have h1 : (e.take i ++ p :: e.drop i).Perm (p :: (e.take i ++ e.drop i)) :=
    List.perm_middle
  rwa [List.take_append_drop] at h1

theorem take_eq_takeWhile {e : List (Nat × Nat)} {q : Nat × Nat → Bool} :
    e.take (e.takeWhile q).length = e.takeWhile q :=
  ((List.prefix_iff_eq_take.mp (List.takeWhile_prefix q))).symm

theorem drop_eq_dropWhile {e : List (Nat × Nat)} {q : Nat × Nat → Bool} :
    e.drop (e.takeWhile q).length = e.dropWhile q := by
  have h1 : e.take (e.takeWhile q).length ++ e.drop (e.takeWhile q).length = e :=
    List.take_append_drop _ _
  have h2 : e.takeWhile q ++ e.dropWhile q = e := List.takeWhile_append_dropWhile q e
  rw [take_eq_takeWhile] at h1
  have := h1.trans h2.symm
  exact List.append_cancel_left this

theorem take_keys_lt {e : List (Nat × Nat)} {k : Nat} (hs : sKeys e) :
    ∀ p ∈ e.take (leafKeyIndex e k), p.1 < k := by
  intro p hp
  rw [leafKeyIndex_eq hs, take_eq_takeWhile] at hp
  have := List.mem_takeWhile_imp hp
  simpa using this

theorem drop_keys_ge {e : List (Nat × Nat)} {k : Nat} (hs : sKeys e) :
    ∀ p ∈ e.drop (leafKeyIndex e k), ¬p.1 < k := by
  intro p hp
  rw [leafKeyIndex_eq hs] at hp
  have hchar := fun i (hi : i < e.length) => sorted_count_iff (fun a => decide (a < k))
    (by intro a b hab hb2; simp only [decide_eq_true_eq] at hb2 ⊢; omega) e hs i hi
  obtain ⟨j, hj, hje⟩ := List.mem_iff_getElem.mp hp
  have hlen : (e.takeWhile (fun p => decide (p.1 < k))).length + j < e.length := by
    have := hj
    simp only [List.length_drop] at this
    omega
  have hq : e[(e.takeWhile (fun p => decide (p.1 < k))).length + j] =
      (e.drop (e.takeWhile (fun p => decide (p.1 < k))).length)[j] :=
    List.getElem_drop' e hlen
  intro hlt
  have h2 := (hchar _ hlen).mp (by
    rw [keyAtD_getElem hlen, hq, hje]
    simpa using hlt)
  omega

theorem insert_leaf_sorted {e : List (Nat × Nat)} {k v : Nat} (hs : sKeys e)
    (hfresh : ∀ p ∈ e, p.1 ≠ k) :
    sKeys (e.take (leafKeyIndex e k) ++ (k, v) :: e.drop (leafKeyIndex e k)) := by
  rw [sKeys, List.pairwise_append]
  refine ⟨hs.sublist (List.take_sublist _ _), ?_, ?_⟩
  · rw [List.pairwise_cons]
    refine ⟨?_, hs.sublist (List.drop_sublist _ _)⟩
    intro p hp
    have h1 := drop_keys_ge hs p hp
    have h2 := hfresh p ((List.drop_sublist _ _).subset hp)
    show k < p.1
    omega
  · intro a ha b hb
    have h1 := take_keys_lt hs a ha
    rcases List.mem_cons.mp hb with h | h
    · rw [h]
      exact h1
    · have h2 := drop_keys_ge hs b h
      show a.1 < b.1
      omega

/-! #### The insertion spine as an inductive path -/

/-- Basic store sanity carried across operations. -/
structure Base (s : BTree) : Prop where
  nd : (s.pages.map Prod.fst).Nodup
  lt : ∀ pid ∈ s.pages.map Prod.fst, pid < s.nextPid
  lm : 2 ≤ s.leafMax
  im : 3 ≤ s.internalMax

/-- A suffix of the descent path from the root `r` (height `H`) down to
the node `q` (height `h`, bounds `[lo, hi)`), following `Lookup` at key
`k`; `anc` lists the ancestors strictly above `q`. -/
inductive SpineTo (s : BTree) (k : Nat) (r : Nat) (H : Nat) :
    List Nat → Nat → Nat → Option Nat → Option Nat → Prop where
  | root : SpineTo s k r H [] H r none none
  | child : ∀ {anc : List Nat} {h : Nat} {par : Nat} {lo hi loq hi2 : Option Nat}
      {e : List (Nat × Nat)},
      SpineTo s k r H anc (h + 1) par lo hi →
      getPage s par = some (BTNode.internal e) →
      nodeOK s (h + 1) par lo hi →
      loOK lo k → hiLt hi k →
      PickZip (fun c a b => nodeOK s h c a b) k hi lo (valAtD e 0) (e.drop 1) loq hi2 →
      nodeOK s h (pickChild k (e.drop 1) (valAtD e 0)) loq hi2 →
      loOK loq k → hiLt hi2 k →
      SpineTo s k r H (anc ++ [par]) h (pickChild k (e.drop 1) (valAtD e 0)) loq hi2

theorem spineTo_nil_aux {s : BTree} {k r H h q : Nat} {lo hi : Option Nat}
    {anc : List Nat} (hsp : SpineTo s k r H anc h q lo hi) (hanc : anc = []) :
    q = r ∧ h = H ∧ lo = none ∧ hi = none := by
  cases hsp with
  | root => exact ⟨rfl, rfl, rfl, rfl⟩
  | child hsp2 _ _ _ _ _ _ _ _ => simp at hanc

/-- Inversion: an empty ancestor list means we are at the root. -/
theorem spineTo_nil {s : BTree} {k r H h q : Nat} {lo hi : Option Nat}
    (hsp : SpineTo s k r H [] h q lo hi) :
    q = r ∧ h = H ∧ lo = none ∧ hi = none :=
  spineTo_nil_aux hsp rfl

/-- Along the spine, the subtree pid set shrinks (as a sublist), and
below the root it avoids the root itself. -/
theorem spineTo_sub {s : BTree} {k r H : Nat} :
    ∀ {anc : List Nat} {h q : Nat} {lo hi : Option Nat},
      SpineTo s k r H anc h q lo hi →
      List.Sublist (subPids s h q) (subPids s H r) ∧
      (anc ≠ [] → List.Sublist (subPids s h q) ((subPids s H r).drop 1)) := by
  intro anc h q lo hi hsp
  induction hsp with
  | root => exact ⟨List.Sublist.refl _, fun hc => absurd rfl hc⟩
  | child hsp2 hpage hokp hlo hhi hzip hokq hloq hhiq ih =>
      rename_i anc2 h2 par lo2 hi2 loq2 hi22 e
      have hsubpar : List.Sublist (subPids s h2 (pickChild k (e.drop 1) (valAtD e 0)))
          (subPids s (h2 + 1) par) :=
        subPids_child_sublist hpage (pick_chCh _ _)
      have hdirect : List.Sublist (subPids s h2 (pickChild k (e.drop 1) (valAtD e 0)))
          ((subPids s (h2 + 1) par).drop 1) := by
        rw [subPids_succ hpage]
        exact pidsF_child_sublist (pick_chCh _ _)
      refine ⟨hsubpar.trans ih.1, fun _ => ?_⟩
      by_cases hanc : anc2 = []
      · subst hanc
        obtain ⟨hqr, hhH, _, _⟩ := spineTo_nil hsp2
        subst hqr
        subst hhH
        exact hdirect
      · exact hsubpar.trans (ih.2 hanc)

/-- The shape of the page set handed to `InsertInParentRW`: a suffix of
the descent path, cut below a node that was safe at descent time. -/
def StackRel (s0 : BTree) (path : List Nat) (stack : List Nat) : Prop :=
  ∃ j, j ≤ path.length - 1 ∧ stack = path.drop j ∧
    (j = 0 ∨ ∃ n, getPage s0 (path.getD j 0) = some n ∧ isSafe s0 n BOp.INSERT = true)

theorem getD_append_left2 {l l2 : List Nat} {j d : Nat} (h : j < l.length) :
    (l ++ l2).getD j d = l.getD j d := by
  rw [List.getD_eq_getElem?_getD, List.getD_eq_getElem?_getD]
  rw [List.getElem?_append_left h]

theorem getD_append_right2 {l l2 : List Nat} {j d : Nat} (h : l.length ≤ j) :
    (l ++ l2).getD j d = l2.getD (j - l.length) d := by
  rw [List.getD_eq_getElem?_getD, List.getD_eq_getElem?_getD]
  rw [List.getElem?_append_right h]

/-- The page-set fold of the write-mode descent satisfies `StackRel`
relative to the path walked. -/
theorem foldStack_rel {s0 : BTree} :
    ∀ (ch base stack : List Nat), base ≠ [] → StackRel s0 base stack →
      StackRel s0 (base ++ ch) (foldStack s0 BOp.INSERT stack ch) := by
  intro ch
  induction ch with
  | nil =>
      intro base stack _ hrel
      rw [List.append_nil]
      exact hrel
  | cons c t ih =>
      intro base stack hbase hrel
      obtain ⟨j, hj, hstack, hbound⟩ := hrel
      rw [foldStack]
      have hstep : StackRel s0 (base ++ [c])
          ((if clearAt s0 BOp.INSERT c then [] else stack) ++ [c]) := by
        by_cases hc : clearAt s0 BOp.INSERT c = true
        · rw [if_pos hc]
          refine ⟨base.length, by simp, ?_, ?_⟩
          · simp
          · right
            have : (base ++ [c]).getD base.length 0 = c := by
              rw [getD_append_right2 (Nat.le_refl _), Nat.sub_self]
              rfl
            rw [this]
            unfold clearAt at hc
            rcases hg : getPage s0 c with _ | n
            · rw [hg] at hc
              simp at hc
            · rw [hg] at hc
              dsimp only at hc
              exact ⟨n, rfl, hc⟩
        · rw [if_neg hc]
          have hjlen : j < base.length := by
            have := List.length_pos.mpr hbase
            omega
          refine ⟨j, by simp; omega, ?_, ?_⟩
          · rw [List.drop_append_of_le_length (by omega), hstack]
          · rcases hbound with h | ⟨n, hn, hsafe⟩
            · exact Or.inl h
            · exact Or.inr ⟨n, by rwa [getD_append_left2 hjlen], hsafe⟩
      have := ih (base ++ [c]) _ (by simp) hstep
      rwa [List.append_assoc, List.singleton_append] at this

/-! #### Decomposing a chain along the pick zipper -/

/-- The children named by the zipper suffix. -/
def sufCh : List (Nat × Nat) → List Nat
  | [] => []
  | (_, c2) :: t => chCh c2 t

def sufPids (sp : Nat → List Nat) : List (Nat × Nat) → List Nat
  | [] => []
  | (_, c2) :: t => pidsF sp c2 t

def sufCts (ct : Nat → List (Nat × Nat)) : List (Nat × Nat) → List (Nat × Nat)
  | [] => []
  | (_, c2) :: t => contentsF ct c2 t

theorem hole_nodeOK_of_mem {no : Nat → Option Nat → Option Nat → Prop} {hi2 : Option Nat} :
    ∀ {pre : List (Nat × Nat)} {lo : Option Nat} {c0 : Nat} {loq : Option Nat},
      chainHole no hi2 lo c0 pre loq → ∀ c ∈ holeCh c0 pre, ∃ a b, no c a b := by
  intro pre
  induction pre with
  | nil => intro lo c0 loq _ c hc; exact absurd hc (by simp [holeCh])
  | cons y t ih =>
      intro lo c0 loq hh c hc
      obtain ⟨k1, c1⟩ := y
      obtain ⟨h1, _, _, h4⟩ := hh
      simp only [holeCh, List.mem_cons] at hc
      rcases hc with h | h
      · exact ⟨lo, some k1, h ▸ h1⟩
      · exact ih h4 c h

theorem chain_nodeOK_of_mem {no : Nat → Option Nat → Option Nat → Prop} {hi : Option Nat} :
    ∀ {rest : List (Nat × Nat)} {lo : Option Nat} {c0 : Nat},
      childSeqF no hi lo c0 rest → ∀ c ∈ chCh c0 rest, ∃ a b, no c a b := by
  intro rest
  induction rest with
  | nil =>
      intro lo c0 hch c hc
      have : c = c0 := by simpa [chCh] using hc
      exact ⟨lo, hi, this ▸ hch⟩
  | cons y t ih =>
      intro lo c0 hch c hc
      obtain ⟨k1, c1⟩ := y
      obtain ⟨h1, _, _, h4⟩ := hch
      simp only [chCh, List.map_cons, List.mem_cons] at hc
      rcases hc with h | h
      · exact ⟨lo, some k1, h ▸ h1⟩
      · exact ih h4 c (by simp only [chCh, List.mem_cons]; exact h)

theorem hole_loq_some {no : Nat → Option Nat → Option Nat → Prop} {hi2 : Option Nat} :
    ∀ {pre : List (Nat × Nat)} {lo : Option Nat} {c0 : Nat} {loq : Option Nat},
      chainHole no hi2 lo c0 pre loq → pre ≠ [] → ∃ l, loq = some l := by
  intro pre
  induction pre with
  | nil => intro lo c0 loq _ hne; exact absurd rfl hne
  | cons y t ih =>
      intro lo c0 loq hh _
      obtain ⟨k1, c1⟩ := y
      obtain ⟨_, _, _, h4⟩ := hh
      cases t with
      | nil => exact ⟨k1, h4⟩
      | cons z t2 => exact ih h4 (by simp)

theorem pidsOf_mem {sp : Nat → List Nat} {x : Nat} :
    ∀ {l : List Nat}, x ∈ pidsOf sp l ↔ ∃ c ∈ l, x ∈ sp c := by
  intro l
  induction l with
  | nil => simp [pidsOf]
  | cons c t ih =>
      show x ∈ sp c ++ pidsOf sp t ↔ _
      rw [List.mem_append, ih]
      constructor
      · rintro (h | ⟨c2, hc2, h2⟩)
        · exact ⟨c, by simp, h⟩
        · exact ⟨c2, List.mem_cons_of_mem _ hc2, h2⟩
      · rintro ⟨c2, hc2, h2⟩
        rcases List.mem_cons.mp hc2 with h | h
        · exact Or.inl (h ▸ h2)
        · exact Or.inr ⟨c2, h, h2⟩

theorem sufPids_mem {sp : Nat → List Nat} {x : Nat} {suf : List (Nat × Nat)} :
    x ∈ sufPids sp suf ↔ ∃ c ∈ sufCh suf, x ∈ sp c := by
  cases suf with
  | nil => simp [sufPids, sufCh]
  | cons y t =>
      obtain ⟨k2, c2⟩ := y
      show x ∈ pidsF sp c2 t ↔ _
      rw [pidsF_mem]
      rfl

theorem sufPids_congr {sp sp2 : Nat → List Nat} {suf : List (Nat × Nat)}
    (hm : ∀ c ∈ sufCh suf, sp2 c = sp c) : sufPids sp2 suf = sufPids sp suf := by
  cases suf with
  | nil => rfl
  | cons y t =>
      obtain ⟨k2, c2⟩ := y
      exact pidsF_congr hm

theorem sufCts_congr {ct ct2 : Nat → List (Nat × Nat)} {suf : List (Nat × Nat)}
    (hm : ∀ c ∈ sufCh suf, ct2 c = ct c) : sufCts ct2 suf = sufCts ct suf := by
  cases suf with
  | nil => rfl
  | cons y t =>
      obtain ⟨k2, c2⟩ := y
      exact contentsF_congr hm

theorem pidsF_zip {sp : Nat → List Nat} (pre suf : List (Nat × Nat)) (c0 : Nat) :
    pidsF sp c0 (pre ++ suf) =
      pidsOf sp (holeCh c0 pre) ++ sp (chLast c0 pre) ++ sufPids sp suf := by
  cases suf with
  | nil =>
      rw [List.append_nil, pidsF_hole]
      show _ = _ ++ []
      rw [List.append_nil]
  | cons y t =>
      obtain ⟨k2, c2⟩ := y
      rw [pidsF_append_cons, pidsF_hole]
      rfl

theorem ctsF_zip {ct : Nat → List (Nat × Nat)} (pre suf : List (Nat × Nat)) (c0 : Nat) :
    contentsF ct c0 (pre ++ suf) =
      ctsOf ct (holeCh c0 pre) ++ ct (chLast c0 pre) ++ sufCts ct suf := by
  cases suf with
  | nil =>
      rw [List.append_nil, contentsF_hole]
      show _ = _ ++ []
      rw [List.append_nil]
  | cons y t =>
      obtain ⟨k2, c2⟩ := y
      rw [contentsF_append_cons, contentsF_hole]
      rfl

theorem pidsF_zip_ins {sp : Nat → List Nat} {sk B : Nat}
    (pre suf : List (Nat × Nat)) (c0 : Nat) :
    pidsF sp c0 (pre ++ (sk, B) :: suf) =
      pidsOf sp (holeCh c0 pre) ++ (sp (chLast c0 pre) ++ sp B) ++ sufPids sp suf := by
  rw [pidsF_append_cons]
  rw [pidsF_hole]
  cases suf with
  | nil =>
      show _ ++ sp B = _
      simp [sufPids, List.append_assoc]
  | cons y t =>
      obtain ⟨k2, c2⟩ := y
      show _ ++ (sp B ++ pidsF sp c2 t) = _
      simp [sufPids, List.append_assoc]

theorem ctsF_zip_ins {ct : Nat → List (Nat × Nat)} {sk B : Nat}
    (pre suf : List (Nat × Nat)) (c0 : Nat) :
    contentsF ct c0 (pre ++ (sk, B) :: suf) =
      ctsOf ct (holeCh c0 pre) ++ (ct (chLast c0 pre) ++ ct B) ++ sufCts ct suf := by
  rw [contentsF_append_cons]
  rw [contentsF_hole]
  cases suf with
  | nil =>
      show _ ++ ct B = _
      simp [sufCts, List.append_assoc]
  | cons y t =>
      obtain ⟨k2, c2⟩ := y
      show _ ++ (ct B ++ contentsF ct c2 t) = _
      simp [sufCts, List.append_assoc]

theorem perm_insert_block {p : Nat × Nat} {A B C C2 : List (Nat × Nat)}
    (h : C2.Perm (p :: C)) :
    (A ++ C2 ++ B).Perm (p :: (A ++ C ++ B)) := by
  rw [List.append_assoc, List.append_assoc]
  have h1 : (A ++ (C2 ++ B)).Perm (A ++ ((p :: C) ++ B)) :=
    (h.append_right B).append_left A
  refine h1.trans ?_
  have h2 : A ++ ((p :: C) ++ B) = A ++ p :: (C ++ B) := rfl
  rw [h2]
  exact List.perm_middle

/-- Rebuild the chain after the picked child's node is replaced in
place (same bounds). -/
theorem rebuild_chain_replace {no no2 : Nat → Option Nat → Option Nat → Prop}
    {hi hi2 lo loq : Option Nat} {c0 k : Nat} {pre suf : List (Nat × Nat)}
    (hhole : chainHole no hi2 lo c0 pre loq)
    (hsufd : (suf = [] ∧ hi2 = hi) ∨
      (∃ k2 c2 t, suf = (k2, c2) :: t ∧ hi2 = some k2 ∧ k < k2 ∧ loLt lo k2 ∧
        loLt loq k2 ∧ hiLt hi k2 ∧ childSeqF no hi (some k2) c2 t))
    (hfrh : ∀ c ∈ holeCh c0 pre, ∀ a b, no c a b → no2 c a b)
    (hfrs : ∀ c ∈ sufCh suf, ∀ a b, no c a b → no2 c a b)
    (hq : no2 (chLast c0 pre) loq hi2) :
    childSeqF no2 hi lo c0 (pre ++ suf) := by
  rcases hsufd with ⟨hnil, hhh⟩ | ⟨k2, c2, t, hsuf2, hh2, _, hlok2, _, hhik2, hcht⟩
  · subst hnil
    subst hhh
    rw [List.append_nil]
    exact hole_to_chain (hole_mono hfrh hhole) hq
  · subst hsuf2
    subst hh2
    refine chain_join (hole_to_chain (hole_mono hfrh hhole) hq) hlok2 hhik2 ?_
    exact childSeqF_mono_mem (fun c hc a b => hfrs c hc a b) hcht

/-- Rebuild the chain after the picked child splits into two nodes with
separator `sk`. -/
theorem rebuild_chain_insert {no no2 : Nat → Option Nat → Option Nat → Prop}
    {hi hi2 lo loq : Option Nat} {c0 k sk B : Nat} {pre suf : List (Nat × Nat)}
    (hhole : chainHole no hi2 lo c0 pre loq)
    (hsufd : (suf = [] ∧ hi2 = hi) ∨
      (∃ k2 c2 t, suf = (k2, c2) :: t ∧ hi2 = some k2 ∧ k < k2 ∧ loLt lo k2 ∧
        loLt loq k2 ∧ hiLt hi k2 ∧ childSeqF no hi (some k2) c2 t))
    (hfrh : ∀ c ∈ holeCh c0 pre, ∀ a b, no c a b → no2 c a b)
    (hfrs : ∀ c ∈ sufCh suf, ∀ a b, no c a b → no2 c a b)
    (hcur : no2 (chLast c0 pre) loq (some sk))
    (hB : no2 B (some sk) hi2)
    (hlosk : loLt loq sk) (hhisk : hiLt hi2 sk) :
    childSeqF no2 hi lo c0 (pre ++ (sk, B) :: suf) := by
  have hhole2 : chainHole no2 hi2 lo c0 (pre ++ [(sk, B)]) (some sk) :=
    hole_snoc (hole_mono hfrh hhole) hcur hlosk hhisk
  have hchpre : childSeqF no2 hi2 lo c0 (pre ++ [(sk, B)]) := by
    refine hole_to_chain hhole2 ?_
    rw [chLast_concat]
    exact hB
  rcases hsufd with ⟨hnil, hhh⟩ | ⟨k2, c2, t, hsuf2, hh2, _, hlok2, _, hhik2, hcht⟩
  · subst hnil
    subst hhh
    rw [show pre ++ (sk, B) :: ([] : List (Nat × Nat)) = pre ++ [(sk, B)] from rfl]
    exact hchpre
  · subst hsuf2
    subst hh2
    have hjoin := chain_join hchpre hlok2 hhik2
      (childSeqF_mono_mem (fun c hc a b => hfrs c hc a b) hcht)
    rwa [List.append_assoc, List.singleton_append] at hjoin

theorem subPids_self {s : BTree} {h pid : Nat} : pid ∈ subPids s h pid := by
  cases h with
  | zero => simp [subPids]
  | succ g => simp [subPids]

/-! #### One parent level of the rebuild -/

/-- Frames and disjointness for the untouched children of a parent
whose picked child (and only it) was rewritten. -/
theorem parent_pack {s0 s2 : BTree} {h : Nat} {par : Nat} {e : List (Nat × Nat)}
    {lo hi loq hi2 : Option Nat} {k : Nat} {pre suf : List (Nat × Nat)}
    (hB0 : Base s0)
    (hpage : getPage s0 par = some (BTNode.internal e))
    (hokp : nodeOK s0 (h + 1) par lo hi)
    (hndpar : (subPids s0 (h + 1) par).Nodup)
    (hrest : e.drop 1 = pre ++ suf)
    (hhole : chainHole (fun c a b => nodeOK s0 h c a b) hi2 lo (valAtD e 0) pre loq)
    (hsufd : (suf = [] ∧ hi2 = hi) ∨
      (∃ k2 c2 t, suf = (k2, c2) :: t ∧ hi2 = some k2 ∧ k < k2 ∧ loLt lo k2 ∧
        loLt loq k2 ∧ hiLt hi k2 ∧
        childSeqF (fun c a b => nodeOK s0 h c a b) hi (some k2) c2 t))
    (hlm2 : s2.leafMax = s0.leafMax) (him2 : s2.internalMax = s0.internalMax)
    (hag : ∀ x, x ∉ subPids s0 h (chLast (valAtD e 0) pre) → x < s0.nextPid →
      getPage s2 x = getPage s0 x) :
    (∀ c ∈ holeCh (valAtD e 0) pre, ∀ a b, nodeOK s0 h c a b → nodeOK s2 h c a b) ∧
    (∀ c ∈ sufCh suf, ∀ a b, nodeOK s0 h c a b → nodeOK s2 h c a b) ∧
    (∀ c ∈ holeCh (valAtD e 0) pre, subPids s2 h c = subPids s0 h c ∧
      subContents s2 h c = subContents s0 h c) ∧
    (∀ c ∈ sufCh suf, subPids s2 h c = subPids s0 h c ∧
      subContents s2 h c = subContents s0 h c) ∧
    getPage s2 par = getPage s0 par ∧
    par < s0.nextPid ∧
    (∀ x ∈ pidsOf (fun c => subPids s0 h c) (holeCh (valAtD e 0) pre),
      x ∈ subPids s0 (h + 1) par ∧ x < s0.nextPid ∧
      x ∉ subPids s0 h (chLast (valAtD e 0) pre) ∧ x ≠ par) ∧
    (∀ x ∈ sufPids (fun c => subPids s0 h c) suf,
      x ∈ subPids s0 (h + 1) par ∧ x < s0.nextPid ∧
      x ∉ subPids s0 h (chLast (valAtD e 0) pre) ∧ x ≠ par) ∧
    (∀ x ∈ subPids s0 h (chLast (valAtD e 0) pre),
      x ∈ subPids s0 (h + 1) par ∧ x < s0.nextPid ∧ x ≠ par) ∧
    (pidsOf (fun c => subPids s0 h c) (holeCh (valAtD e 0) pre)).Nodup ∧
    (sufPids (fun c => subPids s0 h c) suf).Nodup ∧
    (∀ x ∈ pidsOf (fun c => subPids s0 h c) (holeCh (valAtD e 0) pre),
      x ∉ sufPids (fun c => subPids s0 h c) suf) := by
  have hdec : subPids s0 (h + 1) par =
      par :: (pidsOf (fun c => subPids s0 h c) (holeCh (valAtD e 0) pre) ++
        subPids s0 h (chLast (valAtD e 0) pre) ++
        sufPids (fun c => subPids s0 h c) suf) := by
    rw [subPids_succ hpage, hrest, pidsF_zip]
  have hnd2 := hdec ▸ hndpar
  rw [List.nodup_cons] at hnd2
  obtain ⟨hparno, hnd3⟩ := hnd2
  rw [List.nodup_append, List.nodup_append] at hnd3
  obtain ⟨⟨ndA, ndQ, dAQ⟩, ndS, dAQS⟩ := hnd3
  have hmemx : ∀ x, x ∈ pidsOf (fun c => subPids s0 h c) (holeCh (valAtD e 0) pre) ∨
      x ∈ subPids s0 h (chLast (valAtD e 0) pre) ∨
      x ∈ sufPids (fun c => subPids s0 h c) suf →
      x ∈ subPids s0 (h + 1) par ∧ x < s0.nextPid ∧ x ≠ par := by
    intro x hx
    have hxin : x ∈ subPids s0 (h + 1) par := by
      rw [hdec]
      refine List.mem_cons_of_mem _ ?_
      rcases hx with h1 | h1 | h1
      · exact List.mem_append_left _ (List.mem_append_left _ h1)
      · exact List.mem_append_left _ (List.mem_append_right _ h1)
      · exact List.mem_append_right _ h1
    obtain ⟨n, hn⟩ := subPids_pages (h + 1) hokp x hxin
    refine ⟨hxin, hB0.lt x (getPage_mem hn), ?_⟩
    intro hxe
    subst hxe
    apply hparno
    rcases hx with h1 | h1 | h1
    · exact List.mem_append_left _ (List.mem_append_left _ h1)
    · exact List.mem_append_left _ (List.mem_append_right _ h1)
    · exact List.mem_append_right _ h1
  have hAfacts : ∀ x ∈ pidsOf (fun c => subPids s0 h c) (holeCh (valAtD e 0) pre),
      x ∈ subPids s0 (h + 1) par ∧ x < s0.nextPid ∧
      x ∉ subPids s0 h (chLast (valAtD e 0) pre) ∧ x ≠ par := by
    intro x hx
    obtain ⟨h1, h2, h3⟩ := hmemx x (Or.inl hx)
    exact ⟨h1, h2, fun hq => dAQ hx hq, h3⟩
  have hSfacts : ∀ x ∈ sufPids (fun c => subPids s0 h c) suf,
      x ∈ subPids s0 (h + 1) par ∧ x < s0.nextPid ∧
      x ∉ subPids s0 h (chLast (valAtD e 0) pre) ∧ x ≠ par := by
    intro x hx
    obtain ⟨h1, h2, h3⟩ := hmemx x (Or.inr (Or.inr hx))
    refine ⟨h1, h2, ?_, h3⟩
    intro hq
    exact dAQS (List.mem_append_right _ hq) hx
  have hQfacts : ∀ x ∈ subPids s0 h (chLast (valAtD e 0) pre),
      x ∈ subPids s0 (h + 1) par ∧ x < s0.nextPid ∧ x ≠ par := by
    intro x hx
    exact hmemx x (Or.inr (Or.inl hx))
  have hagA : ∀ c ∈ holeCh (valAtD e 0) pre, ∀ y ∈ subPids s0 h c,
      getPage s2 y = getPage s0 y := by
    intro c hc y hy
    have hyA : y ∈ pidsOf (fun c2 => subPids s0 h c2) (holeCh (valAtD e 0) pre) :=
      pidsOf_mem.mpr ⟨c, hc, hy⟩
    obtain ⟨_, h2, h3, _⟩ := hAfacts y hyA
    exact hag y h3 h2
  have hagS : ∀ c ∈ sufCh suf, ∀ y ∈ subPids s0 h c,
      getPage s2 y = getPage s0 y := by
    intro c hc y hy
    have hyS : y ∈ sufPids (fun c2 => subPids s0 h c2) suf :=
      sufPids_mem.mpr ⟨c, hc, hy⟩
    obtain ⟨_, h2, h3, _⟩ := hSfacts y hyS
    exact hag y h3 h2
  have hnoS : ∀ c ∈ sufCh suf, ∃ a b, nodeOK s0 h c a b := by
    intro c hc
    rcases hsufd with ⟨hnil, _⟩ | ⟨k2, c2, t, hsuf2, _, _, _, _, _, hcht⟩
    · subst hnil
      exact absurd hc (by simp [sufCh])
    · subst hsuf2
      exact chain_nodeOK_of_mem hcht c hc
  refine ⟨?_, ?_, ?_, ?_, ?_, ?_, hAfacts, hSfacts, hQfacts, ndA, ndS,
    fun x hx hxs => dAQS (List.mem_append_left _ hx) hxs⟩
  · intro c hc a b hok2
    exact nodeOK_frame h hlm2 him2 (hagA c hc) hok2
  · intro c hc a b hok2
    exact nodeOK_frame h hlm2 him2 (hagS c hc) hok2
  · intro c hc
    obtain ⟨a, b, hok2⟩ := hole_nodeOK_of_mem hhole c hc
    exact ⟨subPids_frame h hok2 (hagA c hc), subContents_frame h hok2 (hagA c hc)⟩
  · intro c hc
    obtain ⟨a, b, hok2⟩ := hnoS c hc
    exact ⟨subPids_frame h hok2 (hagS c hc), subContents_frame h hok2 (hagS c hc)⟩
  · have hparin : par ∈ subPids s0 (h + 1) par := by
      rw [hdec]
      exact List.mem_cons_self _ _
    obtain ⟨n, hn⟩ := subPids_pages (h + 1) hokp par hparin
    have hparq : par ∉ subPids s0 h (chLast (valAtD e 0) pre) := by
      intro hq
      exact (hQfacts par hq).2.2 rfl
    exact hag par hparq (hB0.lt par (getPage_mem hn))
  · have hparin : par ∈ subPids s0 (h + 1) par := by
      rw [hdec]
      exact List.mem_cons_self _ _
    obtain ⟨n, hn⟩ := subPids_pages (h + 1) hokp par hparin
    exact hB0.lt par (getPage_mem hn)

/-- Replace-in-place step: the picked child was rewritten with the same
bounds, the parent's node is untouched; the parent's subtree regains
well-formedness with contents extended by the new pair. -/
theorem parent_step_replace {s0 s2 : BTree} {h par k v : Nat} {e : List (Nat × Nat)}
    {lo hi loq hi2 : Option Nat}
    (hB0 : Base s0)
    (hpage : getPage s0 par = some (BTNode.internal e))
    (hokp : nodeOK s0 (h + 1) par lo hi)
    (hndpar : (subPids s0 (h + 1) par).Nodup)
    (hzip : PickZip (fun c a b => nodeOK s0 h c a b) k hi lo (valAtD e 0)
      (e.drop 1) loq hi2)
    (hlm2 : s2.leafMax = s0.leafMax) (him2 : s2.internalMax = s0.internalMax)
    (hag : ∀ x, x ∉ subPids s0 h (pickChild k (e.drop 1) (valAtD e 0)) →
      x < s0.nextPid → getPage s2 x = getPage s0 x)
    (hokq2 : nodeOK s2 h (pickChild k (e.drop 1) (valAtD e 0)) loq hi2)
    (hperm : (subContents s2 h (pickChild k (e.drop 1) (valAtD e 0))).Perm
      ((k, v) :: subContents s0 h (pickChild k (e.drop 1) (valAtD e 0))))
    (hndq : (subPids s2 h (pickChild k (e.drop 1) (valAtD e 0))).Nodup)
    (hcontq : ∀ x ∈ subPids s2 h (pickChild k (e.drop 1) (valAtD e 0)),
      x ∈ subPids s0 h (pickChild k (e.drop 1) (valAtD e 0)) ∨
        (s0.nextPid ≤ x ∧ x < s2.nextPid))
    (hpgq : ∀ x ∈ subPids s2 h (pickChild k (e.drop 1) (valAtD e 0)),
      x ∈ s2.pages.map Prod.fst) :
    nodeOK s2 (h + 1) par lo hi ∧
    (subContents s2 (h + 1) par).Perm ((k, v) :: subContents s0 (h + 1) par) ∧
    (subPids s2 (h + 1) par).Nodup ∧
    (∀ x ∈ subPids s2 (h + 1) par,
      x ∈ subPids s0 (h + 1) par ∨ (s0.nextPid ≤ x ∧ x < s2.nextPid)) ∧
    (∀ x ∈ subPids s2 (h + 1) par, x ∈ s2.pages.map Prod.fst) := by
  obtain ⟨pre, suf, hrest, hhole, hpickq, hloqk, hsufd⟩ := hzip
  rw [hpickq] at hag hokq2 hperm hndq hcontq hpgq
  obtain ⟨hfrh, hfrs, htrh, htrs, hgpar, hparlt, hAfacts, hSfacts, hQfacts, ndA, ndS,
    dAS⟩ := parent_pack hB0 hpage hokp hndpar hrest hhole hsufd hlm2 him2 hag
  have hgpar2 : getPage s2 par = some (BTNode.internal e) := hgpar.trans hpage
  obtain ⟨e2, hpage2, he1, he2, hchain⟩ := hokp
  have hee : e = e2 := by
    rw [hpage] at hpage2
    exact (BTNode.internal.injEq _ _).mp ((Option.some.injEq _ _).mp hpage2)
  subst hee
  have hchain2 : childSeqF (fun c a b => nodeOK s2 h c a b) hi lo (valAtD e 0)
      (e.drop 1) := by
    rw [hrest]
    exact rebuild_chain_replace hhole hsufd hfrh hfrs hokq2
  have hctA : ctsOf (fun c => subContents s2 h c) (holeCh (valAtD e 0) pre) =
      ctsOf (fun c => subContents s0 h c) (holeCh (valAtD e 0) pre) :=
    ctsOf_congr (fun c hc => (htrh c hc).2)
  have hctS : sufCts (fun c => subContents s2 h c) suf =
      sufCts (fun c => subContents s0 h c) suf :=
    sufCts_congr (fun c hc => (htrs c hc).2)
  have hspA : pidsOf (fun c => subPids s2 h c) (holeCh (valAtD e 0) pre) =
      pidsOf (fun c => subPids s0 h c) (holeCh (valAtD e 0) pre) :=
    pidsOf_congr (fun c hc => (htrh c hc).1)
  have hspS : sufPids (fun c => subPids s2 h c) suf =
      sufPids (fun c => subPids s0 h c) suf :=
    sufPids_congr (fun c hc => (htrs c hc).1)
  have hct2 : subContents s2 (h + 1) par =
      ctsOf (fun c => subContents s0 h c) (holeCh (valAtD e 0) pre) ++
        subContents s2 h (chLast (valAtD e 0) pre) ++
        sufCts (fun c => subContents s0 h c) suf := by
    rw [subContents_succ hgpar2, hrest, ctsF_zip, hctA, hctS]
  have hct0 : subContents s0 (h + 1) par =
      ctsOf (fun c => subContents s0 h c) (holeCh (valAtD e 0) pre) ++
        subContents s0 h (chLast (valAtD e 0) pre) ++
        sufCts (fun c => subContents s0 h c) suf := by
    rw [subContents_succ hpage, hrest, ctsF_zip]
  have hsp2 : subPids s2 (h + 1) par =
      par :: (pidsOf (fun c => subPids s0 h c) (holeCh (valAtD e 0) pre) ++
        subPids s2 h (chLast (valAtD e 0) pre) ++
        sufPids (fun c => subPids s0 h c) suf) := by
    rw [subPids_succ hgpar2, hrest, pidsF_zip, hspA, hspS]
  have hsp0 : subPids s0 (h + 1) par =
      par :: (pidsOf (fun c => subPids s0 h c) (holeCh (valAtD e 0) pre) ++
        subPids s0 h (chLast (valAtD e 0) pre) ++
        sufPids (fun c => subPids s0 h c) suf) := by
    rw [subPids_succ hpage, hrest, pidsF_zip]
  refine ⟨⟨e, hgpar2, he1, by rw [him2]; exact he2, hchain2⟩, ?_, ?_, ?_, ?_⟩
  · rw [hct2, hct0]
    exact perm_insert_block hperm
  · rw [hsp2]
    rw [List.nodup_cons, List.nodup_append, List.nodup_append]
    refine ⟨?_, ⟨ndA, hndq, ?_⟩, ndS, ?_⟩
    · intro hmem
      rcases List.mem_append.mp hmem with h1 | h1
      · rcases List.mem_append.mp h1 with h2 | h2
        · exact (hAfacts par h2).2.2.2 rfl
        · rcases hcontq par h2 with h3 | h3
          · exact (hQfacts par h3).2.2 rfl
          · omega
      · exact (hSfacts par h1).2.2.2 rfl
    · intro x hx hx2
      rcases hcontq x hx2 with h3 | h3
      · exact (hAfacts x hx).2.2.1 h3
      · have := (hAfacts x hx).2.1
        omega
    · intro x hx hxS
      rcases List.mem_append.mp hx with h1 | h1
      · exact dAS x h1 hxS
      · rcases hcontq x h1 with h3 | h3
        · exact (hSfacts x hxS).2.2.1 h3
        · have := (hSfacts x hxS).2.1
          omega
  · intro x hx
    rw [hsp2] at hx
    rcases List.mem_cons.mp hx with h1 | h1
    · subst h1
      left
      rw [hsp0]
      exact List.mem_cons_self _ _
    · rcases List.mem_append.mp h1 with h2 | h2
      · rcases List.mem_append.mp h2 with h3 | h3
        · exact Or.inl (hAfacts x h3).1
        · rcases hcontq x h3 with h4 | h4
          · exact Or.inl (hQfacts x h4).1
          · exact Or.inr h4
      · exact Or.inl (hSfacts x h2).1
  · intro x hx
    rw [hsp2] at hx
    rcases List.mem_cons.mp hx with h1 | h1
    · subst h1
      exact getPage_mem hgpar2
    · rcases List.mem_append.mp h1 with h2 | h2
      · rcases List.mem_append.mp h2 with h3 | h3
        · obtain ⟨hin, hlt, hnq, _⟩ := hAfacts x h3
          obtain ⟨n, hn⟩ := subPids_pages (h + 1) ⟨e, hpage, he1, he2, hchain⟩ x hin
          exact getPage_mem ((hag x hnq hlt).trans hn)
        · exact hpgq x h3
      · obtain ⟨hin, hlt, hnq, _⟩ := hSfacts x h2
        obtain ⟨n, hn⟩ := subPids_pages (h + 1) ⟨e, hpage, he1, he2, hchain⟩ x hin
        exact getPage_mem ((hag x hnq hlt).trans hn)

/-- Propagate a pure in-place subtree replacement (contents extended by
one pair) up the spine to the root. -/
theorem replace_up {s0 : BTree} {k v r0 H0 : Nat}
    (hB0 : Base s0) (hnd0 : (subPids s0 H0 r0).Nodup) :
    ∀ {anc : List Nat} {hq q : Nat} {lo hi : Option Nat},
      SpineTo s0 k r0 H0 anc hq q lo hi →
      ∀ (s2 : BTree),
        s2.leafMax = s0.leafMax → s2.internalMax = s0.internalMax →
        s0.nextPid ≤ s2.nextPid →
        (∀ x, x ∉ subPids s0 hq q → x < s0.nextPid → getPage s2 x = getPage s0 x) →
        nodeOK s2 hq q lo hi →
        (subContents s2 hq q).Perm ((k, v) :: subContents s0 hq q) →
        (subPids s2 hq q).Nodup →
        (∀ x ∈ subPids s2 hq q,
          x ∈ subPids s0 hq q ∨ (s0.nextPid ≤ x ∧ x < s2.nextPid)) →
        (∀ x ∈ subPids s2 hq q, x ∈ s2.pages.map Prod.fst) →
        nodeOK s2 H0 r0 none none ∧
        (subContents s2 H0 r0).Perm ((k, v) :: subContents s0 H0 r0) ∧
        (subPids s2 H0 r0).Nodup ∧
        (∀ x ∈ subPids s2 H0 r0, x ∈ s2.pages.map Prod.fst) := by
  intro anc hq q lo hi hsp
  induction hsp with
  | root =>
      intro s2 _ _ _ _ hok2 hperm hnd2 _ hpg2
      exact ⟨hok2, hperm, hnd2, hpg2⟩
  | child hsp2 hpage hokp hlo hhi hzip hokq hloq hhiq ih =>
      rename_i anc2 h2 par lo2 hi2 loq2 hi22 e2
      intro s2 hlm2 him2 hnp2 hag hok2 hperm hnd2 hcont2 hpg2
      have hndpar := (spineTo_sub hsp2).1.nodup hnd0
      have hagp : ∀ x, x ∉ subPids s0 (h2 + 1) par → x < s0.nextPid →
          getPage s2 x = getPage s0 x := by
        intro x hx hlt
        refine hag x ?_ hlt
        intro hxq
        exact hx ((subPids_child_sublist hpage (pick_chCh _ _)).subset hxq)
      obtain ⟨hoknew, hpermnew, hndnew, hcontnew, hpgnew⟩ := parent_step_replace hB0
        hpage hokp hndpar hzip hlm2 him2 hag hok2 hperm hnd2 hcont2 hpg2
      exact ih s2 hlm2 him2 hnp2 hagp hoknew hpermnew hndnew hcontnew hpgnew

theorem setPage_leafMax {s : BTree} {pid : Nat} {n : BTNode} :
    (setPage s pid n).leafMax = s.leafMax := rfl

theorem setPage_internalMax {s : BTree} {pid : Nat} {n : BTNode} :
    (setPage s pid n).internalMax = s.internalMax := rfl

theorem setPage_root {s : BTree} {pid : Nat} {n : BTNode} :
    (setPage s pid n).root = s.root := rfl

theorem setPage_nextPid {s : BTree} {pid : Nat} {n : BTNode} :
    (setPage s pid n).nextPid = s.nextPid := rfl

theorem newPage_leafMax {s : BTree} {n : BTNode} :
    (newPage s n).1.leafMax = s.leafMax := rfl

theorem newPage_internalMax {s : BTree} {n : BTNode} :
    (newPage s n).1.internalMax = s.internalMax := rfl

theorem newPage_root {s : BTree} {n : BTNode} :
    (newPage s n).1.root = s.root := rfl

theorem newPage_nextPid {s : BTree} {n : BTNode} :
    (newPage s n).1.nextPid = s.nextPid + 1 := rfl

/-- Insert step: the picked child split into two (`pick` and `B` with
separator `sk`), and the parent has room, so `InsertInParentRW` writes
the separator into the parent in place. -/
theorem parent_step_insert {s0 s2 : BTree} {h par k v sk B : Nat} {e : List (Nat × Nat)}
    {lo hi loq hi2 : Option Nat}
    (hB0 : Base s0)
    (hpage : getPage s0 par = some (BTNode.internal e))
    (hokp : nodeOK s0 (h + 1) par lo hi)
    (hndpar : (subPids s0 (h + 1) par).Nodup)
    (hzip : PickZip (fun c a b => nodeOK s0 h c a b) k hi lo (valAtD e 0)
      (e.drop 1) loq hi2)
    (hlm2 : s2.leafMax = s0.leafMax) (him2 : s2.internalMax = s0.internalMax)
    (hag : ∀ x, x ∉ subPids s0 h (pickChild k (e.drop 1) (valAtD e 0)) →
      x < s0.nextPid → getPage s2 x = getPage s0 x)
    (hokc : nodeOK s2 h (pickChild k (e.drop 1) (valAtD e 0)) loq (some sk))
    (hokB : nodeOK s2 h B (some sk) hi2)
    (hlosk : loLt loq sk) (hhisk : hiLt hi2 sk)
    (hperm : (subContents s2 h (pickChild k (e.drop 1) (valAtD e 0)) ++
      subContents s2 h B).Perm
      ((k, v) :: subContents s0 h (pickChild k (e.drop 1) (valAtD e 0))))
    (hnd2 : (subPids s2 h (pickChild k (e.drop 1) (valAtD e 0)) ++
      subPids s2 h B).Nodup)
    (hcont2 : ∀ x ∈ subPids s2 h (pickChild k (e.drop 1) (valAtD e 0)) ++
      subPids s2 h B,
      x ∈ subPids s0 h (pickChild k (e.drop 1) (valAtD e 0)) ∨
        (s0.nextPid ≤ x ∧ x < s2.nextPid))
    (hpg2 : ∀ x ∈ subPids s2 h (pickChild k (e.drop 1) (valAtD e 0)) ++
      subPids s2 h B, x ∈ s2.pages.map Prod.fst)
    (hlt : e.length < s0.internalMax) :
    nodeOK (setPage s2 par (BTNode.internal (internalInsert e (sk, B)))) (h + 1)
      par lo hi ∧
    (subContents (setPage s2 par (BTNode.internal (internalInsert e (sk, B))))
      (h + 1) par).Perm ((k, v) :: subContents s0 (h + 1) par) ∧
    (subPids (setPage s2 par (BTNode.internal (internalInsert e (sk, B))))
      (h + 1) par).Nodup ∧
    (∀ x ∈ subPids (setPage s2 par (BTNode.internal (internalInsert e (sk, B))))
      (h + 1) par,
      x ∈ subPids s0 (h + 1) par ∨ (s0.nextPid ≤ x ∧ x < s2.nextPid)) ∧
    (∀ x ∈ subPids (setPage s2 par (BTNode.internal (internalInsert e (sk, B))))
      (h + 1) par,
      x ∈ (setPage s2 par
        (BTNode.internal (internalInsert e (sk, B)))).pages.map Prod.fst) := by
  obtain ⟨pre, suf, hrest, hhole, hpickq, hloqk, hsufd⟩ := hzip
  rw [hpickq] at hag hokc hperm hnd2 hcont2 hpg2
  obtain ⟨hfrh, hfrs, htrh, htrs, hgpar, hparlt, hAfacts, hSfacts, hQfacts, ndA, ndS,
    dAS⟩ := parent_pack hB0 hpage hokp hndpar hrest hhole hsufd hlm2 him2 hag
  have hgpar2 : getPage s2 par = some (BTNode.internal e) := hgpar.trans hpage
  have hparmem2 : par ∈ s2.pages.map Prod.fst := getPage_mem hgpar2
  obtain ⟨e2, hpage2, he1, he2len, hchain0⟩ := hokp
  have hee : e = e2 := by
    rw [hpage] at hpage2
    exact (BTNode.internal.injEq _ _).mp ((Option.some.injEq _ _).mp hpage2)
  subst hee
  obtain ⟨e0, rest0, rfl⟩ : ∃ e0 rest0, e = e0 :: rest0 := by
    cases e with
    | nil => exact absurd he1 (by simp)
    | cons e0 rest0 => exact ⟨e0, rest0, rfl⟩
  simp only [List.drop_one, List.tail_cons] at hrest
  subst hrest
  have hprelt : ∀ x ∈ pre, x.1 < sk := by
    intro x hx
    have hne : pre ≠ [] := by
      intro hh
      subst hh
      exact absurd hx (by simp)
    obtain ⟨l, hl⟩ := hole_loq_some hhole hne
    have := hole_keys hhole x hx l hl
    have := hlosk l hl
    omega
  have hsufgt : ∀ x ∈ suf, sk < x.1 := by
    intro x hx
    rcases hsufd with ⟨hnil, _⟩ | ⟨k2, c2, t, hsuf2, hh2, _, _, _, _, hcht⟩
    · subst hnil
      exact absurd hx (by simp)
    · subst hsuf2
      have hskk2 : sk < k2 := by
        have := hhisk k2
        rw [hh2] at this
        exact this rfl
      rcases List.mem_cons.mp hx with hh | hh
      · rw [hh]
        exact hskk2
      · have := chain_keys_gt hcht x hh k2 rfl
        omega
  have hins : internalInsert (e0 :: (pre ++ suf)) (sk, B) =
      e0 :: (pre ++ (sk, B) :: suf) := internalInsert_at pre suf hprelt hsufgt
  rw [hins]
  have hpar3 : getPage (setPage s2 par (BTNode.internal (e0 :: (pre ++ (sk, B) :: suf))))
      par = some (BTNode.internal (e0 :: (pre ++ (sk, B) :: suf))) :=
    getPage_set_self hparmem2
  have hagq3 : ∀ y ∈ subPids s2 h (chLast (valAtD (e0 :: (pre ++ suf)) 0) pre),
      getPage (setPage s2 par (BTNode.internal (e0 :: (pre ++ (sk, B) :: suf)))) y =
        getPage s2 y := by
    intro y hy
    rcases hcont2 y (List.mem_append_left _ hy) with h1 | h1
    · exact getPage_set_ne (hQfacts y h1).2.2
    · refine getPage_set_ne ?_
      intro hh
      subst hh
      omega
  have hagB3 : ∀ y ∈ subPids s2 h B,
      getPage (setPage s2 par (BTNode.internal (e0 :: (pre ++ (sk, B) :: suf)))) y =
        getPage s2 y := by
    intro y hy
    rcases hcont2 y (List.mem_append_right _ hy) with h1 | h1
    · exact getPage_set_ne (hQfacts y h1).2.2
    · refine getPage_set_ne ?_
      intro hh
      subst hh
      omega
  have hokc3 : nodeOK (setPage s2 par (BTNode.internal (e0 :: (pre ++ (sk, B) :: suf))))
      h (chLast (valAtD (e0 :: (pre ++ suf)) 0) pre) loq (some sk) :=
    nodeOK_frame h setPage_leafMax setPage_internalMax hagq3 hokc
  have hokB3 : nodeOK (setPage s2 par (BTNode.internal (e0 :: (pre ++ (sk, B) :: suf))))
      h B (some sk) hi2 :=
    nodeOK_frame h setPage_leafMax setPage_internalMax hagB3 hokB
  have htrq3 : subPids (setPage s2 par (BTNode.internal (e0 :: (pre ++ (sk, B) :: suf))))
      h (chLast (valAtD (e0 :: (pre ++ suf)) 0) pre) =
      subPids s2 h (chLast (valAtD (e0 :: (pre ++ suf)) 0) pre) :=
    subPids_frame h hokc hagq3
  have htcq3 : subContents (setPage s2 par
      (BTNode.internal (e0 :: (pre ++ (sk, B) :: suf)))) h
      (chLast (valAtD (e0 :: (pre ++ suf)) 0) pre) =
      subContents s2 h (chLast (valAtD (e0 :: (pre ++ suf)) 0) pre) :=
    subContents_frame h hokc hagq3
  have htrB3 : subPids (setPage s2 par (BTNode.internal (e0 :: (pre ++ (sk, B) :: suf))))
      h B = subPids s2 h B := subPids_frame h hokB hagB3
  have htcB3 : subContents (setPage s2 par
      (BTNode.internal (e0 :: (pre ++ (sk, B) :: suf)))) h B = subContents s2 h B :=
    subContents_frame h hokB hagB3
  have haghole3 : ∀ c ∈ holeCh (valAtD (e0 :: (pre ++ suf)) 0) pre,
      ∀ y ∈ subPids s0 h c,
      getPage (setPage s2 par (BTNode.internal (e0 :: (pre ++ (sk, B) :: suf)))) y =
        getPage s2 y := by
    intro c hc y hy
    exact getPage_set_ne (hAfacts y (pidsOf_mem.mpr ⟨c, hc, hy⟩)).2.2.2
  have hagsuf3 : ∀ c ∈ sufCh suf, ∀ y ∈ subPids s0 h c,
      getPage (setPage s2 par (BTNode.internal (e0 :: (pre ++ (sk, B) :: suf)))) y =
        getPage s2 y := by
    intro c hc y hy
    exact getPage_set_ne (hSfacts y (sufPids_mem.mpr ⟨c, hc, hy⟩)).2.2.2
  have hfrh3 : ∀ c ∈ holeCh (valAtD (e0 :: (pre ++ suf)) 0) pre, ∀ a b,
      nodeOK s0 h c a b →
      nodeOK (setPage s2 par (BTNode.internal (e0 :: (pre ++ (sk, B) :: suf)))) h
        c a b := by
    intro c hc a b hn
    have hn2 := hfrh c hc a b hn
    refine nodeOK_frame h setPage_leafMax setPage_internalMax ?_ hn2
    intro y hy
    rw [(htrh c hc).1] at hy
    exact haghole3 c hc y hy
  have hfrs3 : ∀ c ∈ sufCh suf, ∀ a b, nodeOK s0 h c a b →
      nodeOK (setPage s2 par (BTNode.internal (e0 :: (pre ++ (sk, B) :: suf)))) h
        c a b := by
    intro c hc a b hn
    have hn2 := hfrs c hc a b hn
    refine nodeOK_frame h setPage_leafMax setPage_internalMax ?_ hn2
    intro y hy
    rw [(htrs c hc).1] at hy
    exact hagsuf3 c hc y hy
  have htrh3 : ∀ c ∈ holeCh (valAtD (e0 :: (pre ++ suf)) 0) pre,
      subPids (setPage s2 par (BTNode.internal (e0 :: (pre ++ (sk, B) :: suf)))) h c =
        subPids s0 h c ∧
      subContents (setPage s2 par (BTNode.internal (e0 :: (pre ++ (sk, B) :: suf))))
        h c = subContents s0 h c := by
    intro c hc
    obtain ⟨a, b, hn⟩ := hole_nodeOK_of_mem hhole c hc
    have hn2 := hfrh c hc a b hn
    have hagc : ∀ y ∈ subPids s2 h c,
        getPage (setPage s2 par (BTNode.internal (e0 :: (pre ++ (sk, B) :: suf)))) y =
          getPage s2 y := by
      rw [(htrh c hc).1]
      exact haghole3 c hc
    exact ⟨(subPids_frame h hn2 hagc).trans (htrh c hc).1,
      (subContents_frame h hn2 hagc).trans (htrh c hc).2⟩
  have htrs3 : ∀ c ∈ sufCh suf,
      subPids (setPage s2 par (BTNode.internal (e0 :: (pre ++ (sk, B) :: suf)))) h c =
        subPids s0 h c ∧
      subContents (setPage s2 par (BTNode.internal (e0 :: (pre ++ (sk, B) :: suf))))
        h c = subContents s0 h c := by
    intro c hc
    have hnS : ∃ a b, nodeOK s0 h c a b := by
      rcases hsufd with ⟨hnil, _⟩ | ⟨k2, c2, t, hsuf2, _, _, _, _, _, hcht⟩
      · subst hnil
        exact absurd hc (by simp [sufCh])
      · subst hsuf2
        exact chain_nodeOK_of_mem hcht c hc
    obtain ⟨a, b, hn⟩ := hnS
    have hn2 := hfrs c hc a b hn
    have hagc : ∀ y ∈ subPids s2 h c,
        getPage (setPage s2 par (BTNode.internal (e0 :: (pre ++ (sk, B) :: suf)))) y =
          getPage s2 y := by
      rw [(htrs c hc).1]
      exact hagsuf3 c hc
    exact ⟨(subPids_frame h hn2 hagc).trans (htrs c hc).1,
      (subContents_frame h hn2 hagc).trans (htrs c hc).2⟩
  have hchain3 : childSeqF (fun c a b =>
      nodeOK (setPage s2 par (BTNode.internal (e0 :: (pre ++ (sk, B) :: suf)))) h c a b)
      hi lo (valAtD (e0 :: (pre ++ suf)) 0) (pre ++ (sk, B) :: suf) :=
    rebuild_chain_insert hhole hsufd hfrh3 hfrs3 hokc3 hokB3 hlosk hhisk
  have hok3 : nodeOK (setPage s2 par (BTNode.internal (e0 :: (pre ++ (sk, B) :: suf))))
      (h + 1) par lo hi := by
    refine ⟨e0 :: (pre ++ (sk, B) :: suf), hpar3, by simp, ?_, ?_⟩
    · show (e0 :: (pre ++ (sk, B) :: suf)).length ≤ s2.internalMax
      have : (e0 :: (pre ++ suf)).length < s0.internalMax := hlt
      rw [him2]
      simp only [List.length_cons, List.length_append] at this ⊢
      omega
    · exact hchain3
  have hct3 : subContents (setPage s2 par
      (BTNode.internal (e0 :: (pre ++ (sk, B) :: suf)))) (h + 1) par =
      ctsOf (fun c => subContents s0 h c) (holeCh (valAtD (e0 :: (pre ++ suf)) 0) pre) ++
        (subContents s2 h (chLast (valAtD (e0 :: (pre ++ suf)) 0) pre) ++
          subContents s2 h B) ++
        sufCts (fun c => subContents s0 h c) suf := by
    rw [subContents_succ hpar3]
    rw [show (e0 :: (pre ++ (sk, B) :: suf)).drop 1 = pre ++ (sk, B) :: suf from rfl]
    rw [show valAtD (e0 :: (pre ++ (sk, B) :: suf)) 0 =
      valAtD (e0 :: (pre ++ suf)) 0 from rfl]
    rw [ctsF_zip_ins]
    rw [ctsOf_congr (fun c hc => (htrh3 c hc).2), sufCts_congr (fun c hc => (htrs3 c hc).2),
      htcq3, htcB3]
  have hct0 : subContents s0 (h + 1) par =
      ctsOf (fun c => subContents s0 h c) (holeCh (valAtD (e0 :: (pre ++ suf)) 0) pre) ++
        subContents s0 h (chLast (valAtD (e0 :: (pre ++ suf)) 0) pre) ++
        sufCts (fun c => subContents s0 h c) suf := by
    rw [subContents_succ hpage]
    rw [show (e0 :: (pre ++ suf)).drop 1 = pre ++ suf from rfl]
    rw [ctsF_zip]
  have hsp3 : subPids (setPage s2 par
      (BTNode.internal (e0 :: (pre ++ (sk, B) :: suf)))) (h + 1) par =
      par :: (pidsOf (fun c => subPids s0 h c)
          (holeCh (valAtD (e0 :: (pre ++ suf)) 0) pre) ++
        (subPids s2 h (chLast (valAtD (e0 :: (pre ++ suf)) 0) pre) ++ subPids s2 h B) ++
        sufPids (fun c => subPids s0 h c) suf) := by
    rw [subPids_succ hpar3]
    rw [show (e0 :: (pre ++ (sk, B) :: suf)).drop 1 = pre ++ (sk, B) :: suf from rfl]
    rw [show valAtD (e0 :: (pre ++ (sk, B) :: suf)) 0 =
      valAtD (e0 :: (pre ++ suf)) 0 from rfl]
    rw [pidsF_zip_ins]
    rw [pidsOf_congr (fun c hc => (htrh3 c hc).1),
      sufPids_congr (fun c hc => (htrs3 c hc).1), htrq3, htrB3]
  have hsp0 : subPids s0 (h + 1) par =
      par :: (pidsOf (fun c => subPids s0 h c)
          (holeCh (valAtD (e0 :: (pre ++ suf)) 0) pre) ++
        subPids s0 h (chLast (valAtD (e0 :: (pre ++ suf)) 0) pre) ++
        sufPids (fun c => subPids s0 h c) suf) := by
    rw [subPids_succ hpage]
    rw [show (e0 :: (pre ++ suf)).drop 1 = pre ++ suf from rfl]
    rw [pidsF_zip]
  refine ⟨hok3, ?_, ?_, ?_, ?_⟩
  · rw [hct3, hct0]
    exact perm_insert_block hperm
  · rw [hsp3]
    rw [List.nodup_cons, List.nodup_append, List.nodup_append]
    refine ⟨?_, ⟨ndA, hnd2, ?_⟩, ndS, ?_⟩
    · intro hmem
      rcases List.mem_append.mp hmem with h1 | h1
      · rcases List.mem_append.mp h1 with h2 | h2
        · exact (hAfacts par h2).2.2.2 rfl
        · rcases hcont2 par h2 with h3 | h3
          · exact (hQfacts par h3).2.2 rfl
          · omega
      · exact (hSfacts par h1).2.2.2 rfl
    · intro x hx hx2
      rcases hcont2 x hx2 with h3 | h3
      · exact (hAfacts x hx).2.2.1 h3
      · have := (hAfacts x hx).2.1
        omega
    · intro x hx hxS
      rcases List.mem_append.mp hx with h1 | h1
      · exact dAS x h1 hxS
      · rcases hcont2 x h1 with h3 | h3
        · exact (hSfacts x hxS).2.2.1 h3
        · have := (hSfacts x hxS).2.1
          omega
  · intro x hx
    rw [hsp3] at hx
    rcases List.mem_cons.mp hx with h1 | h1
    · subst h1
      left
      rw [hsp0]
      exact List.mem_cons_self _ _
    · rcases List.mem_append.mp h1 with h2 | h2
      · rcases List.mem_append.mp h2 with h3 | h3
        · exact Or.inl (hAfacts x h3).1
        · rcases hcont2 x h3 with h4 | h4
          · exact Or.inl (hQfacts x h4).1
          · exact Or.inr h4
      · exact Or.inl (hSfacts x h2).1
  · intro x hx
    rw [setPage_keys]
    rw [hsp3] at hx
    rcases List.mem_cons.mp hx with h1 | h1
    · subst h1
      exact hparmem2
    · rcases List.mem_append.mp h1 with h2 | h2
      · rcases List.mem_append.mp h2 with h3 | h3
        · obtain ⟨hin, hlt2, hnq, _⟩ := hAfacts x h3
          obtain ⟨n, hn⟩ := subPids_pages (h + 1)
            ⟨e0 :: (pre ++ suf), hpage, he1, he2len, hchain0⟩ x hin
          exact getPage_mem ((hag x hnq hlt2).trans hn)
        · exact hpg2 x h3
      · obtain ⟨hin, hlt2, hnq, _⟩ := hSfacts x h2
        obtain ⟨n, hn⟩ := subPids_pages (h + 1)
          ⟨e0 :: (pre ++ suf), hpage, he1, he2len, hchain0⟩ x hin
        exact getPage_mem ((hag x hnq hlt2).trans hn)

/-- Split step: the picked child split into two, and the parent is
full, so `InsertInParentRW` splits the parent as well: the merged slots
go half to the parent page and half to a fresh page, exposing the
middle key as the separator to push further up. -/
theorem parent_step_split {s0 s2 : BTree} {h par k v sk B : Nat} {e0 : Nat × Nat}
    {rest0 : List (Nat × Nat)} {lo hi loq hi2 : Option Nat} {mid : Nat}
    (hB0 : Base s0)
    (hpage : getPage s0 par = some (BTNode.internal (e0 :: rest0)))
    (hokp : nodeOK s0 (h + 1) par lo hi)
    (hndpar : (subPids s0 (h + 1) par).Nodup)
    (hzip : PickZip (fun c a b => nodeOK s0 h c a b) k hi lo
      (valAtD (e0 :: rest0) 0) ((e0 :: rest0).drop 1) loq hi2)
    (hlm2 : s2.leafMax = s0.leafMax) (him2 : s2.internalMax = s0.internalMax)
    (hnp2 : s0.nextPid ≤ s2.nextPid)
    (hag : ∀ x, x ∉ subPids s0 h (pickChild k ((e0 :: rest0).drop 1)
      (valAtD (e0 :: rest0) 0)) → x < s0.nextPid → getPage s2 x = getPage s0 x)
    (hokc : nodeOK s2 h (pickChild k ((e0 :: rest0).drop 1) (valAtD (e0 :: rest0) 0))
      loq (some sk))
    (hokB : nodeOK s2 h B (some sk) hi2)
    (hlosk : loLt loq sk) (hhisk : hiLt hi2 sk)
    (hperm : (subContents s2 h (pickChild k ((e0 :: rest0).drop 1)
      (valAtD (e0 :: rest0) 0)) ++ subContents s2 h B).Perm
      ((k, v) :: subContents s0 h (pickChild k ((e0 :: rest0).drop 1)
        (valAtD (e0 :: rest0) 0))))
    (hnd2 : (subPids s2 h (pickChild k ((e0 :: rest0).drop 1)
      (valAtD (e0 :: rest0) 0)) ++ subPids s2 h B).Nodup)
    (hcont2 : ∀ x ∈ subPids s2 h (pickChild k ((e0 :: rest0).drop 1)
      (valAtD (e0 :: rest0) 0)) ++ subPids s2 h B,
      x ∈ subPids s0 h (pickChild k ((e0 :: rest0).drop 1)
        (valAtD (e0 :: rest0) 0)) ∨ (s0.nextPid ≤ x ∧ x < s2.nextPid))
    (hpg2 : ∀ x ∈ subPids s2 h (pickChild k ((e0 :: rest0).drop 1)
      (valAtD (e0 :: rest0) 0)) ++ subPids s2 h B, x ∈ s2.pages.map Prod.fst)
    (hfull : (e0 :: rest0).length = s0.internalMax)
    (hmid : mid = (s0.internalMax + 1) / 2) :
    nodeOK (setPage (setPage (newPage s2 (BTNode.internal [])).1 par
        (BTNode.internal ((e0 :: splitIns (sk, B) rest0).take mid))) s2.nextPid
        (BTNode.internal ((e0 :: splitIns (sk, B) rest0).drop mid))) (h + 1) par lo
      (some (keyAtD ((e0 :: splitIns (sk, B) rest0).drop mid) 0)) ∧
    nodeOK (setPage (setPage (newPage s2 (BTNode.internal [])).1 par
        (BTNode.internal ((e0 :: splitIns (sk, B) rest0).take mid))) s2.nextPid
        (BTNode.internal ((e0 :: splitIns (sk, B) rest0).drop mid))) (h + 1) s2.nextPid
      (some (keyAtD ((e0 :: splitIns (sk, B) rest0).drop mid) 0)) hi ∧
    loLt lo (keyAtD ((e0 :: splitIns (sk, B) rest0).drop mid) 0) ∧
    hiLt hi (keyAtD ((e0 :: splitIns (sk, B) rest0).drop mid) 0) ∧
    (subContents (setPage (setPage (newPage s2 (BTNode.internal [])).1 par
        (BTNode.internal ((e0 :: splitIns (sk, B) rest0).take mid))) s2.nextPid
        (BTNode.internal ((e0 :: splitIns (sk, B) rest0).drop mid))) (h + 1) par ++
      subContents (setPage (setPage (newPage s2 (BTNode.internal [])).1 par
        (BTNode.internal ((e0 :: splitIns (sk, B) rest0).take mid))) s2.nextPid
        (BTNode.internal ((e0 :: splitIns (sk, B) rest0).drop mid))) (h + 1)
        s2.nextPid).Perm ((k, v) :: subContents s0 (h + 1) par) ∧
    (subPids (setPage (setPage (newPage s2 (BTNode.internal [])).1 par
        (BTNode.internal ((e0 :: splitIns (sk, B) rest0).take mid))) s2.nextPid
        (BTNode.internal ((e0 :: splitIns (sk, B) rest0).drop mid))) (h + 1) par ++
      subPids (setPage (setPage (newPage s2 (BTNode.internal [])).1 par
        (BTNode.internal ((e0 :: splitIns (sk, B) rest0).take mid))) s2.nextPid
        (BTNode.internal ((e0 :: splitIns (sk, B) rest0).drop mid))) (h + 1)
        s2.nextPid).Nodup ∧
    (∀ x ∈ subPids (setPage (setPage (newPage s2 (BTNode.internal [])).1 par
        (BTNode.internal ((e0 :: splitIns (sk, B) rest0).take mid))) s2.nextPid
        (BTNode.internal ((e0 :: splitIns (sk, B) rest0).drop mid))) (h + 1) par ++
      subPids (setPage (setPage (newPage s2 (BTNode.internal [])).1 par
        (BTNode.internal ((e0 :: splitIns (sk, B) rest0).take mid))) s2.nextPid
        (BTNode.internal ((e0 :: splitIns (sk, B) rest0).drop mid))) (h + 1) s2.nextPid,
      x ∈ subPids s0 (h + 1) par ∨ (s0.nextPid ≤ x ∧ x < s2.nextPid + 1)) ∧
    (∀ x ∈ subPids (setPage (setPage (newPage s2 (BTNode.internal [])).1 par
        (BTNode.internal ((e0 :: splitIns (sk, B) rest0).take mid))) s2.nextPid
        (BTNode.internal ((e0 :: splitIns (sk, B) rest0).drop mid))) (h + 1) par ++
      subPids (setPage (setPage (newPage s2 (BTNode.internal [])).1 par
        (BTNode.internal ((e0 :: splitIns (sk, B) rest0).take mid))) s2.nextPid
        (BTNode.internal ((e0 :: splitIns (sk, B) rest0).drop mid))) (h + 1) s2.nextPid,
      x ∈ (setPage (setPage (newPage s2 (BTNode.internal [])).1 par
        (BTNode.internal ((e0 :: splitIns (sk, B) rest0).take mid))) s2.nextPid
        (BTNode.internal ((e0 :: splitIns (sk, B) rest0).drop mid))).pages.map
        Prod.fst) := by
  obtain ⟨pre, suf, hrest, hhole, hpickq, hloqk, hsufd⟩ := hzip
  rw [hpickq] at hag hokc hperm hnd2 hcont2 hpg2
  obtain ⟨hfrh, hfrs, htrh, htrs, hgpar, hparlt, hAfacts, hSfacts, hQfacts, ndA, ndS,
    dAS⟩ := parent_pack hB0 hpage hokp hndpar hrest hhole hsufd hlm2 him2 hag
  have hgpar2 : getPage s2 par = some (BTNode.internal (e0 :: rest0)) :=
    hgpar.trans hpage
  have hparmem2 : par ∈ s2.pages.map Prod.fst := getPage_mem hgpar2
  obtain ⟨e2, hpage2, he1, he2len, hchain0⟩ := hokp
  have hee : e0 :: rest0 = e2 := by
    rw [hpage] at hpage2
    exact (BTNode.internal.injEq _ _).mp ((Option.some.injEq _ _).mp hpage2)
  subst hee
  simp only [List.drop_one, List.tail_cons] at hrest
  subst hrest
  have hprelt : ∀ x ∈ pre, x.1 < sk := by
    intro x hx
    have hne : pre ≠ [] := by
      intro hh
      subst hh
      exact absurd hx (by simp)
    obtain ⟨l, hl⟩ := hole_loq_some hhole hne
    have := hole_keys hhole x hx l hl
    have := hlosk l hl
    omega
  have hsufgt : ∀ x ∈ suf, sk < x.1 := by
    intro x hx
    rcases hsufd with ⟨hnil, _⟩ | ⟨k2, c2, t, hsuf2, hh2, _, _, _, _, hcht⟩
    · subst hnil
      exact absurd hx (by simp)
    · subst hsuf2
      have hskk2 : sk < k2 := by
        have := hhisk k2
        rw [hh2] at this
        exact this rfl
      rcases List.mem_cons.mp hx with hh | hh
      · rw [hh]
        exact hskk2
      · have := chain_keys_gt hcht x hh k2 rfl
        omega
  have hins : splitIns (sk, B) (pre ++ suf) = pre ++ (sk, B) :: suf :=
    splitIns_at pre suf hprelt hsufgt
  rw [hins]
  have him3 : 3 ≤ s0.internalMax := hB0.im
  have hLlen : (pre ++ (sk, B) :: suf).length = s0.internalMax := by
    have := hfull
    simp only [List.length_cons, List.length_append] at this ⊢
    omega
  have hmid1 : 2 ≤ mid := by
    rw [hmid]
    omega
  have hmidlen : mid - 1 < (pre ++ (sk, B) :: suf).length := by
    rw [hLlen, hmid]
    omega
  rcases hgp : (pre ++ (sk, B) :: suf).get ⟨mid - 1, hmidlen⟩ with ⟨kx, cB⟩
  have hdrop : (pre ++ (sk, B) :: suf).drop (mid - 1) =
      (kx, cB) :: (pre ++ (sk, B) :: suf).drop mid := by
    rw [List.drop_eq_getElem_cons hmidlen]
    rw [show mid - 1 + 1 = mid from by omega]
    have hge : (pre ++ (sk, B) :: suf)[mid - 1] =
        (pre ++ (sk, B) :: suf).get ⟨mid - 1, hmidlen⟩ := rfl
    rw [hge, hgp]
  have hLdec : pre ++ (sk, B) :: suf =
      (pre ++ (sk, B) :: suf).take (mid - 1) ++
        (kx, cB) :: (pre ++ (sk, B) :: suf).drop mid := by
    conv_lhs => rw [← List.take_append_drop (mid - 1) (pre ++ (sk, B) :: suf)]
    rw [hdrop]
  have htake : (e0 :: (pre ++ (sk, B) :: suf)).take mid =
      e0 :: (pre ++ (sk, B) :: suf).take (mid - 1) := by
    conv_lhs => rw [show mid = (mid - 1) + 1 from by omega]
    rw [List.take_succ_cons]
  have htdrop : (e0 :: (pre ++ (sk, B) :: suf)).drop mid =
      (kx, cB) :: (pre ++ (sk, B) :: suf).drop mid := by
    refine Eq.trans ?_ hdrop
    conv_lhs => rw [show mid = (mid - 1) + 1 from by omega]
    rw [List.drop_succ_cons]
  have hsk2 : keyAtD ((kx, cB) :: (pre ++ (sk, B) :: suf).drop mid) 0 = kx := rfl
  rw [htake, htdrop, hsk2]
  have hBlt : B < s2.nextPid := by
    have hBself : B ∈ subPids s2 h B := subPids_self
    rcases hcont2 B (List.mem_append_right _ hBself) with h1 | h1
    · have := (hQfacts B ?_).2.1
      · omega
      · exact h1
    · omega
  have hqlt : ∀ y ∈ subPids s2 h (chLast (valAtD (e0 :: (pre ++ suf)) 0) pre) ++
      subPids s2 h B, y < s2.nextPid := by
    intro y hy
    rcases hcont2 y hy with h1 | h1
    · have := (hQfacts y h1).2.1
      omega
    · omega
  have hx3 : ∀ y, y ≠ par → y ≠ s2.nextPid →
      getPage (setPage (setPage (newPage s2 (BTNode.internal [])).1 par
        (BTNode.internal (e0 :: (pre ++ (sk, B) :: suf).take (mid - 1)))) s2.nextPid
        (BTNode.internal ((kx, cB) :: (pre ++ (sk, B) :: suf).drop mid))) y =
      getPage s2 y := by
    intro y h1 h2
    rw [getPage_set_ne h2, getPage_set_ne h1, getPage_new_ne h2]
  have hparnp : par ≠ s2.nextPid := by
    omega
  have hpar3 : getPage (setPage (setPage (newPage s2 (BTNode.internal [])).1 par
      (BTNode.internal (e0 :: (pre ++ (sk, B) :: suf).take (mid - 1)))) s2.nextPid
      (BTNode.internal ((kx, cB) :: (pre ++ (sk, B) :: suf).drop mid))) par =
      some (BTNode.internal (e0 :: (pre ++ (sk, B) :: suf).take (mid - 1))) := by
    rw [getPage_set_ne hparnp]
    refine getPage_set_self ?_
    rw [newPage_keys]
    exact List.mem_append_left _ hparmem2
  have hnp3 : getPage (setPage (setPage (newPage s2 (BTNode.internal [])).1 par
      (BTNode.internal (e0 :: (pre ++ (sk, B) :: suf).take (mid - 1)))) s2.nextPid
      (BTNode.internal ((kx, cB) :: (pre ++ (sk, B) :: suf).drop mid))) s2.nextPid =
      some (BTNode.internal ((kx, cB) :: (pre ++ (sk, B) :: suf).drop mid)) := by
    refine getPage_set_self ?_
    rw [setPage_keys, newPage_keys]
    exact List.mem_append_right _ (by simp)
  have hagq3 : ∀ y ∈ subPids s2 h (chLast (valAtD (e0 :: (pre ++ suf)) 0) pre),
      getPage (setPage (setPage (newPage s2 (BTNode.internal [])).1 par
        (BTNode.internal (e0 :: (pre ++ (sk, B) :: suf).take (mid - 1)))) s2.nextPid
        (BTNode.internal ((kx, cB) :: (pre ++ (sk, B) :: suf).drop mid))) y =
        getPage s2 y := by
    intro y hy
    have hlt2 := hqlt y (List.mem_append_left _ hy)
    refine hx3 y ?_ (by omega)
    rcases hcont2 y (List.mem_append_left _ hy) with h1 | h1
    · exact (hQfacts y h1).2.2
    · intro hh
      subst hh
      omega
  have hagB3 : ∀ y ∈ subPids s2 h B,
      getPage (setPage (setPage (newPage s2 (BTNode.internal [])).1 par
        (BTNode.internal (e0 :: (pre ++ (sk, B) :: suf).take (mid - 1)))) s2.nextPid
        (BTNode.internal ((kx, cB) :: (pre ++ (sk, B) :: suf).drop mid))) y =
        getPage s2 y := by
    intro y hy
    have hlt2 := hqlt y (List.mem_append_right _ hy)
    refine hx3 y ?_ (by omega)
    rcases hcont2 y (List.mem_append_right _ hy) with h1 | h1
    · exact (hQfacts y h1).2.2
    · intro hh
      subst hh
      omega
  have haghole3 : ∀ c ∈ holeCh (valAtD (e0 :: (pre ++ suf)) 0) pre,
      ∀ y ∈ subPids s0 h c,
      getPage (setPage (setPage (newPage s2 (BTNode.internal [])).1 par
        (BTNode.internal (e0 :: (pre ++ (sk, B) :: suf).take (mid - 1)))) s2.nextPid
        (BTNode.internal ((kx, cB) :: (pre ++ (sk, B) :: suf).drop mid))) y =
        getPage s2 y := by
    intro c hc y hy
    have hf := hAfacts y (pidsOf_mem.mpr ⟨c, hc, hy⟩)
    exact hx3 y hf.2.2.2 (by omega)
  have hagsuf3 : ∀ c ∈ sufCh suf, ∀ y ∈ subPids s0 h c,
      getPage (setPage (setPage (newPage s2 (BTNode.internal [])).1 par
        (BTNode.internal (e0 :: (pre ++ (sk, B) :: suf).take (mid - 1)))) s2.nextPid
        (BTNode.internal ((kx, cB) :: (pre ++ (sk, B) :: suf).drop mid))) y =
        getPage s2 y := by
    intro c hc y hy
    have hf := hSfacts y (sufPids_mem.mpr ⟨c, hc, hy⟩)
    exact hx3 y hf.2.2.2 (by omega)
  have hokc3 : nodeOK (setPage (setPage (newPage s2 (BTNode.internal [])).1 par
      (BTNode.internal (e0 :: (pre ++ (sk, B) :: suf).take (mid - 1)))) s2.nextPid
      (BTNode.internal ((kx, cB) :: (pre ++ (sk, B) :: suf).drop mid))) h
      (chLast (valAtD (e0 :: (pre ++ suf)) 0) pre) loq (some sk) :=
    nodeOK_frame h (setPage_leafMax.trans (setPage_leafMax.trans newPage_leafMax))
      (setPage_internalMax.trans (setPage_internalMax.trans newPage_internalMax))
      hagq3 hokc
  have hokB3 : nodeOK (setPage (setPage (newPage s2 (BTNode.internal [])).1 par
      (BTNode.internal (e0 :: (pre ++ (sk, B) :: suf).take (mid - 1)))) s2.nextPid
      (BTNode.internal ((kx, cB) :: (pre ++ (sk, B) :: suf).drop mid))) h B
      (some sk) hi2 :=
    nodeOK_frame h (setPage_leafMax.trans (setPage_leafMax.trans newPage_leafMax))
      (setPage_internalMax.trans (setPage_internalMax.trans newPage_internalMax))
      hagB3 hokB
  have htrq3 := subPids_frame h hokc hagq3
  have htcq3 := subContents_frame h hokc hagq3
  have htrB3 := subPids_frame h hokB hagB3
  have htcB3 := subContents_frame h hokB hagB3
  have hfrh3 : ∀ c ∈ holeCh (valAtD (e0 :: (pre ++ suf)) 0) pre, ∀ a b,
      nodeOK s0 h c a b →
      nodeOK (setPage (setPage (newPage s2 (BTNode.internal [])).1 par
        (BTNode.internal (e0 :: (pre ++ (sk, B) :: suf).take (mid - 1)))) s2.nextPid
        (BTNode.internal ((kx, cB) :: (pre ++ (sk, B) :: suf).drop mid))) h c a b := by
    intro c hc a b hn
    have hn2 := hfrh c hc a b hn
    refine nodeOK_frame h (setPage_leafMax.trans (setPage_leafMax.trans newPage_leafMax))
      (setPage_internalMax.trans (setPage_internalMax.trans newPage_internalMax)) ?_ hn2
    intro y hy
    rw [(htrh c hc).1] at hy
    exact haghole3 c hc y hy
  have hfrs3 : ∀ c ∈ sufCh suf, ∀ a b, nodeOK s0 h c a b →
      nodeOK (setPage (setPage (newPage s2 (BTNode.internal [])).1 par
        (BTNode.internal (e0 :: (pre ++ (sk, B) :: suf).take (mid - 1)))) s2.nextPid
        (BTNode.internal ((kx, cB) :: (pre ++ (sk, B) :: suf).drop mid))) h c a b := by
    intro c hc a b hn
    have hn2 := hfrs c hc a b hn
    refine nodeOK_frame h (setPage_leafMax.trans (setPage_leafMax.trans newPage_leafMax))
      (setPage_internalMax.trans (setPage_internalMax.trans newPage_internalMax)) ?_ hn2
    intro y hy
    rw [(htrs c hc).1] at hy
    exact hagsuf3 c hc y hy
  have htrh3 : ∀ c ∈ holeCh (valAtD (e0 :: (pre ++ suf)) 0) pre,
      subPids (setPage (setPage (newPage s2 (BTNode.internal [])).1 par
        (BTNode.internal (e0 :: (pre ++ (sk, B) :: suf).take (mid - 1)))) s2.nextPid
        (BTNode.internal ((kx, cB) :: (pre ++ (sk, B) :: suf).drop mid))) h c =
        subPids s0 h c ∧
      subContents (setPage (setPage (newPage s2 (BTNode.internal [])).1 par
        (BTNode.internal (e0 :: (pre ++ (sk, B) :: suf).take (mid - 1)))) s2.nextPid
        (BTNode.internal ((kx, cB) :: (pre ++ (sk, B) :: suf).drop mid))) h c =
        subContents s0 h c := by
    intro c hc
    obtain ⟨a, b, hn⟩ := hole_nodeOK_of_mem hhole c hc
    have hn2 := hfrh c hc a b hn
    have hagc : ∀ y ∈ subPids s2 h c,
        getPage (setPage (setPage (newPage s2 (BTNode.internal [])).1 par
          (BTNode.internal (e0 :: (pre ++ (sk, B) :: suf).take (mid - 1)))) s2.nextPid
          (BTNode.internal ((kx, cB) :: (pre ++ (sk, B) :: suf).drop mid))) y =
          getPage s2 y := by
      rw [(htrh c hc).1]
      exact haghole3 c hc
    exact ⟨(subPids_frame h hn2 hagc).trans (htrh c hc).1,
      (subContents_frame h hn2 hagc).trans (htrh c hc).2⟩
  have htrs3 : ∀ c ∈ sufCh suf,
      subPids (setPage (setPage (newPage s2 (BTNode.internal [])).1 par
        (BTNode.internal (e0 :: (pre ++ (sk, B) :: suf).take (mid - 1)))) s2.nextPid
        (BTNode.internal ((kx, cB) :: (pre ++ (sk, B) :: suf).drop mid))) h c =
        subPids s0 h c ∧
      subContents (setPage (setPage (newPage s2 (BTNode.internal [])).1 par
        (BTNode.internal (e0 :: (pre ++ (sk, B) :: suf).take (mid - 1)))) s2.nextPid
        (BTNode.internal ((kx, cB) :: (pre ++ (sk, B) :: suf).drop mid))) h c =
        subContents s0 h c := by
    intro c hc
    have hnS : ∃ a b, nodeOK s0 h c a b := by
      rcases hsufd with ⟨hnil, _⟩ | ⟨k2, c2, t, hsuf2, _, _, _, _, _, hcht⟩
      · subst hnil
        exact absurd hc (by simp [sufCh])
      · subst hsuf2
        exact chain_nodeOK_of_mem hcht c hc
    obtain ⟨a, b, hn⟩ := hnS
    have hn2 := hfrs c hc a b hn
    have hagc : ∀ y ∈ subPids s2 h c,
        getPage (setPage (setPage (newPage s2 (BTNode.internal [])).1 par
          (BTNode.internal (e0 :: (pre ++ (sk, B) :: suf).take (mid - 1)))) s2.nextPid
          (BTNode.internal ((kx, cB) :: (pre ++ (sk, B) :: suf).drop mid))) y =
          getPage s2 y := by
      rw [(htrs c hc).1]
      exact hagsuf3 c hc
    exact ⟨(subPids_frame h hn2 hagc).trans (htrs c hc).1,
      (subContents_frame h hn2 hagc).trans (htrs c hc).2⟩
  have hchainL : childSeqF (fun c a b =>
      nodeOK (setPage (setPage (newPage s2 (BTNode.internal [])).1 par
        (BTNode.internal (e0 :: (pre ++ (sk, B) :: suf).take (mid - 1)))) s2.nextPid
        (BTNode.internal ((kx, cB) :: (pre ++ (sk, B) :: suf).drop mid))) h c a b)
      hi lo (valAtD (e0 :: (pre ++ suf)) 0) (pre ++ (sk, B) :: suf) :=
    rebuild_chain_insert hhole hsufd hfrh3 hfrs3 hokc3 hokB3 hlosk hhisk
  have hchainL2 : childSeqF (fun c a b =>
      nodeOK (setPage (setPage (newPage s2 (BTNode.internal [])).1 par
        (BTNode.internal (e0 :: (pre ++ (sk, B) :: suf).take (mid - 1)))) s2.nextPid
        (BTNode.internal ((kx, cB) :: (pre ++ (sk, B) :: suf).drop mid))) h c a b)
      hi lo (valAtD (e0 :: (pre ++ suf)) 0)
      ((pre ++ (sk, B) :: suf).take (mid - 1) ++
        (kx, cB) :: (pre ++ (sk, B) :: suf).drop mid) := by
    rw [← hLdec]
    exact hchainL
  obtain ⟨hchL, hlokx, hhikx, hchR⟩ := chain_split hchainL2
  have hok3L : nodeOK (setPage (setPage (newPage s2 (BTNode.internal [])).1 par
      (BTNode.internal (e0 :: (pre ++ (sk, B) :: suf).take (mid - 1)))) s2.nextPid
      (BTNode.internal ((kx, cB) :: (pre ++ (sk, B) :: suf).drop mid))) (h + 1) par
      lo (some kx) := by
    refine ⟨e0 :: (pre ++ (sk, B) :: suf).take (mid - 1), hpar3, by simp, ?_, hchL⟩
    show (e0 :: (pre ++ (sk, B) :: suf).take (mid - 1)).length ≤ s2.internalMax
    rw [him2]
    rw [List.length_cons, List.length_take]
    rw [hLlen]
    omega
  have hok3R : nodeOK (setPage (setPage (newPage s2 (BTNode.internal [])).1 par
      (BTNode.internal (e0 :: (pre ++ (sk, B) :: suf).take (mid - 1)))) s2.nextPid
      (BTNode.internal ((kx, cB) :: (pre ++ (sk, B) :: suf).drop mid))) (h + 1)
      s2.nextPid (some kx) hi := by
    refine ⟨(kx, cB) :: (pre ++ (sk, B) :: suf).drop mid, hnp3, by simp, ?_, hchR⟩
    show ((kx, cB) :: (pre ++ (sk, B) :: suf).drop mid).length ≤ s2.internalMax
    rw [him2]
    rw [List.length_cons, List.length_drop]
    rw [hLlen]
    omega
  have hspL : subPids (setPage (setPage (newPage s2 (BTNode.internal [])).1 par
      (BTNode.internal (e0 :: (pre ++ (sk, B) :: suf).take (mid - 1)))) s2.nextPid
      (BTNode.internal ((kx, cB) :: (pre ++ (sk, B) :: suf).drop mid))) (h + 1) par =
      par :: pidsF (fun c => subPids (setPage (setPage (newPage s2 (BTNode.internal [])).1 par
      (BTNode.internal (e0 :: (pre ++ (sk, B) :: suf).take (mid - 1)))) s2.nextPid
      (BTNode.internal ((kx, cB) :: (pre ++ (sk, B) :: suf).drop mid))) h c)
      (valAtD (e0 :: (pre ++ suf)) 0) ((pre ++ (sk, B) :: suf).take (mid - 1)) := by
    rw [subPids_succ hpar3]
    rfl
  have hspR : subPids (setPage (setPage (newPage s2 (BTNode.internal [])).1 par
      (BTNode.internal (e0 :: (pre ++ (sk, B) :: suf).take (mid - 1)))) s2.nextPid
      (BTNode.internal ((kx, cB) :: (pre ++ (sk, B) :: suf).drop mid))) (h + 1) s2.nextPid =
      s2.nextPid :: pidsF (fun c => subPids (setPage (setPage (newPage s2 (BTNode.internal [])).1 par
      (BTNode.internal (e0 :: (pre ++ (sk, B) :: suf).take (mid - 1)))) s2.nextPid
      (BTNode.internal ((kx, cB) :: (pre ++ (sk, B) :: suf).drop mid))) h c)
      cB ((pre ++ (sk, B) :: suf).drop mid) := by
    rw [subPids_succ hnp3]
    rfl
  have hPF : pidsF (fun c => subPids (setPage (setPage (newPage s2 (BTNode.internal [])).1 par
      (BTNode.internal (e0 :: (pre ++ (sk, B) :: suf).take (mid - 1)))) s2.nextPid
      (BTNode.internal ((kx, cB) :: (pre ++ (sk, B) :: suf).drop mid))) h c)
      (valAtD (e0 :: (pre ++ suf)) 0) ((pre ++ (sk, B) :: suf).take (mid - 1)) ++
      pidsF (fun c => subPids (setPage (setPage (newPage s2 (BTNode.internal [])).1 par
      (BTNode.internal (e0 :: (pre ++ (sk, B) :: suf).take (mid - 1)))) s2.nextPid
      (BTNode.internal ((kx, cB) :: (pre ++ (sk, B) :: suf).drop mid))) h c)
      cB ((pre ++ (sk, B) :: suf).drop mid) =
      pidsOf (fun c => subPids s0 h c) (holeCh (valAtD (e0 :: (pre ++ suf)) 0) pre) ++
      (subPids s2 h (chLast (valAtD (e0 :: (pre ++ suf)) 0) pre) ++ subPids s2 h B) ++
      sufPids (fun c => subPids s0 h c) suf := by
    rw [← pidsF_append_cons, ← hLdec, pidsF_zip_ins]
    rw [pidsOf_congr (fun c hc => (htrh3 c hc).1),
      sufPids_congr (fun c hc => (htrs3 c hc).1), htrq3, htrB3]
  have hsp0 : subPids s0 (h + 1) par =
      par :: (pidsOf (fun c => subPids s0 h c) (holeCh (valAtD (e0 :: (pre ++ suf)) 0) pre) ++
        subPids s0 h (chLast (valAtD (e0 :: (pre ++ suf)) 0) pre) ++
        sufPids (fun c => subPids s0 h c) suf) := by
    rw [subPids_succ hpage]
    rw [show (e0 :: (pre ++ suf)).drop 1 = pre ++ suf from rfl]
    rw [pidsF_zip]
  refine ⟨hok3L, hok3R, hlokx, hhikx, ?_, ?_, ?_, ?_⟩
  · have hctL : subContents (setPage (setPage (newPage s2 (BTNode.internal [])).1 par
        (BTNode.internal (e0 :: (pre ++ (sk, B) :: suf).take (mid - 1)))) s2.nextPid
        (BTNode.internal ((kx, cB) :: (pre ++ (sk, B) :: suf).drop mid))) (h + 1) par =
        contentsF (fun c => subContents (setPage (setPage
          (newPage s2 (BTNode.internal [])).1 par
          (BTNode.internal (e0 :: (pre ++ (sk, B) :: suf).take (mid - 1)))) s2.nextPid
          (BTNode.internal ((kx, cB) :: (pre ++ (sk, B) :: suf).drop mid))) h c)
          (valAtD (e0 :: (pre ++ suf)) 0) ((pre ++ (sk, B) :: suf).take (mid - 1)) := by
      rw [subContents_succ hpar3]
      rfl
    have hctR : subContents (setPage (setPage (newPage s2 (BTNode.internal [])).1 par
        (BTNode.internal (e0 :: (pre ++ (sk, B) :: suf).take (mid - 1)))) s2.nextPid
        (BTNode.internal ((kx, cB) :: (pre ++ (sk, B) :: suf).drop mid))) (h + 1)
        s2.nextPid =
        contentsF (fun c => subContents (setPage (setPage
          (newPage s2 (BTNode.internal [])).1 par
          (BTNode.internal (e0 :: (pre ++ (sk, B) :: suf).take (mid - 1)))) s2.nextPid
          (BTNode.internal ((kx, cB) :: (pre ++ (sk, B) :: suf).drop mid))) h c)
          cB ((pre ++ (sk, B) :: suf).drop mid) := by
      rw [subContents_succ hnp3]
      rfl
    rw [hctL, hctR, ← contentsF_append_cons, ← hLdec]
    rw [ctsF_zip_ins]
    rw [ctsOf_congr (fun c hc => (htrh3 c hc).2),
      sufCts_congr (fun c hc => (htrs3 c hc).2), htcq3, htcB3]
    have hct0 : subContents s0 (h + 1) par =
        ctsOf (fun c => subContents s0 h c)
          (holeCh (valAtD (e0 :: (pre ++ suf)) 0) pre) ++
          subContents s0 h (chLast (valAtD (e0 :: (pre ++ suf)) 0) pre) ++
          sufCts (fun c => subContents s0 h c) suf := by
      rw [subContents_succ hpage]
      rw [show (e0 :: (pre ++ suf)).drop 1 = pre ++ suf from rfl]
      rw [ctsF_zip]
    rw [hct0]
    exact perm_insert_block hperm
  · rw [hspL, hspR]
    refine (List.Perm.nodup_iff (List.Perm.cons par List.perm_middle)).mpr ?_
    rw [hPF]
    rw [List.nodup_cons, List.nodup_cons]
    refine ⟨?_, ?_, ?_⟩
    · intro hmem
      rcases List.mem_cons.mp hmem with h1 | h1
      · exact hparnp h1
      · rcases List.mem_append.mp h1 with h2 | h2
        · rcases List.mem_append.mp h2 with h3 | h3
          · exact (hAfacts par h3).2.2.2 rfl
          · rcases hcont2 par h3 with h4 | h4
            · exact (hQfacts par h4).2.2 rfl
            · omega
        · exact (hSfacts par h2).2.2.2 rfl
    · intro hmem
      rcases List.mem_append.mp hmem with h2 | h2
      · rcases List.mem_append.mp h2 with h3 | h3
        · have := (hAfacts _ h3).2.1
          omega
        · have := hqlt _ h3
          omega
      · have := (hSfacts _ h2).2.1
        omega
    · rw [List.nodup_append, List.nodup_append]
      refine ⟨⟨ndA, hnd2, ?_⟩, ndS, ?_⟩
      · intro x hx hx2
        rcases hcont2 x hx2 with h3 | h3
        · exact (hAfacts x hx).2.2.1 h3
        · have := (hAfacts x hx).2.1
          omega
      · intro x hx hxS
        rcases List.mem_append.mp hx with h1 | h1
        · exact dAS x h1 hxS
        · rcases hcont2 x h1 with h3 | h3
          · exact (hSfacts x hxS).2.2.1 h3
          · have := (hSfacts x hxS).2.1
            omega
  · intro x hx
    rw [hspL, hspR] at hx
    have hx2 : x = par ∨ x = s2.nextPid ∨
        x ∈ pidsOf (fun c => subPids s0 h c) (holeCh (valAtD (e0 :: (pre ++ suf)) 0) pre) ++
          (subPids s2 h (chLast (valAtD (e0 :: (pre ++ suf)) 0) pre) ++ subPids s2 h B) ++
          sufPids (fun c => subPids s0 h c) suf := by
      rcases List.mem_append.mp hx with h1 | h1
      · rcases List.mem_cons.mp h1 with h2 | h2
        · exact Or.inl h2
        · exact Or.inr (Or.inr (hPF ▸ List.mem_append_left _ h2))
      · rcases List.mem_cons.mp h1 with h2 | h2
        · exact Or.inr (Or.inl h2)
        · exact Or.inr (Or.inr (hPF ▸ List.mem_append_right _ h2))
    rcases hx2 with h1 | h1 | h1
    · subst h1
      left
      rw [hsp0]
      exact List.mem_cons_self _ _
    · subst h1
      right
      omega
    · rcases List.mem_append.mp h1 with h2 | h2
      · rcases List.mem_append.mp h2 with h3 | h3
        · exact Or.inl (hAfacts x h3).1
        · rcases hcont2 x h3 with h4 | h4
          · exact Or.inl (hQfacts x h4).1
          · right
            omega
      · exact Or.inl (hSfacts x h2).1
  · intro x hx
    rw [hspL, hspR] at hx
    rw [setPage_keys, setPage_keys, newPage_keys]
    have hx2 : x = par ∨ x = s2.nextPid ∨
        x ∈ pidsOf (fun c => subPids s0 h c) (holeCh (valAtD (e0 :: (pre ++ suf)) 0) pre) ++
          (subPids s2 h (chLast (valAtD (e0 :: (pre ++ suf)) 0) pre) ++ subPids s2 h B) ++
          sufPids (fun c => subPids s0 h c) suf := by
      rcases List.mem_append.mp hx with h1 | h1
      · rcases List.mem_cons.mp h1 with h2 | h2
        · exact Or.inl h2
        · exact Or.inr (Or.inr (hPF ▸ List.mem_append_left _ h2))
      · rcases List.mem_cons.mp h1 with h2 | h2
        · exact Or.inr (Or.inl h2)
        · exact Or.inr (Or.inr (hPF ▸ List.mem_append_right _ h2))
    rcases hx2 with h1 | h1 | h1
    · subst h1
      exact List.mem_append_left _ hparmem2
    · subst h1
      exact List.mem_append_right _ (by simp)
    · refine List.mem_append_left _ ?_
      rcases List.mem_append.mp h1 with h2 | h2
      · rcases List.mem_append.mp h2 with h3 | h3
        · obtain ⟨hin, hlt2, hnq, _⟩ := hAfacts x h3
          obtain ⟨n, hn⟩ := subPids_pages (h + 1)
            ⟨e0 :: (pre ++ suf), hpage, he1, he2len, hchain0⟩ x hin
          exact getPage_mem ((hag x hnq hlt2).trans hn)
        · exact hpg2 x h3
      · obtain ⟨hin, hlt2, hnq, _⟩ := hSfacts x h2
        obtain ⟨n, hn⟩ := subPids_pages (h + 1)
          ⟨e0 :: (pre ++ suf), hpage, he1, he2len, hchain0⟩ x hin
        exact getPage_mem ((hag x hnq hlt2).trans hn)

/-! #### The page-set stack along the climb -/

theorem getLast?_drop2 {l : List Nat} {j : Nat} (h : j < l.length) :
    (l.drop j).getLast? = l.getLast? := by
  rw [List.getLast?_eq_getElem?, List.getLast?_eq_getElem?, List.length_drop,
    List.getElem?_drop]
  congr 1
  omega

theorem dropLast_drop2 {l : List Nat} {j : Nat} (h : j < l.length) :
    (l.drop j).dropLast = l.dropLast.drop j := by
  rw [List.dropLast_eq_take, List.dropLast_eq_take, List.length_drop]
  rw [List.take_drop]
  congr 2
  omega

theorem stackRel_singleton {s0 : BTree} {cur : Nat} {stack : List Nat}
    (hrel : StackRel s0 [cur] stack) : stack = [cur] := by
  obtain ⟨j, hj, hstack, _⟩ := hrel
  have : j = 0 := by
    simpa using hj
  subst this
  exact hstack

/-- Popping the stack at an unsafe node: the page set still ends with
the node's parent, and the popped stack realizes the relation for the
shortened path. -/
theorem stackRel_step {s0 : BTree} {anc : List Nat} {par cur : Nat} {stack : List Nat}
    (hrel : StackRel s0 ((anc ++ [par]) ++ [cur]) stack)
    (hful : ∀ n, getPage s0 cur = some n → isSafe s0 n BOp.INSERT = false) :
    stack.dropLast.getLast? = some par ∧
    StackRel s0 (anc ++ [par]) stack.dropLast ∧
    stack.dropLast.length + 1 = stack.length := by
  obtain ⟨j, hj, hstack, hbound⟩ := hrel
  have hlen : ((anc ++ [par]) ++ [cur]).length = anc.length + 2 := by simp
  have hjle : j ≤ anc.length := by
    by_contra hgt
    have hje : j = anc.length + 1 := by
      rw [hlen] at hj
      omega
    subst hje
    rcases hbound with h0 | ⟨n, hn, hsafe⟩
    · omega
    · have hget : ((anc ++ [par]) ++ [cur]).getD (anc.length + 1) 0 = cur := by
        rw [getD_append_right2 (by simp)]
        simp
      rw [hget] at hn
      rw [hful n hn] at hsafe
      exact absurd hsafe (by simp)
  have hjlt : j < ((anc ++ [par]) ++ [cur]).length := by
    rw [hlen]
    omega
  have hdl : stack.dropLast = (anc ++ [par]).drop j := by
    rw [hstack, dropLast_drop2 hjlt, List.dropLast_concat]
  have hjlt2 : j < (anc ++ [par]).length := by
    simp only [List.length_append, List.length_cons, List.length_nil]
    omega
  refine ⟨?_, ⟨j, by simp; omega, hdl, ?_⟩, ?_⟩
  · rw [hdl, getLast?_drop2 hjlt2, List.getLast?_concat]
  · rcases hbound with h0 | ⟨n, hn, hsafe⟩
    · exact Or.inl h0
    · refine Or.inr ⟨n, ?_, hsafe⟩
      rwa [getD_append_left2 hjlt2] at hn
  · rw [hstack, List.length_dropLast, List.length_drop, hlen]
    omega

theorem loLt_none {a : Nat} : loLt none a := fun _ hl => nomatch hl

theorem getPage_withRoot {s : BTree} {r : Option Nat} {q : Nat} :
    getPage { s with root := r } q = getPage s q := rfl

theorem withRoot_leafMax {s : BTree} {r : Option Nat} :
    ({ s with root := r } : BTree).leafMax = s.leafMax := rfl

theorem withRoot_internalMax {s : BTree} {r : Option Nat} :
    ({ s with root := r } : BTree).internalMax = s.internalMax := rfl

theorem withRoot_keys {s : BTree} {r : Option Nat} :
    ({ s with root := r } : BTree).pages.map Prod.fst = s.pages.map Prod.fst := rfl

theorem subPids_cons_drop {s : BTree} {h pid : Nat} :
    subPids s h pid = pid :: (subPids s h pid).drop 1 := by
  cases h with
  | zero => rfl
  | succ g => rfl

/-- Below the root, a spine node is distinct from the root. -/
theorem spineTo_ne_root {s : BTree} {k r H : Nat} {anc : List Nat} {h q : Nat}
    {lo hi : Option Nat} (hsp : SpineTo s k r H anc h q lo hi) (hanc : anc ≠ [])
    (hnd0 : (subPids s H r).Nodup) : q ≠ r := by
  have hsub := (spineTo_sub hsp).2 hanc
  have hq : q ∈ (subPids s H r).drop 1 := hsub.subset subPids_self
  have hnd2 : (r :: (subPids s H r).drop 1).Nodup := by
    rw [← subPids_cons_drop]
    exact hnd0
  rw [List.nodup_cons] at hnd2
  intro he
  subst he
  exact hnd2.1 hq

/-- The main climb: after a child of the spine splits into `cur` (left,
kept in place) and `B` (right, fresh) with separator `sk`,
`InsertInParentRW` restores a well-formed tree whose contents gained
exactly the inserted pair. -/
theorem climb {s0 : BTree} {k v r0 H0 : Nat}
    (hB0 : Base s0) (hroot0 : s0.root = some r0)
    (hok0 : nodeOK s0 H0 r0 none none)
    (hnd0 : (subPids s0 H0 r0).Nodup) :
    ∀ {anc : List Nat} {hq cur : Nat} {loq hiq : Option Nat},
      SpineTo s0 k r0 H0 anc hq cur loq hiq →
      ∀ (fuel : Nat) (s2 : BTree) (sk B : Nat) (stack : List Nat),
        Base s2 → s2.root = s0.root → s2.leafMax = s0.leafMax →
        s2.internalMax = s0.internalMax → s0.nextPid ≤ s2.nextPid →
        (∀ x, x ∉ subPids s0 hq cur → x < s0.nextPid →
          getPage s2 x = getPage s0 x) →
        nodeOK s2 hq cur loq (some sk) → nodeOK s2 hq B (some sk) hiq →
        loLt loq sk → hiLt hiq sk →
        (subContents s2 hq cur ++ subContents s2 hq B).Perm
          ((k, v) :: subContents s0 hq cur) →
        (subPids s2 hq cur ++ subPids s2 hq B).Nodup →
        (∀ x ∈ subPids s2 hq cur ++ subPids s2 hq B,
          x ∈ subPids s0 hq cur ∨ (s0.nextPid ≤ x ∧ x < s2.nextPid)) →
        (∀ x ∈ subPids s2 hq cur ++ subPids s2 hq B, x ∈ s2.pages.map Prod.fst) →
        (∀ n, getPage s0 cur = some n → isSafe s0 n BOp.INSERT = false) →
        StackRel s0 (anc ++ [cur]) stack →
        stack.length ≤ fuel →
        ∃ s3, insertInParentGo fuel s2 stack cur sk B = some s3 ∧
          Base s3 ∧ s3.leafMax = s0.leafMax ∧ s3.internalMax = s0.internalMax ∧
          ∃ r2 H2, s3.root = some r2 ∧ nodeOK s3 H2 r2 none none ∧
            (subPids s3 H2 r2).Nodup ∧
            (∀ x ∈ subPids s3 H2 r2, x ∈ s3.pages.map Prod.fst) ∧
            (subContents s3 H2 r2).Perm ((k, v) :: subContents s0 H0 r0) := by
  intro anc hq cur loq hiq hsp
  induction hsp with
  | root =>
      intro fuel s2 sk B stack hB2 hroot2 hlm2 him2 hnp2 hag hokc hokB hlosk hhisk
        hperm hnd2 hcont2 hpg2 hful hrel hfuel
      have hstack : stack = [r0] := stackRel_singleton hrel
      subst hstack
      obtain ⟨f, rfl⟩ : ∃ f, fuel = f + 1 := ⟨fuel - 1, by
        simp only [List.length_cons, List.length_nil] at hfuel
        omega⟩
      rw [insertInParentGo]
      rw [if_pos (hroot2.trans hroot0)]
      dsimp only
      have hqlt2 : ∀ y ∈ subPids s2 H0 r0 ++ subPids s2 H0 B, y ≠ s2.nextPid := by
        intro y hy
        rcases hcont2 y hy with h1 | h1
        · obtain ⟨n, hn⟩ := subPids_pages H0 hok0 y h1
          have := hB0.lt y (getPage_mem hn)
          omega
        · omega
      have hagc3 : ∀ y ∈ subPids s2 H0 r0,
          getPage ({ (newPage s2 (BTNode.internal [(0, r0), (sk, B)])).1 with
            root := some (newPage s2 (BTNode.internal [(0, r0), (sk, B)])).2 } :
            BTree) y = getPage s2 y := by
        intro y hy
        rw [getPage_withRoot]
        exact getPage_new_ne (hqlt2 y (List.mem_append_left _ hy))
      have hagB3 : ∀ y ∈ subPids s2 H0 B,
          getPage ({ (newPage s2 (BTNode.internal [(0, r0), (sk, B)])).1 with
            root := some (newPage s2 (BTNode.internal [(0, r0), (sk, B)])).2 } :
            BTree) y = getPage s2 y := by
        intro y hy
        rw [getPage_withRoot]
        exact getPage_new_ne (hqlt2 y (List.mem_append_right _ hy))
      have hokc3 : nodeOK ({ (newPage s2 (BTNode.internal [(0, r0), (sk, B)])).1 with
          root := some (newPage s2 (BTNode.internal [(0, r0), (sk, B)])).2 } : BTree)
          H0 r0 none (some sk) :=
        nodeOK_frame H0 (withRoot_leafMax.trans newPage_leafMax)
          (withRoot_internalMax.trans newPage_internalMax) hagc3 hokc
      have hokB3 : nodeOK ({ (newPage s2 (BTNode.internal [(0, r0), (sk, B)])).1 with
          root := some (newPage s2 (BTNode.internal [(0, r0), (sk, B)])).2 } : BTree)
          H0 B (some sk) none :=
        nodeOK_frame H0 (withRoot_leafMax.trans newPage_leafMax)
          (withRoot_internalMax.trans newPage_internalMax) hagB3 hokB
      have hpage3 : getPage ({ (newPage s2 (BTNode.internal [(0, r0), (sk, B)])).1 with
          root := some (newPage s2 (BTNode.internal [(0, r0), (sk, B)])).2 } : BTree)
          s2.nextPid = some (BTNode.internal [(0, r0), (sk, B)]) := by
        rw [getPage_withRoot]
        exact getPage_new_self hB2.lt
      refine ⟨_, rfl, ?_, withRoot_leafMax.trans (newPage_leafMax.trans hlm2),
        withRoot_internalMax.trans (newPage_internalMax.trans him2),
        s2.nextPid, H0 + 1, rfl, ?_, ?_, ?_, ?_⟩
      · refine ⟨?_, ?_, ?_, ?_⟩
        · rw [withRoot_keys, newPage_keys, List.nodup_append]
          refine ⟨hB2.nd, by simp, ?_⟩
          intro x hx hx2
          have := hB2.lt x hx
          have : x = s2.nextPid := by simpa using hx2
          omega
        · intro pid hpid
          rw [withRoot_keys, newPage_keys] at hpid
          show pid < s2.nextPid + 1
          rcases List.mem_append.mp hpid with h1 | h1
          · have := hB2.lt pid h1
            omega
          · have : pid = s2.nextPid := by simpa using h1
            omega
        · show 2 ≤ s2.leafMax
          exact hB2.lm
        · show 3 ≤ s2.internalMax
          exact hB2.im
      · refine ⟨[(0, r0), (sk, B)], hpage3, by simp, ?_, ?_⟩
        · show 2 ≤ s2.internalMax
          have := hB2.im
          omega
        · exact ⟨hokc3, loLt_none, hiLt_none, hokB3⟩
      · rw [subPids_succ hpage3]
        rw [show ([(0, r0), (sk, B)] : List (Nat × Nat)).drop 1 = [(sk, B)] from rfl]
        rw [show valAtD [(0, r0), (sk, B)] 0 = r0 from rfl]
        show (s2.nextPid :: (subPids _ H0 r0 ++ subPids _ H0 B)).Nodup
        rw [subPids_frame H0 hokc hagc3, subPids_frame H0 hokB hagB3]
        rw [List.nodup_cons]
        refine ⟨?_, hnd2⟩
        intro hmem
        exact hqlt2 _ hmem rfl
      · intro x hx
        rw [subPids_succ hpage3] at hx
        rw [show ([(0, r0), (sk, B)] : List (Nat × Nat)).drop 1 = [(sk, B)] from rfl]
          at hx
        rw [show valAtD [(0, r0), (sk, B)] 0 = r0 from rfl] at hx
        have hx2 : x ∈ s2.nextPid :: (subPids s2 H0 r0 ++ subPids s2 H0 B) := by
          rw [← subPids_frame H0 hokc hagc3, ← subPids_frame H0 hokB hagB3]
          exact hx
        rw [withRoot_keys, newPage_keys]
        rcases List.mem_cons.mp hx2 with h1 | h1
        · subst h1
          exact List.mem_append_right _ (by simp)
        · exact List.mem_append_left _ (hpg2 x h1)
      · rw [subContents_succ hpage3]
        rw [show ([(0, r0), (sk, B)] : List (Nat × Nat)).drop 1 = [(sk, B)] from rfl]
        rw [show valAtD [(0, r0), (sk, B)] 0 = r0 from rfl]
        show (subContents _ H0 r0 ++ subContents _ H0 B).Perm _
        rw [subContents_frame H0 hokc hagc3, subContents_frame H0 hokB hagB3]
        exact hperm
  | child hsp2 hpage hokp hlo hhi hzip hokq hloq hhiq ih =>
      rename_i anc2 h2 par lo2 hi2 loq2 hi22 e2
      intro fuel s2 sk B stack hB2 hroot2 hlm2 him2 hnp2 hag hokc hokB hlosk hhisk
        hperm hnd2 hcont2 hpg2 hful hrel hfuel
      have hspcur : SpineTo s0 k r0 H0 (anc2 ++ [par]) h2
          (pickChild k (e2.drop 1) (valAtD e2 0)) loq2 hi22 :=
        SpineTo.child hsp2 hpage hokp hlo hhi hzip hokq hloq hhiq
      have hcurne : pickChild k (e2.drop 1) (valAtD e2 0) ≠ r0 :=
        spineTo_ne_root hspcur (by simp) hnd0
      have hndpar : (subPids s0 (h2 + 1) par).Nodup := (spineTo_sub hsp2).1.nodup hnd0
      have hndpar2 := hndpar
      rw [subPids_succ hpage] at hndpar2
      have hparnotin2 : par ∉ subPids s0 h2 (pickChild k (e2.drop 1) (valAtD e2 0)) :=
        fun hin => (List.nodup_cons.mp hndpar2).1
          ((pidsF_child_sublist (pick_chCh _ _)).subset hin)
      have hparlt : par < s0.nextPid := hB0.lt par (getPage_mem hpage)
      have hgpar2e : getPage s2 par = some (BTNode.internal e2) :=
        (hag par hparnotin2 hparlt).trans hpage
      have he1 : 1 ≤ e2.length := by
        obtain ⟨e2b, hp2, h1, _, _⟩ := hokp
        have hee : e2 = e2b := by
          rw [hpage] at hp2
          exact (BTNode.internal.injEq _ _).mp ((Option.some.injEq _ _).mp hp2)
        rw [hee]
        exact h1
      obtain ⟨e0, rest0, rfl⟩ : ∃ e0 rest0, e2 = e0 :: rest0 := by
        cases e2 with
        | nil => exact absurd he1 (by simp)
        | cons e0 rest0 => exact ⟨e0, rest0, rfl⟩
      obtain ⟨hlastpar, hrel2, hlen2⟩ := stackRel_step hrel hful
      obtain ⟨f, rfl⟩ : ∃ f, fuel = f + 1 := ⟨fuel - 1, by omega⟩
      rw [insertInParentGo]
      rw [if_neg (by
        rw [hroot2, hroot0]
        intro hcontra
        exact hcurne ((Option.some.injEq _ _).mp hcontra).symm)]
      rw [hlastpar]
      dsimp only
      rw [hgpar2e]
      dsimp only
      by_cases hfull : (e0 :: rest0).length < s2.internalMax
      · rw [if_pos hfull]
        obtain ⟨hoknew, hpermnew, hndnew, hcontnew, hpgnew⟩ :=
          parent_step_insert hB0 hpage hokp hndpar hzip hlm2 him2 hag hokc hokB
            hlosk hhisk hperm hnd2 hcont2 hpg2 (by rw [← him2]; exact hfull)
        have hagp : ∀ x, x ∉ subPids s0 (h2 + 1) par → x < s0.nextPid →
            getPage (setPage s2 par (BTNode.internal
              (internalInsert (e0 :: rest0) (sk, B)))) x = getPage s0 x := by
          intro x hx hlt
          have hxne : x ≠ par := by
            intro hh
            subst hh
            exact hx subPids_self
          rw [getPage_set_ne hxne]
          refine hag x ?_ hlt
          intro hxin
          exact hx ((subPids_child_sublist hpage (pick_chCh _ _)).subset hxin)
        obtain ⟨hokroot, hpermroot, hndroot, hpgroot⟩ := replace_up hB0 hnd0 hsp2
          (setPage s2 par (BTNode.internal (internalInsert (e0 :: rest0) (sk, B))))
          (setPage_leafMax.trans hlm2) (setPage_internalMax.trans him2)
          hnp2 hagp hoknew hpermnew hndnew hcontnew hpgnew
        refine ⟨_, rfl, ?_, setPage_leafMax.trans hlm2, setPage_internalMax.trans him2,
          r0, H0, setPage_root.trans (hroot2.trans hroot0), hokroot, hndroot,
          hpgroot, hpermroot⟩
        refine ⟨?_, ?_, ?_, ?_⟩
        · rw [setPage_keys]
          exact hB2.nd
        · intro pid hpid
          rw [setPage_keys] at hpid
          show pid < s2.nextPid
          exact hB2.lt pid hpid
        · show 2 ≤ s2.leafMax
          exact hB2.lm
        · show 3 ≤ s2.internalMax
          exact hB2.im
      · rw [if_neg hfull]
        rw [show (newPage s2 (BTNode.internal [])).2 = s2.nextPid from rfl]
        have hlenle : (e0 :: rest0).length ≤ s0.internalMax := by
          obtain ⟨e2b, hp2, _, hle, _⟩ := hokp
          have hee : e0 :: rest0 = e2b := by
            rw [hpage] at hp2
            exact (BTNode.internal.injEq _ _).mp ((Option.some.injEq _ _).mp hp2)
          rw [hee]
          exact hle
        have hfull2 : (e0 :: rest0).length = s0.internalMax := by
          rw [him2] at hfull
          omega
        obtain ⟨hokL, hokR, hlokx, hhikx, hpermP, hndP, hcontP, hpgP⟩ :=
          parent_step_split hB0 hpage hokp hndpar hzip hlm2 him2 hnp2 hag hokc hokB
            hlosk hhisk hperm hnd2 hcont2 hpg2 hfull2
            (show (s2.internalMax + 1) / 2 = (s0.internalMax + 1) / 2 by rw [him2])
        have hB3 : Base (setPage (setPage (newPage s2 (BTNode.internal [])).1 par
            (BTNode.internal ((e0 :: splitIns (sk, B) rest0).take
              ((s2.internalMax + 1) / 2)))) s2.nextPid
            (BTNode.internal ((e0 :: splitIns (sk, B) rest0).drop
              ((s2.internalMax + 1) / 2)))) := by
          refine ⟨?_, ?_, ?_, ?_⟩
          · rw [setPage_keys, setPage_keys, newPage_keys, List.nodup_append]
            refine ⟨hB2.nd, by simp, ?_⟩
            intro x hx hx2
            have := hB2.lt x hx
            have : x = s2.nextPid := by simpa using hx2
            omega
          · intro pid hpid
            rw [setPage_keys, setPage_keys, newPage_keys] at hpid
            show pid < s2.nextPid + 1
            rcases List.mem_append.mp hpid with h1 | h1
            · have := hB2.lt pid h1
              omega
            · have : pid = s2.nextPid := by simpa using h1
              omega
          · show 2 ≤ s2.leafMax
            exact hB2.lm
          · show 3 ≤ s2.internalMax
            exact hB2.im
        have hfulpar : ∀ n, getPage s0 par = some n →
            isSafe s0 n BOp.INSERT = false := by
          intro n hn
          rw [hpage] at hn
          have hne : n = BTNode.internal (e0 :: rest0) :=
            ((Option.some.injEq _ _).mp hn).symm
          subst hne
          show decide ((e0 :: rest0).length < s0.internalMax) = false
          rw [hfull2]
          simp
        have hagP : ∀ x, x ∉ subPids s0 (h2 + 1) par → x < s0.nextPid →
            getPage (setPage (setPage (newPage s2 (BTNode.internal [])).1 par
              (BTNode.internal ((e0 :: splitIns (sk, B) rest0).take
                ((s2.internalMax + 1) / 2)))) s2.nextPid
              (BTNode.internal ((e0 :: splitIns (sk, B) rest0).drop
                ((s2.internalMax + 1) / 2)))) x = getPage s0 x := by
          intro x hx hlt
          have hxpar : x ≠ par := by
            intro hh
            subst hh
            exact hx subPids_self
          have hxnp : x ≠ s2.nextPid := by omega
          rw [getPage_set_ne hxnp, getPage_set_ne hxpar, getPage_new_ne hxnp]
          refine hag x ?_ hlt
          intro hxin
          exact hx ((subPids_child_sublist hpage (pick_chCh _ _)).subset hxin)
        obtain ⟨s4, hrec, hB4, hlm4, him4, hrest4⟩ := ih f
          (setPage (setPage (newPage s2 (BTNode.internal [])).1 par
            (BTNode.internal ((e0 :: splitIns (sk, B) rest0).take
              ((s2.internalMax + 1) / 2)))) s2.nextPid
            (BTNode.internal ((e0 :: splitIns (sk, B) rest0).drop
              ((s2.internalMax + 1) / 2))))
          (keyAtD ((e0 :: splitIns (sk, B) rest0).drop ((s2.internalMax + 1) / 2)) 0)
          s2.nextPid stack.dropLast hB3
          (setPage_root.trans (setPage_root.trans (newPage_root.trans hroot2)))
          (setPage_leafMax.trans (setPage_leafMax.trans
            (newPage_leafMax.trans hlm2)))
          (setPage_internalMax.trans (setPage_internalMax.trans
            (newPage_internalMax.trans him2)))
          (by
            show s0.nextPid ≤ s2.nextPid + 1
            omega)
          hagP hokL hokR hlokx hhikx hpermP hndP hcontP hpgP hfulpar hrel2
          (by omega)
        exact ⟨s4, hrec, hB4, hlm4, him4, hrest4⟩

/-! #### Ordered cuts of a sorted slot list -/

theorem sorted_take_lt {e : List (Nat × Nat)} (hs : sKeys e) {i : Nat}
    (hi : i < e.length) : ∀ p ∈ e.take i, p.1 < (e.get ⟨i, hi⟩).1 := by
  intro p hp
  obtain ⟨j, hj, hje⟩ := List.mem_iff_getElem.mp hp
  have hjlen : j < e.length := by
    rw [List.length_take] at hj
    omega
  have hji : j < i := by
    rw [List.length_take] at hj
    omega
  have hpe : p = e[j] := by
    rw [← hje, List.getElem_take]
  rw [hpe]
  exact List.pairwise_iff_getElem.mp hs j i hjlen hi hji

theorem sorted_drop_ge {e : List (Nat × Nat)} (hs : sKeys e) {i : Nat}
    (hi : i < e.length) : ∀ p ∈ e.drop i, (e.get ⟨i, hi⟩).1 ≤ p.1 := by
  intro p hp
  obtain ⟨j, hj, hje⟩ := List.mem_iff_getElem.mp hp
  have hjlen : i + j < e.length := by
    rw [List.length_drop] at hj
    omega
  have hpe : p = e[i + j] := by
    rw [← hje]
    exact (List.getElem_drop' e hjlen).symm
  rw [hpe]
  rcases Nat.eq_zero_or_pos j with hj0 | hj0
  · subst hj0
    exact Nat.le_of_eq rfl
  · exact Nat.le_of_lt (List.pairwise_iff_getElem.mp hs i (i + j) hi hjlen (by omega))

/-- The first slot of the dropped half. -/
theorem keyAtD_drop {e : List (Nat × Nat)} {i : Nat} (hi : i < e.length) :
    keyAtD (e.drop i) 0 = (e.get ⟨i, hi⟩).1 := by
  unfold keyAtD
  rw [List.getD_eq_getElem?_getD, List.getElem?_drop, Nat.add_zero]
  rw [List.getElem?_eq_getElem hi]
  rfl

/-! #### The state invariant of the insert workload -/

/-- A well-formed populated tree holding the (multiset of) pairs `m`.
-/
def GoodTree (s : BTree) (m : List (Nat × Nat)) : Prop :=
  ∃ r H, s.root = some r ∧ nodeOK s H r none none ∧
    (subPids s H r).Nodup ∧
    (∀ x ∈ subPids s H r, x ∈ s.pages.map Prod.fst) ∧
    (subContents s H r).Perm m

/-- The invariant after any run of `Insert` calls from an empty tree. -/
def StateInv (s : BTree) (m : List (Nat × Nat)) : Prop :=
  Base s ∧ ((s.root = none ∧ m = []) ∨ GoodTree s m)

/-- Extend a spine down to the leaf the descent reaches. -/
theorem spineTo_to_leaf {s : BTree} {k r H : Nat} :
    ∀ (h : Nat) {anc : List Nat} {q : Nat} {lo hi : Option Nat},
      SpineTo s k r H anc h q lo hi → nodeOK s h q lo hi →
      loOK lo k → hiLt hi k →
      ∃ anc2 loq hiq,
        SpineTo s k r H anc2 0 ((spine s k h q).getLastD 0) loq hiq ∧
        anc2 ++ [(spine s k h q).getLastD 0] = anc ++ spine s k h q ∧
        nodeOK s 0 ((spine s k h q).getLastD 0) loq hiq ∧
        loOK loq k ∧ hiLt hiq k := by
  intro h
  induction h with
  | zero =>
      intro anc q lo hi hsp hok hlo hhi
      exact ⟨anc, lo, hi, hsp, rfl, hok, hlo, hhi⟩
  | succ g ihg =>
      intro anc q lo hi hsp hok hlo hhi
      obtain ⟨e, h1, h2, h3, h4⟩ := hok
      obtain ⟨loq, hi2b, hzipb, hokpick, hhiq2⟩ := pickZip_of_chain h4 hlo hhi
      have hloqk : loOK loq k := by
        obtain ⟨pre, suf, _, _, _, hloqk, _⟩ := hzipb
        exact hloqk
      have hsp2 : SpineTo s k r H (anc ++ [q]) g
          (pickChild k (e.drop 1) (valAtD e 0)) loq hi2b :=
        SpineTo.child hsp h1 ⟨e, h1, h2, h3, h4⟩ hlo hhi hzipb hokpick hloqk hhiq2
      obtain ⟨anc2, loq2, hiq2, hsp3, heq, hok3, hlo3, hhi3⟩ :=
        ihg hsp2 hokpick hloqk hhiq2
      have hlastq : (spine s k (g + 1) q).getLastD 0 =
          (spine s k g (pickChild k (e.drop 1) (valAtD e 0))).getLastD 0 := by
        rw [spine_succ h1, List.getLastD_cons]
        exact getLastD_ne_nil _ spine_ne_nil q 0
      rw [hlastq]
      refine ⟨anc2, loq2, hiq2, hsp3, ?_, hok3, hlo3, hhi3⟩
      rw [heq, spine_succ h1]
      rw [List.append_assoc]
      rfl

/-- `BPlusTree::Insert` on a populated well-formed tree with a fresh
key: succeeds and adds exactly the pair. -/
theorem insert_good {s : BTree} {m : List (Nat × Nat)} {k v r H : Nat}
    (hB : Base s) (hroot : s.root = some r) (hok : nodeOK s H r none none)
    (hnd : (subPids s H r).Nodup)
    (hpg : ∀ x ∈ subPids s H r, x ∈ s.pages.map Prod.fst)
    (hperm : (subContents s H r).Perm m)
    (hfresh : k ∉ m.map Prod.fst) :
    ∃ s2, insertBPT s k v = some (s2, true) ∧ StateInv s2 ((k, v) :: m) := by
  have hfuel : H < s.pages.length + 1 := by
    have h1 := subPids_long H hok
    have h2 := nodup_sub_length hnd hpg
    have h3 : (s.pages.map Prod.fst).length = s.pages.length := List.length_map _ _
    omega
  have hrun := findLeafGo_run k BOp.INSERT H [r] (s.pages.length + 1) hok loOK_none
    hiLt_none hfuel
  obtain ⟨t0, ht0⟩ := spine_cons s k H r
  obtain ⟨L, le, lnext, lo2, hi2, hL, hpage, hok0x, hlo2x, hhi2x, hiff⟩ :=
    spine_last_facts k H hok loOK_none hiLt_none
  obtain ⟨anc2, loq, hiq, hspleaf, hanc2, hokleaf, hloq, hhiq⟩ :=
    spineTo_to_leaf H SpineTo.root hok loOK_none hiLt_none
  rw [hL] at hspleaf hanc2 hokleaf
  rw [List.nil_append] at hanc2
  obtain ⟨le2, ln2, hpage2, hlen1, hlenle, hsort, hbounds⟩ := hokleaf
  have hle2 : le = le2 ∧ lnext = ln2 := by
    rw [hpage] at hpage2
    have h5 := (Option.some.injEq _ _).mp hpage2
    injection h5 with h7 h8
    exact ⟨h7, h8⟩
  obtain ⟨hle2a, hle2b⟩ := hle2
  subst hle2a
  subst hle2b
  have hLlt : L < s.nextPid := hB.lt L (getPage_mem hpage)
  have hfreshle : ∀ p ∈ le, p.1 ≠ k := by
    intro p hp hpk
    apply hfresh
    have hmem : p ∈ subContents s H r := (hiff p hpk).mpr hp
    have hmm : p ∈ m := hperm.subset hmem
    rw [← hpk]
    exact List.mem_map_of_mem Prod.fst hmm
  have hSTlast : (foldStack s BOp.INSERT [r] ((spine s k H r).drop 1)).getLastD 0 =
      L := by
    rw [foldStack_last _ [r] (by simp)]
    rw [show [r] ++ (spine s k H r).drop 1 = spine s k H r by
      rw [ht0]
      rfl]
    exact hL
  have hSTrel : StackRel s (anc2 ++ [L])
      (foldStack s BOp.INSERT [r] ((spine s k H r).drop 1)) := by
    rw [hanc2]
    have hbase : StackRel s [r] [r] := ⟨0, by simp, rfl, Or.inl rfl⟩
    have h6 := foldStack_rel ((spine s k H r).drop 1) [r] [r] (by simp) hbase
    rwa [show [r] ++ (spine s k H r).drop 1 = spine s k H r by
      rw [ht0]
      rfl] at h6
  unfold insertBPT findLeafPageRW
  rw [hroot]
  dsimp only
  rw [hrun]
  dsimp only
  unfold insertAtLeaf
  rw [hSTlast, hpage]
  dsimp only
  rw [leafInsertAt_fresh hfreshle]
  dsimp only
  have hidx : leafKeyIndex le k ≤ le.length := by
    rw [leafKeyIndex_eq hsort]
    exact (List.takeWhile_prefix _).length_le
  have hlen2 : (le.take (leafKeyIndex le k) ++
      (k, v) :: le.drop (leafKeyIndex le k)).length = le.length + 1 := by
    rw [List.length_append, List.length_cons, List.length_take, List.length_drop]
    omega
  have hsorted2 : sKeys (le.take (leafKeyIndex le k) ++
      (k, v) :: le.drop (leafKeyIndex le k)) := insert_leaf_sorted hsort hfreshle
  have hperm2 : (le.take (leafKeyIndex le k) ++
      (k, v) :: le.drop (leafKeyIndex le k)).Perm ((k, v) :: le) := take_insert_perm
  have hmem2 : ∀ p ∈ le.take (leafKeyIndex le k) ++
      (k, v) :: le.drop (leafKeyIndex le k), loOK loq p.1 ∧ hiLt hiq p.1 := by
    intro p hp
    have hp2 := hperm2.subset hp
    rcases List.mem_cons.mp hp2 with h1 | h1
    · rw [h1]
      exact ⟨hloq, hhiq⟩
    · exact hbounds p h1
  by_cases hsplit : (le.take (leafKeyIndex le k) ++
      (k, v) :: le.drop (leafKeyIndex le k)).length = s.leafMax
  · rw [if_pos hsplit]
    rw [show (newPage s (BTNode.leaf [] none)).2 = s.nextPid from rfl]
    have hLmem : L ∈ s.pages.map Prod.fst := getPage_mem hpage
    have hlm := hB.lm
    have hM1 : 1 ≤ ((le.take (leafKeyIndex le k) ++ (k, v) :: le.drop (leafKeyIndex le k)).length / 2) := by
      rw [hsplit]
      omega
    have hMlt : ((le.take (leafKeyIndex le k) ++ (k, v) :: le.drop (leafKeyIndex le k)).length / 2) < (le.take (leafKeyIndex le k) ++ (k, v) :: le.drop (leafKeyIndex le k)).length := by
      omega
    have hskk : (keyAtD ((le.take (leafKeyIndex le k) ++ (k, v) :: le.drop (leafKeyIndex le k)).drop ((le.take (leafKeyIndex le k) ++ (k, v) :: le.drop (leafKeyIndex le k)).length / 2)) 0) = ((le.take (leafKeyIndex le k) ++ (k, v) :: le.drop (leafKeyIndex le k)).get ⟨((le.take (leafKeyIndex le k) ++ (k, v) :: le.drop (leafKeyIndex le k)).length / 2), hMlt⟩).1 := keyAtD_drop hMlt
    have hLnp : L ≠ s.nextPid := by omega
    have hpgL2 : getPage (setPage (setPage (newPage s (BTNode.leaf [] none)).1 L (BTNode.leaf ((le.take (leafKeyIndex le k) ++ (k, v) :: le.drop (leafKeyIndex le k)).take ((le.take (leafKeyIndex le k) ++ (k, v) :: le.drop (leafKeyIndex le k)).length / 2)) (some s.nextPid))) s.nextPid (BTNode.leaf ((le.take (leafKeyIndex le k) ++ (k, v) :: le.drop (leafKeyIndex le k)).drop ((le.take (leafKeyIndex le k) ++ (k, v) :: le.drop (leafKeyIndex le k)).length / 2)) lnext)) L =
        some (BTNode.leaf ((le.take (leafKeyIndex le k) ++ (k, v) :: le.drop (leafKeyIndex le k)).take ((le.take (leafKeyIndex le k) ++ (k, v) :: le.drop (leafKeyIndex le k)).length / 2)) (some s.nextPid)) := by
      rw [getPage_set_ne hLnp]
      refine getPage_set_self ?_
      rw [newPage_keys]
      exact List.mem_append_left _ hLmem
    have hpgnp2 : getPage (setPage (setPage (newPage s (BTNode.leaf [] none)).1 L (BTNode.leaf ((le.take (leafKeyIndex le k) ++ (k, v) :: le.drop (leafKeyIndex le k)).take ((le.take (leafKeyIndex le k) ++ (k, v) :: le.drop (leafKeyIndex le k)).length / 2)) (some s.nextPid))) s.nextPid (BTNode.leaf ((le.take (leafKeyIndex le k) ++ (k, v) :: le.drop (leafKeyIndex le k)).drop ((le.take (leafKeyIndex le k) ++ (k, v) :: le.drop (leafKeyIndex le k)).length / 2)) lnext)) s.nextPid =
        some (BTNode.leaf ((le.take (leafKeyIndex le k) ++ (k, v) :: le.drop (leafKeyIndex le k)).drop ((le.take (leafKeyIndex le k) ++ (k, v) :: le.drop (leafKeyIndex le k)).length / 2)) lnext) := by
      refine getPage_set_self ?_
      rw [setPage_keys, newPage_keys]
      exact List.mem_append_right _ (by simp)
    have hokLS2 : nodeOK (setPage (setPage (newPage s (BTNode.leaf [] none)).1 L (BTNode.leaf ((le.take (leafKeyIndex le k) ++ (k, v) :: le.drop (leafKeyIndex le k)).take ((le.take (leafKeyIndex le k) ++ (k, v) :: le.drop (leafKeyIndex le k)).length / 2)) (some s.nextPid))) s.nextPid (BTNode.leaf ((le.take (leafKeyIndex le k) ++ (k, v) :: le.drop (leafKeyIndex le k)).drop ((le.take (leafKeyIndex le k) ++ (k, v) :: le.drop (leafKeyIndex le k)).length / 2)) lnext)) 0 L loq (some (keyAtD ((le.take (leafKeyIndex le k) ++ (k, v) :: le.drop (leafKeyIndex le k)).drop ((le.take (leafKeyIndex le k) ++ (k, v) :: le.drop (leafKeyIndex le k)).length / 2)) 0)) := by
      refine ⟨_, _, hpgL2, ?_, ?_, hsorted2.sublist (List.take_sublist _ _), ?_⟩
      · simp only [List.length_take]
        omega
      · show ((le.take (leafKeyIndex le k) ++ (k, v) :: le.drop (leafKeyIndex le k)).take ((le.take (leafKeyIndex le k) ++ (k, v) :: le.drop (leafKeyIndex le k)).length / 2)).length ≤ s.leafMax - 1
        simp only [List.length_take]
        omega
      · intro p hp
        refine ⟨(hmem2 p ((List.take_sublist _ _).subset hp)).1, ?_⟩
        intro hh hhe
        have := (Option.some.injEq _ _).mp hhe
        subst this
        rw [hskk]
        exact sorted_take_lt hsorted2 hMlt p hp
    have hoknpS2 : nodeOK (setPage (setPage (newPage s (BTNode.leaf [] none)).1 L (BTNode.leaf ((le.take (leafKeyIndex le k) ++ (k, v) :: le.drop (leafKeyIndex le k)).take ((le.take (leafKeyIndex le k) ++ (k, v) :: le.drop (leafKeyIndex le k)).length / 2)) (some s.nextPid))) s.nextPid (BTNode.leaf ((le.take (leafKeyIndex le k) ++ (k, v) :: le.drop (leafKeyIndex le k)).drop ((le.take (leafKeyIndex le k) ++ (k, v) :: le.drop (leafKeyIndex le k)).length / 2)) lnext)) 0 s.nextPid (some (keyAtD ((le.take (leafKeyIndex le k) ++ (k, v) :: le.drop (leafKeyIndex le k)).drop ((le.take (leafKeyIndex le k) ++ (k, v) :: le.drop (leafKeyIndex le k)).length / 2)) 0)) hiq := by
      refine ⟨_, _, hpgnp2, ?_, ?_, hsorted2.sublist (List.drop_sublist _ _), ?_⟩
      · simp only [List.length_drop]
        omega
      · show ((le.take (leafKeyIndex le k) ++ (k, v) :: le.drop (leafKeyIndex le k)).drop ((le.take (leafKeyIndex le k) ++ (k, v) :: le.drop (leafKeyIndex le k)).length / 2)).length ≤ s.leafMax - 1
        simp only [List.length_drop]
        omega
      · intro p hp
        refine ⟨?_, (hmem2 p ((List.drop_sublist _ _).subset hp)).2⟩
        intro l hl
        have := (Option.some.injEq _ _).mp hl
        subst this
        rw [hskk]
        exact sorted_drop_ge hsorted2 hMlt p hp
    have hloltsk : loLt loq (keyAtD ((le.take (leafKeyIndex le k) ++ (k, v) :: le.drop (leafKeyIndex le k)).drop ((le.take (leafKeyIndex le k) ++ (k, v) :: le.drop (leafKeyIndex le k)).length / 2)) 0) := by
      intro l hl
      rw [hskk]
      have h0lt : 0 < (le.take (leafKeyIndex le k) ++ (k, v) :: le.drop (leafKeyIndex le k)).length := by omega
      have h00 := (hmem2 ((le.take (leafKeyIndex le k) ++ (k, v) :: le.drop (leafKeyIndex le k)).get ⟨0, h0lt⟩) (List.get_mem _ _ _)).1 l hl
      have hpair := List.pairwise_iff_getElem.mp hsorted2 0 ((le.take (leafKeyIndex le k) ++ (k, v) :: le.drop (leafKeyIndex le k)).length / 2) h0lt hMlt (by omega)
      have hg0 : ((le.take (leafKeyIndex le k) ++ (k, v) :: le.drop (leafKeyIndex le k)).get ⟨0, h0lt⟩) = (le.take (leafKeyIndex le k) ++ (k, v) :: le.drop (leafKeyIndex le k))[0] := rfl
      have hgM : ((le.take (leafKeyIndex le k) ++ (k, v) :: le.drop (leafKeyIndex le k)).get ⟨((le.take (leafKeyIndex le k) ++ (k, v) :: le.drop (leafKeyIndex le k)).length / 2), hMlt⟩) = (le.take (leafKeyIndex le k) ++ (k, v) :: le.drop (leafKeyIndex le k))[((le.take (leafKeyIndex le k) ++ (k, v) :: le.drop (leafKeyIndex le k)).length / 2)] := rfl
      rw [hg0] at h00
      rw [hgM]
      omega
    have hhiltsk : hiLt hiq (keyAtD ((le.take (leafKeyIndex le k) ++ (k, v) :: le.drop (leafKeyIndex le k)).drop ((le.take (leafKeyIndex le k) ++ (k, v) :: le.drop (leafKeyIndex le k)).length / 2)) 0) := by
      intro hh hhe
      rw [hskk]
      exact (hmem2 ((le.take (leafKeyIndex le k) ++ (k, v) :: le.drop (leafKeyIndex le k)).get ⟨((le.take (leafKeyIndex le k) ++ (k, v) :: le.drop (leafKeyIndex le k)).length / 2), hMlt⟩) (List.get_mem _ _ _)).2 hh hhe
    have hBS2 : Base (setPage (setPage (newPage s (BTNode.leaf [] none)).1 L (BTNode.leaf ((le.take (leafKeyIndex le k) ++ (k, v) :: le.drop (leafKeyIndex le k)).take ((le.take (leafKeyIndex le k) ++ (k, v) :: le.drop (leafKeyIndex le k)).length / 2)) (some s.nextPid))) s.nextPid (BTNode.leaf ((le.take (leafKeyIndex le k) ++ (k, v) :: le.drop (leafKeyIndex le k)).drop ((le.take (leafKeyIndex le k) ++ (k, v) :: le.drop (leafKeyIndex le k)).length / 2)) lnext)) := by
      refine ⟨?_, ?_, ?_, ?_⟩
      · rw [setPage_keys, setPage_keys, newPage_keys, List.nodup_append]
        refine ⟨hB.nd, by simp, ?_⟩
        intro x hx hx2
        have := hB.lt x hx
        have : x = s.nextPid := by simpa using hx2
        omega
      · intro pid hpid
        rw [setPage_keys, setPage_keys, newPage_keys] at hpid
        show pid < s.nextPid + 1
        rcases List.mem_append.mp hpid with h1 | h1
        · have := hB.lt pid h1
          omega
        · have : pid = s.nextPid := by simpa using h1
          omega
      · show 2 ≤ s.leafMax
        exact hB.lm
      · show 3 ≤ s.internalMax
        exact hB.im
    have hagS2 : ∀ x, x ∉ subPids s 0 L → x < s.nextPid →
        getPage (setPage (setPage (newPage s (BTNode.leaf [] none)).1 L (BTNode.leaf ((le.take (leafKeyIndex le k) ++ (k, v) :: le.drop (leafKeyIndex le k)).take ((le.take (leafKeyIndex le k) ++ (k, v) :: le.drop (leafKeyIndex le k)).length / 2)) (some s.nextPid))) s.nextPid (BTNode.leaf ((le.take (leafKeyIndex le k) ++ (k, v) :: le.drop (leafKeyIndex le k)).drop ((le.take (leafKeyIndex le k) ++ (k, v) :: le.drop (leafKeyIndex le k)).length / 2)) lnext)) x = getPage s x := by
      intro x hx hlt
      have hxL : x ≠ L := by
        intro hh
        subst hh
        exact hx subPids_self
      have hxnp : x ≠ s.nextPid := by omega
      rw [getPage_set_ne hxnp, getPage_set_ne hxL, getPage_new_ne hxnp]
    have hfulL : ∀ n, getPage s L = some n → isSafe s n BOp.INSERT = false := by
      intro n hn
      rw [hpage] at hn
      have hne : n = BTNode.leaf le lnext := ((Option.some.injEq _ _).mp hn).symm
      subst hne
      show decide (le.length < s.leafMax - 1) = false
      rw [show le.length = s.leafMax - 1 from by omega]
      simp
    obtain ⟨s3, hrec, hB3, hlm3, him3, r2, H2, hroot3, hok3, hnd3, hpg3, hperm3⟩ :=
      climb hB hroot hok hnd hspleaf (foldStack s BOp.INSERT [r] ((spine s k H r).drop 1)).length (setPage (setPage (newPage s (BTNode.leaf [] none)).1 L (BTNode.leaf ((le.take (leafKeyIndex le k) ++ (k, v) :: le.drop (leafKeyIndex le k)).take ((le.take (leafKeyIndex le k) ++ (k, v) :: le.drop (leafKeyIndex le k)).length / 2)) (some s.nextPid))) s.nextPid (BTNode.leaf ((le.take (leafKeyIndex le k) ++ (k, v) :: le.drop (leafKeyIndex le k)).drop ((le.take (leafKeyIndex le k) ++ (k, v) :: le.drop (leafKeyIndex le k)).length / 2)) lnext)) (keyAtD ((le.take (leafKeyIndex le k) ++ (k, v) :: le.drop (leafKeyIndex le k)).drop ((le.take (leafKeyIndex le k) ++ (k, v) :: le.drop (leafKeyIndex le k)).length / 2)) 0) s.nextPid (foldStack s BOp.INSERT [r] ((spine s k H r).drop 1))
        hBS2 rfl rfl rfl (by
          show s.nextPid ≤ s.nextPid + 1
          omega)
        hagS2 hokLS2 hoknpS2 hloltsk hhiltsk
        (by
          rw [subContents_zero hpgL2, subContents_zero hpgnp2,
            subContents_zero hpage, List.take_append_drop]
          exact hperm2)
        (by
          show ([L] ++ [s.nextPid] : List Nat).Nodup
          simp
          omega)
        (by
          intro x hx
          rcases List.mem_append.mp hx with h1 | h1
          · have h2 : x ∈ ([L] : List Nat) := h1
            have hxL : x = L := by simpa using h2
            subst hxL
            exact Or.inl subPids_self
          · have h2 : x ∈ ([s.nextPid] : List Nat) := h1
            have hxnp : x = s.nextPid := by simpa using h2
            subst hxnp
            refine Or.inr ⟨Nat.le_refl _, ?_⟩
            show s.nextPid < s.nextPid + 1
            omega)
        (by
          intro x hx
          rw [setPage_keys, setPage_keys, newPage_keys]
          rcases List.mem_append.mp hx with h1 | h1
          · have h2 : x ∈ ([L] : List Nat) := h1
            have hxL : x = L := by simpa using h2
            subst hxL
            exact List.mem_append_left _ hLmem
          · have h2 : x ∈ ([s.nextPid] : List Nat) := h1
            have hxnp : x = s.nextPid := by simpa using h2
            subst hxnp
            exact List.mem_append_right _ (by simp))
        hfulL hSTrel (Nat.le_refl _)
    rw [hrec]
    dsimp only
    exact ⟨s3, rfl, hB3,
      Or.inr ⟨r2, H2, hroot3, hok3, hnd3, hpg3, hperm3.trans (hperm.cons _)⟩⟩
  · rw [if_neg hsplit]
    refine ⟨_, rfl, ?_, ?_⟩
    · refine ⟨?_, ?_, ?_, ?_⟩
      · rw [setPage_keys]
        exact hB.nd
      · intro pid hpid
        rw [setPage_keys] at hpid
        show pid < s.nextPid
        exact hB.lt pid hpid
      · show 2 ≤ s.leafMax
        exact hB.lm
      · show 3 ≤ s.internalMax
        exact hB.im
    · right
      have hLmem : L ∈ s.pages.map Prod.fst := getPage_mem hpage
      have hpagenew : getPage (setPage s L (BTNode.leaf
          (le.take (leafKeyIndex le k) ++ (k, v) :: le.drop (leafKeyIndex le k))
          lnext)) L = some (BTNode.leaf
          (le.take (leafKeyIndex le k) ++ (k, v) :: le.drop (leafKeyIndex le k))
          lnext) := getPage_set_self hLmem
      have hokL2 : nodeOK (setPage s L (BTNode.leaf
          (le.take (leafKeyIndex le k) ++ (k, v) :: le.drop (leafKeyIndex le k))
          lnext)) 0 L loq hiq := by
        refine ⟨_, _, hpagenew, ?_, ?_, hsorted2, hmem2⟩
        · rw [hlen2]
          omega
        · show _ ≤ s.leafMax - 1
          rw [hlen2]
          have := hB.lm
          rw [hlen2] at hsplit
          omega
      have hag2 : ∀ x, x ∉ subPids s 0 L → x < s.nextPid →
          getPage (setPage s L (BTNode.leaf
            (le.take (leafKeyIndex le k) ++ (k, v) :: le.drop (leafKeyIndex le k))
            lnext)) x = getPage s x := by
        intro x hx _
        refine getPage_set_ne ?_
        intro hh
        subst hh
        exact hx subPids_self
      obtain ⟨hokroot, hpermroot, hndroot, hpgroot⟩ := replace_up hB hnd hspleaf
        (setPage s L (BTNode.leaf
          (le.take (leafKeyIndex le k) ++ (k, v) :: le.drop (leafKeyIndex le k))
          lnext))
        setPage_leafMax setPage_internalMax (Nat.le_refl _) hag2 hokL2
        (by
          rw [subContents_zero hpagenew, subContents_zero hpage]
          exact hperm2)
        (by
          show ([L] : List Nat).Nodup
          simp)
        (by
          intro x hx
          left
          have hxL : x = L := by simpa [subPids] using hx
          subst hxL
          exact subPids_self)
        (by
          intro x hx
          have hxL : x = L := by simpa [subPids] using hx
          subst hxL
          rw [setPage_keys]
          exact hLmem)
      exact ⟨r, H, setPage_root.trans hroot, hokroot, hndroot, hpgroot,
        hpermroot.trans (hperm.cons _)⟩

/-- `BPlusTree::Insert` on the empty tree: starts a new one-leaf tree
holding the pair. -/
theorem insert_empty {s : BTree} {k v : Nat} (hB : Base s) (hroot : s.root = none) :
    ∃ s2, insertBPT s k v = some (s2, true) ∧ StateInv s2 [(k, v)] := by
  unfold insertBPT findLeafPageRW
  rw [hroot]
  dsimp only
  rw [if_pos rfl]
  rw [show (startNewTree s).root = some s.nextPid from rfl]
  dsimp only
  have hpg1 : getPage (startNewTree s) s.nextPid = some (BTNode.leaf [] none) :=
    getPage_new_self hB.lt
  rw [findLeafGo, hpg1]
  dsimp only
  unfold insertAtLeaf
  rw [show ([s.nextPid] : List Nat).getLastD 0 = s.nextPid from rfl]
  rw [hpg1]
  dsimp only
  rw [show leafInsertAt [] (k, v) (leafKeyIndex [] k) = some [(k, v)] from rfl]
  dsimp only
  rw [if_neg (by
    show ¬([(k, v)] : List (Nat × Nat)).length = (startNewTree s).leafMax
    show ¬1 = s.leafMax
    have := hB.lm
    omega)]
  have hk1 : (startNewTree s).pages.map Prod.fst =
      s.pages.map Prod.fst ++ [s.nextPid] := newPage_keys
  have hnpmem : s.nextPid ∈ (startNewTree s).pages.map Prod.fst := by
    rw [hk1]
    exact List.mem_append_right _ (by simp)
  have hpgset : getPage (setPage (startNewTree s) s.nextPid
      (BTNode.leaf [(k, v)] none)) s.nextPid = some (BTNode.leaf [(k, v)] none) :=
    getPage_set_self hnpmem
  refine ⟨_, rfl, ⟨?_, ?_, ?_, ?_⟩, ?_⟩
  · rw [setPage_keys, hk1, List.nodup_append]
    refine ⟨hB.nd, by simp, ?_⟩
    intro x hx hx2
    have := hB.lt x hx
    have : x = s.nextPid := by simpa using hx2
    omega
  · intro pid hpid
    rw [setPage_keys, hk1] at hpid
    show pid < s.nextPid + 1
    rcases List.mem_append.mp hpid with h1 | h1
    · have := hB.lt pid h1
      omega
    · have : pid = s.nextPid := by simpa using h1
      omega
  · show 2 ≤ s.leafMax
    exact hB.lm
  · show 3 ≤ s.internalMax
    exact hB.im
  · right
    refine ⟨s.nextPid, 0, rfl, ?_, ?_, ?_, ?_⟩
    · refine ⟨[(k, v)], none, hpgset, by simp, ?_, ?_, ?_⟩
      · show 1 ≤ s.leafMax - 1
        have := hB.lm
        omega
      · exact List.pairwise_singleton _ _
      · intro p _
        exact ⟨loOK_none, hiLt_none⟩
    · show ([s.nextPid] : List Nat).Nodup
      simp
    · intro x hx
      have h2 : x ∈ ([s.nextPid] : List Nat) := hx
      have hxnp : x = s.nextPid := by simpa using h2
      subst hxnp
      rw [setPage_keys, hk1]
      exact List.mem_append_right _ (by simp)
    · rw [subContents_zero hpgset]

/-- `BPlusTree::Insert` of a fresh key always succeeds and adds exactly
the pair. -/
theorem insert_ok {s : BTree} {m : List (Nat × Nat)} {k v : Nat}
    (hinv : StateInv s m) (hfresh : k ∉ m.map Prod.fst) :
    ∃ s2, insertBPT s k v = some (s2, true) ∧ StateInv s2 ((k, v) :: m) := by
  obtain ⟨hB, hcase⟩ := hinv
  rcases hcase with ⟨hroot, hm⟩ | ⟨r, H, hroot, hok, hnd, hpg, hperm⟩
  · subst hm
    exact insert_empty hB hroot
  · exact insert_good hB hroot hok hnd hpg hperm hfresh

/-- A whole run of `Insert` calls with pairwise-fresh keys. -/
theorem insertSeq_ok : ∀ (ops : List (Nat × Nat)) (s : BTree) (m : List (Nat × Nat)),
    StateInv s m → (m.map Prod.fst ++ ops.map Prod.fst).Nodup →
    ∃ s2 m2, insertSeq ops s = some s2 ∧ StateInv s2 m2 ∧ m2.Perm (m ++ ops) := by
  intro ops
  induction ops with
  | nil =>
      intro s m hinv _
      exact ⟨s, m, rfl, hinv, by rw [List.append_nil]⟩
  | cons p t ih =>
      intro s m hinv hnd
      obtain ⟨kp, vp⟩ := p
      have hfresh : kp ∉ m.map Prod.fst := by
        rw [List.nodup_append] at hnd
        intro hmem
        exact hnd.2.2 hmem (by simp)
      obtain ⟨s2, hib, hinv2⟩ := insert_ok hinv hfresh
      rw [insertSeq, hib]
      dsimp only
      have hnd2 : (((kp, vp) :: m).map Prod.fst ++ t.map Prod.fst).Nodup := by
        refine (List.Perm.nodup_iff ?_).mpr hnd
        exact List.perm_middle.symm
      obtain ⟨s3, m3, hseq, hinv3, hperm3⟩ := ih s2 ((kp, vp) :: m) hinv2 hnd2
      refine ⟨s3, m3, hseq, hinv3, hperm3.trans ?_⟩
      exact List.perm_middle.symm

/-- C1: B+ tree round-trip — for every sequence of `Insert(k, v)` calls
with pairwise distinct keys starting from an empty tree, every insert
succeeds, and a subsequent `GetValue(k)` for each inserted key `k`
succeeds and yields exactly the RID `v` that was inserted with `k`. -/
theorem bplus_insert_getValue_roundtrip (lm im : Nat) (ops : List (Nat × Nat))
    (hlm : 2 ≤ lm) (him : 3 ≤ im) (hnd : (ops.map Prod.fst).Nodup) :
    ∃ s, insertSeq ops (initBPT lm im) = some s ∧
      ∀ p ∈ ops, getValue s p.1 = some p.2 := by
  have hinv0 : StateInv (initBPT lm im) [] := by
    refine ⟨⟨?_, ?_, hlm, him⟩, Or.inl ⟨rfl, rfl⟩⟩
    · show (([] : List (Nat × BTNode)).map Prod.fst).Nodup
      simp
    · intro pid hpid
      exact absurd hpid (by simp [initBPT])
  obtain ⟨s2, m2, hseq, ⟨hB2, hcase⟩, hperm⟩ :=
    insertSeq_ok ops (initBPT lm im) [] hinv0 (by simpa using hnd)
  refine ⟨s2, hseq, ?_⟩
  intro p hp
  have hpm : p ∈ m2 := hperm.mem_iff.mpr (by
    rw [List.nil_append]
    exact hp)
  rcases hcase with ⟨hroot, hm⟩ | ⟨r, H, hroot, hok, hnd2, hpg, hperm2⟩
  · subst hm
    exact absurd hpm (by simp)
  · have hmem : (p.1, p.2) ∈ subContents s2 H r := hperm2.mem_iff.mpr hpm
    exact getValue_hit hroot hok hnd2 hpg hmem

theorem bplus_insert_getValue_roundtrip_witness :
    2 ≤ 2 ∧ 3 ≤ 3 ∧
    (([(5, 50), (3, 30), (8, 80), (1, 10)].map Prod.fst).Nodup) ∧
    ∃ s, insertSeq [(5, 50), (3, 30), (8, 80), (1, 10)] (initBPT 2 3) = some s ∧
      ∀ p ∈ [(5, 50), (3, 30), (8, 80), (1, 10)], getValue s p.1 = some p.2 :=
  ⟨by decide, by decide, by decide,
    bplus_insert_getValue_roundtrip 2 3 [(5, 50), (3, 30), (8, 80), (1, 10)]
      (by decide) (by decide) (by decide)⟩

end BusTub
